import Mathlib

/-!
# Linear cryptanalysis of the AES S-box: embedding and verification

Shallow embedding of `AESsbox.c` (S-box derivation over GF(2^8)), of
`linearcrypt.c` (deviation table of an S-box) and of `writesbox` (shared by
`AESsbox.c` and `randomsbox.c`), followed by the theorems that settle the
specification's statements about them.

Conventions of the embedding.

* C `int` and `unsigned char` values are natural numbers.  Every `unsigned char`
  assignment is reduced modulo 256.  For the arguments the program uses
  (bytes, products below `2^16`, reduction polynomials below `2^9`) no `int`
  computation leaves the range `[0, 2^31)`, so no wrap-around is modelled.
  The same holds for `modpoly` on a product below `2^15` and a reduction
  polynomial below `2^24`, which is shifted left at most 7 times.
* A C array is a total map from index to value (`Arr`); an uninitialised array
  is an arbitrary map supplied by the caller of the model.
* A `while` loop is iterated with fuel (`whileLoop`) and yields `none` when the
  fuel is exhausted; a `for` loop over a constant range is a fold over that range.
  One `fuel` bounds every `while` loop of a run; the theorems show which amount
  suffices (`10` for `modpoly`, `256` for the searches).
* The `double` values of `linearcrypt.c` are rational numbers: every deviation is
  a quotient by 128 or 256 and exact in binary floating point.  The library
  routine `qsort` is a parameter of `sortprobs`; its code is not part of the
  sources, and it is modelled by the quick sort `qsort`, which decides by the
  sign of the comparison function.  Of `totxt` only the arrangement of the
  printed entries is modelled.
* The content of a text file is a list of characters; `fprintf` with `%d` appends
  decimal digits, `fscanf` with `%d` is `scanInt`.
* Finite checks over all bytes are evaluated by the kernel (`decide!`); everything
  that ranges over the reduction polynomial is proved algebraically.
-/

namespace SBox

/-! ## Part 1: definitions -/

/-- A C array of `int`: a total map from index to value. -/
abbrev Arr := Nat → Nat

/-- The array `a` after the assignment `a[i] = v`. -/
def Arr.set (a : Arr) (i v : Nat) : Arr := fun k => if k = i then v else a k

/-- A `while (cond) body` loop run with at most `fuel` evaluations of the condition
that find it true; `none` when the fuel does not suffice or the body fails. -/
def whileLoop {σ : Type} (cond : σ → Bool) (body : σ → Option σ) : Nat → σ → Option σ
  | 0, _ => none
  | fuel + 1, s => if cond s then (body s).bind (whileLoop cond body fuel) else some s

/-- The rotation `x = x << 1 | x >> 7` of an `unsigned char`. -/
def rotl8 (x : Nat) : Nat := ((x <<< 1) ||| (x >>> 7)) % 256

/-- The rotation `x = x << 7 | x >> 1` of an `unsigned char`. -/
def rotr8 (x : Nat) : Nat := ((x <<< 7) ||| (x >>> 1)) % 256

/-- The function `odd` of both programs: parity of the right-most 8 bits.
The loop state is `(a, sum)`. -/
def odd (a : Nat) : Bool :=
  ((List.range 8).foldl
    (fun (st : Nat × Nat) _ =>
      (st.1 >>> 1, if st.1 % 2 = 1 then st.2 + 1 else st.2)) (a, 0)).2 % 2 == 1

/-- Inner `for (j=0; j<8; j++)` loop of `multpoly` for the outer index `i` and the
already rotated `a`; the state is `(b, gf2s)`. -/
def multpolyRow (a i : Nat) (st : Nat × Arr) : Nat × Arr :=
  (List.range 8).foldl
    (fun (t : Nat × Arr) j =>
      let b := rotl8 t.1
      (b, t.2.set (i * 8 + j)
        ((if a % 2 = 1 then 1 <<< (7 - i) else 0) * (if b % 2 = 1 then 1 <<< (7 - j) else 0))))
    st

/-- The array `gf2s` of the 64 coefficient products at the end of the double loop of
`multpoly`; `gf2s0` is the uninitialised content of the array. -/
def multpolyTable (gf2s0 : Arr) (a b : Nat) : Arr :=
  ((List.range 8).foldl
    (fun (st : Nat × Nat × Arr) i =>
      let a := rotl8 st.1
      let r := multpolyRow a i st.2
      (a, r.1, r.2))
    (a % 256, b % 256, gf2s0)).2.2

/-- The function `multpoly` with the initial content of its local array made explicit.
The parameters are `unsigned char`, so the arguments are converted on entry. -/
def multpolyWith (gf2s0 : Arr) (a b : Nat) : Nat :=
  let gf2s := multpolyTable gf2s0 a b
  (List.range 64).foldl (fun result i => result ^^^ gf2s i) 0

/-- The function `multpoly`: the unreduced product of two bytes. All 64 entries of the
local array are written before they are read; the model starts it zeroed
(`multpolyWith_irrelevant` shows that the initial content does not matter). -/
def multpoly (a b : Nat) : Nat := multpolyWith (fun _ => 0) a b

/-- State of the two loops of `modpoly`. -/
structure ModSt where
  i : Nat
  poly : Nat
  irrpoly : Nat

/-- First loop of `modpoly`: `while (i < poly) { irrpoly <<= 1; i <<= 1; }`. -/
def modpolyAlign (fuel : Nat) (s : ModSt) : Option ModSt :=
  whileLoop (fun s => decide (s.i < s.poly))
    (fun s => some { s with irrpoly := s.irrpoly <<< 1, i := s.i <<< 1 }) fuel s

/-- Second loop of `modpoly`: the long division itself. -/
def modpolyDivide (fuel : Nat) (s : ModSt) : Option ModSt :=
  whileLoop (fun s => decide (256 ≤ s.poly))
    (fun s => some
      { poly := if s.i ≤ s.poly ∧ s.poly < s.i * 2 then s.poly ^^^ s.irrpoly else s.poly
        irrpoly := s.irrpoly >>> 1
        i := s.i >>> 1 }) fuel s

/-- The function `modpoly`: `1` when the reduced polynomial is `1`, else `0`. -/
def modpoly (fuel poly irrpoly : Nat) : Option Nat :=
  (modpolyAlign fuel { i := 256, poly := poly, irrpoly := irrpoly }).bind fun s1 =>
    (modpolyDivide fuel s1).map fun s2 => if s2.poly = 1 then 1 else 0

/-- State of the inverse search of `main`. -/
structure SearchSt where
  found : Arr
  invs : Arr
  j : Nat

/-- Body of the `while (!found[i] && j<256)` loop of `main`. -/
def searchBody (fuel irrpoly i : Nat) (s : SearchSt) : Option SearchSt :=
  (modpoly fuel (multpoly i s.j) irrpoly).map fun t =>
    if t ≠ 0 then
      { found := (s.found.set s.j 1).set i 1
        invs := (s.invs.set i s.j).set s.j i
        j := s.j + 1 }
    else { s with j := s.j + 1 }

/-- One iteration of the `for (i=2; i<256; i++)` loop of `main`. -/
def searchStep (fuel irrpoly : Nat) (s : SearchSt) (i : Nat) : Option SearchSt :=
  (whileLoop (fun s => s.found i == 0 && decide (s.j < 256))
      (searchBody fuel irrpoly i) fuel { s with j := i }).map fun s1 =>
    if s1.j = 256 ∧ s1.found i = 0 then { s1 with invs := s1.invs.set i 0 } else s1

/-- The inverse search of `main` (lines 58-83): `found` is zeroed, `invs[0]` and
`invs[1]` are set, then every `i` in `2..255` is processed. `invs0` is the
uninitialised content of `invs`; the zeroing loop assigns all 256 elements of `found`,
whose previous content is therefore immaterial and taken to be zero. -/
def searchInvs (fuel irrpoly : Nat) (invs0 : Arr) : Option Arr :=
  ((List.range' 2 254).foldlM (searchStep fuel irrpoly)
    { found := (List.range 256).foldl (fun f i => f.set i 0) (fun _ => 0)
      invs := (invs0.set 0 0).set 1 1
      j := 0 }).map fun s => s.invs

/-- State of `afftrans`: the two `unsigned char` locals and the two arrays. -/
structure AffSt where
  aff : Nat
  bprime : Nat
  invs : Arr
  sbox : Arr

/-- Body of the `for (j=0; j<8; j++)` loop of `afftrans` for the entry `x = invs[i]`;
the state is `(aff, bprime)`. -/
def affBit (x : Nat) (t : Nat × Nat) : Nat × Nat :=
  (rotl8 t.1, rotr8 (if odd (t.1 &&& x) then (t.2 + 1) % 256 else t.2))

/-- Body of the `for (i=0; i<256; i++)` loop of `afftrans`. -/
def affEntry (st : AffSt) (i : Nat) : AffSt :=
  let t := (List.range 8).foldl (fun t _ => affBit (st.invs i) t) (st.aff, st.bprime)
  { st with aff := t.1, bprime := 0, sbox := st.sbox.set i (t.2 ^^^ 0x63) }

/-- The function `afftrans`, returning the final state of both arrays. -/
def afftrans (invs sbox : Arr) : AffSt :=
  (List.range 256).foldl affEntry { aff := 0xf1, bprime := 0, invs := invs, sbox := sbox }

/-! ### Reference notions over GF(2)[x]

A natural number stands for the polynomial whose coefficient of `x^k` is its bit `k`;
addition of polynomials is `^^^`. -/

/-- Carry-less product with explicit recursion depth: the product of `a` by the
low `n` bits of `b`. -/
def clmulAux : Nat → Nat → Nat → Nat
  | 0, _, _ => 0
  | n + 1, a, b =>
    if b = 0 then 0 else (if b % 2 = 1 then a else 0) ^^^ 2 * clmulAux n a (b / 2)

/-- Carry-less product of two naturals: the product of the polynomials over GF(2)
they stand for. -/
def clmul (a b : Nat) : Nat := clmulAux b a b

/-- The shift-and-XOR reference product of bytes: XOR of `a << j` over the set
bits `j` of `b`. -/
def clmulRef (a b : Nat) : Nat :=
  (List.range 8).foldl (fun acc j => if b.testBit j then acc ^^^ (a <<< j) else acc) 0

/-- Number of pairs `(i, j)` with `i, j` in `0..7`, `i + j = k`, bit `i` of `a` set and
bit `j` of `b` set. -/
def pairCount (a b k : Nat) : Nat :=
  ((List.range 8).product (List.range 8)).countP
    (fun p => decide (p.1 + p.2 = k) && a.testBit p.1 && b.testBit p.2)

/-- The polynomial `m` is the remainder of `p` divided by `r`: its degree is below
the degree of `r` and `p = q * r + m` for some quotient `q`. -/
def IsPolyRem (p r m : Nat) : Prop := m < 2 ^ Nat.log2 r ∧ ∃ q, p = clmul q r ^^^ m

/-- The bytes `i` and `j` are inverse to each other modulo `r`:
the remainder of their product is the constant polynomial `1`. -/
def IsInvPair (r i j : Nat) : Prop := IsPolyRem (clmul i j) r 1

/-- The polynomial `r` of degree 8 has no factorisation into two polynomials of
degree `1..7` (values `2..255`). -/
def Irreducible8 (r : Nat) : Prop :=
  ∀ p < 256, ∀ q < 256, 2 ≤ p → 2 ≤ q → clmul p q ≠ r

/-- Conjunction of `p i` over `i < n`, by recursion on `n`. -/
def allBelow : Nat → (Nat → Bool) → Bool
  | 0, _ => true
  | n + 1, p => p n && allBelow n p

/-- XOR of all the elements of a list. -/
def xorSum (l : List Nat) : Nat := l.foldl (fun acc x => acc ^^^ x) 0

/-- The monomial of `x` at position `i`: `2^i` when bit `i` of `x` is set, else `0`. -/
def bitv (x i : Nat) : Nat := if x.testBit i then 2 ^ i else 0

/-- Evaluate `f` at `n` after bringing `n` to a numeral. -/
def withNat (n : Nat) (f : Nat → Bool) : Bool :=
  match n with
  | 0 => f 0
  | k + 1 => f (k + 1)

/-- State of the inner loops of `irrpolylist` for one candidate: the marker array, the
scan index, the collected list with its length, and whether `break` was executed. -/
structure IrrSt where
  found : Arr
  j : Nat
  count : Nat
  list : Arr
  broke : Bool

/-- Body of the `while (!found[i] && j<256)` loop of `irrpolylist`. -/
def irrBody (fuel irrpoly i : Nat) (s : IrrSt) : Option IrrSt :=
  (modpoly fuel (multpoly i s.j) irrpoly).map fun t =>
    if t ≠ 0 then { s with found := (s.found.set s.j 1).set i 1, j := s.j + 1 }
    else { s with j := s.j + 1 }

/-- One iteration of the `for (i=2; i<256; i++)` loop of `irrpolylist`; after a
`break` the remaining iterations are skipped. -/
def irrStep (fuel irrpoly : Nat) (s : IrrSt) (i : Nat) : Option IrrSt :=
  if s.broke then some s
  else
    (whileLoop (fun t => t.found i == 0 && decide (t.j < 256))
        (irrBody fuel irrpoly i) fuel { s with j := i }).map fun s1 =>
      if s1.j = 256 ∧ s1.found i = 0 then { s1 with broke := true }
      else if i = 255 then
        { s1 with list := s1.list.set s1.count irrpoly, count := s1.count + 1 }
      else s1

/-- State of the outer loop of `irrpolylist`. -/
structure IrrOuter where
  irrpoly : Nat
  count : Nat
  list : Arr

/-- Body of the `while (irrpoly < 0x200)` loop of `irrpolylist`: test one candidate.
As in `main`, `found` is zeroed at all 256 elements first. -/
def irrCandidate (fuel : Nat) (o : IrrOuter) : Option IrrOuter :=
  ((List.range' 2 254).foldlM (irrStep fuel o.irrpoly)
    { found := (List.range 256).foldl (fun f i => f.set i 0) (fun _ => 0)
      j := 0
      count := o.count
      list := o.list
      broke := false }).map fun s =>
    { irrpoly := o.irrpoly + 2, count := s.count, list := s.list }

/-- The function `irrpolylist`: the values `list[0..count-1]` it prints. `list0` is the
uninitialised content of `list`. -/
def irrpolylist (fuel : Nat) (list0 : Arr) : Option (List Nat) :=
  (whileLoop (fun o => decide (o.irrpoly < 0x200)) (irrCandidate fuel) fuel
    { irrpoly := 0x101, count := 0, list := list0 }).map fun o =>
    (List.range o.count).map o.list

/-- Invariant of the marker array at the start of the iteration `i = n` of the inverse
search: the marked bytes are those with an inverse, one of the two being below `n`. -/
def FoundInv (r n : Nat) (found : Arr) : Prop :=
  ∀ x, 2 ≤ x → x < 256 →
    (found x ≠ 0 ↔ ∃ y, y < 256 ∧ IsInvPair r x y ∧ (x < n ∨ y < n))

/-- Invariant of the inverse search of `main` at the start of the iteration `i = n`:
a marked byte is mapped to its inverse, a processed byte left unmarked is mapped to
the sentinel `0`. -/
def SearchInv (r n : Nat) (found invs : Arr) : Prop :=
  FoundInv r n found ∧
  (∀ x, 2 ≤ x → x < 256 → found x ≠ 0 → invs x < 256 ∧ IsInvPair r x (invs x)) ∧
  (∀ x, 2 ≤ x → x < n → found x = 0 → invs x = 0) ∧
  invs 0 = 0 ∧ invs 1 = 1

/-- The byte `i` has an inverse modulo `r` among the bytes. -/
def HasInv (r i : Nat) : Prop := ∃ y, y < 256 ∧ IsInvPair r i y

/-- Every byte in `2..255` has an inverse modulo `r`. -/
def AllInv (r : Nat) : Prop := ∀ i, 2 ≤ i → i < 256 → HasInv r i

/-- Invariant of the `for` loop of `irrpolylist` for the candidate `r` at the start of
the iteration `i = n`, where `c` and `l` are the length and content of the list before
the candidate: either no `break` occurred and all bytes below `n` have inverses, or a
`break` occurred at a byte without inverse. -/
def IrrInv (r c : Nat) (l : Arr) (n : Nat) (t : IrrSt) : Prop :=
  (t.broke = false ∧ FoundInv r n t.found ∧ (∀ i, 2 ≤ i → i < n → HasInv r i) ∧
    t.count = (if n = 256 then c + 1 else c) ∧ t.list = (if n = 256 then l.set c r else l)) ∨
  (t.broke = true ∧ (∃ i, 2 ≤ i ∧ i < n ∧ ¬ HasInv r i) ∧ t.count = c ∧ t.list = l)

/-- The AES S-box of FIPS 197 (figure 7), row by row. -/
def aesSbox : List Nat :=
  [0x63, 0x7c, 0x77, 0x7b, 0xf2, 0x6b, 0x6f, 0xc5, 0x30, 0x01, 0x67, 0x2b, 0xfe, 0xd7, 0xab, 0x76,
   0xca, 0x82, 0xc9, 0x7d, 0xfa, 0x59, 0x47, 0xf0, 0xad, 0xd4, 0xa2, 0xaf, 0x9c, 0xa4, 0x72, 0xc0,
   0xb7, 0xfd, 0x93, 0x26, 0x36, 0x3f, 0xf7, 0xcc, 0x34, 0xa5, 0xe5, 0xf1, 0x71, 0xd8, 0x31, 0x15,
   0x04, 0xc7, 0x23, 0xc3, 0x18, 0x96, 0x05, 0x9a, 0x07, 0x12, 0x80, 0xe2, 0xeb, 0x27, 0xb2, 0x75,
   0x09, 0x83, 0x2c, 0x1a, 0x1b, 0x6e, 0x5a, 0xa0, 0x52, 0x3b, 0xd6, 0xb3, 0x29, 0xe3, 0x2f, 0x84,
   0x53, 0xd1, 0x00, 0xed, 0x20, 0xfc, 0xb1, 0x5b, 0x6a, 0xcb, 0xbe, 0x39, 0x4a, 0x4c, 0x58, 0xcf,
   0xd0, 0xef, 0xaa, 0xfb, 0x43, 0x4d, 0x33, 0x85, 0x45, 0xf9, 0x02, 0x7f, 0x50, 0x3c, 0x9f, 0xa8,
   0x51, 0xa3, 0x40, 0x8f, 0x92, 0x9d, 0x38, 0xf5, 0xbc, 0xb6, 0xda, 0x21, 0x10, 0xff, 0xf3, 0xd2,
   0xcd, 0x0c, 0x13, 0xec, 0x5f, 0x97, 0x44, 0x17, 0xc4, 0xa7, 0x7e, 0x3d, 0x64, 0x5d, 0x19, 0x73,
   0x60, 0x81, 0x4f, 0xdc, 0x22, 0x2a, 0x90, 0x88, 0x46, 0xee, 0xb8, 0x14, 0xde, 0x5e, 0x0b, 0xdb,
   0xe0, 0x32, 0x3a, 0x0a, 0x49, 0x06, 0x24, 0x5c, 0xc2, 0xd3, 0xac, 0x62, 0x91, 0x95, 0xe4, 0x79,
   0xe7, 0xc8, 0x37, 0x6d, 0x8d, 0xd5, 0x4e, 0xa9, 0x6c, 0x56, 0xf4, 0xea, 0x65, 0x7a, 0xae, 0x08,
   0xba, 0x78, 0x25, 0x2e, 0x1c, 0xa6, 0xb4, 0xc6, 0xe8, 0xdd, 0x74, 0x1f, 0x4b, 0xbd, 0x8b, 0x8a,
   0x70, 0x3e, 0xb5, 0x66, 0x48, 0x03, 0xf6, 0x0e, 0x61, 0x35, 0x57, 0xb9, 0x86, 0xc1, 0x1d, 0x9e,
   0xe1, 0xf8, 0x98, 0x11, 0x69, 0xd9, 0x8e, 0x94, 0x9b, 0x1e, 0x87, 0xe9, 0xce, 0x55, 0x28, 0xdf,
   0x8c, 0xa1, 0x89, 0x0d, 0xbf, 0xe6, 0x42, 0x68, 0x41, 0x99, 0x2d, 0x0f, 0xb0, 0x54, 0xbb, 0x16]

/-- The AES S-box as one numeral: entry `x` occupies the bits `8x..8x+7`. -/
def aesSboxPacked : Nat :=
  0x16bb54b00f2d99416842e6bf0d89a18cdf2855cee9871e9b948ed9691198f8e19e1dc186b95735610ef6034866b53e708a8bbd4b1f74dde8c6b4a61c2e2578ba08ae7a65eaf4566ca94ed58d6d37c8e779e4959162acd3c25c2406490a3a32e0db0b5ede14b8ee4688902a22dc4f816073195d643d7ea7c41744975fec130ccdd2f3ff1021dab6bcf5389d928f40a351a89f3c507f02f94585334d43fbaaefd0cf584c4a39becb6a5bb1fc20ed00d153842fe329b3d63b52a05a6e1b1a2c830975b227ebe28012079a059618c323c7041531d871f1e5a534ccf73f362693fdb7c072a49cafa2d4adf04759fa7dc982ca76abd7fe2b670130c56f6bf27b777c63

/-- The multiplicative inverses of the bytes modulo `0x11B` (with `0` for `0`) as one
numeral: entry `x` occupies the bits `8x..8x+7`. -/
def aesInvPacked : Nat :=
  0x1c411acda07d9cdd8c0346683438235bb31e505de3d74e08adcf0ec6ebd60db16b90f89dd5c48b94eae2dbc563ae077ae6acfc1b045327a90fe4d4daa32f280b5786bcbd3d768ea571787511ef1fe00c62d2e7ce4a12c8264865b88fc32e7cfb9a89dcf9889f142a72848ad86d326adea4b902f7d9959e9b56be7396807f7e838281faa106d070b63cbab5108597b7793b219333df9147f44336a649d3af5e161761ec51f0223e18bf87244cca055ced09e9255413ab64a769f5312d6737fe1d1959bb776f2035f2426639f36c92452cc2a2443015980ac1c9a84d55f15a6e3ab2ee40ffccfd3f585f602b994baab474c7e5e1b0c0294fe8d17b52cbf68d0100

/-- Entry `x` of a table packed into a numeral, eight bits per entry. -/
def packedAt (t x : Nat) : Nat := (t >>> (8 * x)) % 256

/-- Parity of the number of set bits among the bits `0..7` of `n`: the XOR of these bits. -/
def parity8 (n : Nat) : Bool :=
  [n.testBit 0, n.testBit 1, n.testBit 2, n.testBit 3,
    n.testBit 4, n.testBit 5, n.testBit 6, n.testBit 7].foldl Bool.xor false

/-- Row `j` of the affine matrix as a bit mask: `0xF1` rotated left by `j` within 8 bits. -/
def affRow (j : Nat) : Nat := ((0xF1 <<< j) ||| (0xF1 >>> (8 - j))) % 256

/-- The inner loop of `afftrans` run on the entry `x` from the state `aff = 0xf1`,
`bprime = 0`; the result is the final `(aff, bprime)`. -/
def affOut (x : Nat) : Nat × Nat := (List.range 8).foldl (fun t _ => affBit x t) (0xf1, 0)

/-- Check that the pair `t` is `(0xf1, b)` with `b` the byte whose bit `j` is the parity
of `x` masked by row `j` of the affine matrix. -/
def affCheck (x : Nat) (t : Nat × Nat) : Bool :=
  withNat t.1 fun a => withNat t.2 fun b =>
    a == 0xf1 && decide (b < 256) &&
      allBelow 8 fun j => withNat (x &&& affRow j) fun n => b.testBit j == parity8 n

/-- Check that entry `x` of the packed inverse table is a byte whose product with `x`
has remainder `1` modulo `r`, as computed by `modpoly`. -/
def invCheck (r x : Nat) : Bool :=
  withNat (packedAt aesInvPacked x) fun y => decide (y < 256) &&
    withNat (clmul x y) fun p => modpoly 10 p r == some 1

/-- Check that the affine transform of entry `x` of the packed inverse table is entry
`x` of the packed S-box. -/
def sboxCheck (x : Nat) : Bool :=
  withNat (packedAt aesInvPacked x) fun y =>
    withNat (affOut y).2 fun b => b ^^^ 0x63 == packedAt aesSboxPacked x

/-! ### `linearcrypt.c`

The deviations are C `double`s of the form `0.5 - n/sum` with `n ≤ sum ≤ 256` counts;
they are represented exactly by rationals. -/

/-- A C matrix `double probs[][256]`: a map from row and column to value. -/
abbrev Mat := Nat → Nat → ℚ

/-- The matrix `m` after the assignment `m[i][j] = v`. -/
def Mat.set (m : Mat) (i j : Nat) (v : ℚ) : Mat :=
  fun a b => if a = i ∧ b = j then v else m a b

/-- The counters `(equal, notequal, sum)` of `findprobs` after the loop over `k` for the
output mask `i` and the input mask `j`. -/
def findprobsCounts (Sbox : Arr) (i j : Nat) : Nat × Nat × ℚ :=
  (List.range 256).foldl
    (fun (c : Nat × Nat × ℚ) k =>
      if odd (j &&& k) || j == 0 then
        if odd (Sbox k &&& i) then (c.1 + 1, c.2.1, c.2.2 + 1)
        else (c.1, c.2.1 + 1, c.2.2 + 1)
      else c)
    (0, 0, 0)

/-- The deviation `findprobs` stores in `probs[i][j]`. -/
def findprobsCell (Sbox : Arr) (i j : Nat) : ℚ :=
  let c := findprobsCounts Sbox i j
  if c.1 > c.2.1 then 1 / 2 - (c.2.1 : ℚ) / c.2.2 else 1 / 2 - (c.1 : ℚ) / c.2.2

/-- The function `findprobs`: fills the rows `1..255` of `probs`. -/
def findprobs (probs : Mat) (Sbox : Arr) : Mat :=
  (List.range' 1 255).foldl
    (fun P i => (List.range 256).foldl (fun P j => P.set i j (findprobsCell Sbox i j)) P)
    probs

/-- The comparison function `cmpfunc` of `linearcrypt.c`: `1` when `a >= b`, else `-1`. -/
def cmpfunc (a b : ℚ) : Int := if a ≥ b then 1 else -1

/-- The matrix `m` after row `i` (256 elements) has been replaced by the content `row`. -/
def Mat.setRow (m : Mat) (i : Nat) (row : List ℚ) : Mat :=
  fun a b => if a = i ∧ b < 256 then row.getD b 0 else m a b

/-- The function `sortprobs`: every row `1..255` is handed to the library routine
`qsort` with `cmpfunc`. The routine is a parameter: `qsort cmp l` is the content of
the array after the call when it held `l` before. -/
def sortprobs (qsort : (ℚ → ℚ → Int) → List ℚ → List ℚ) (probs : Mat) : Mat :=
  (List.range' 1 255).foldl
    (fun P i => P.setRow i (qsort cmpfunc ((List.range 256).map (P i)))) probs

/-- What the program relies on from `qsort` for the comparison function `cmp`: the array
is rearranged, and no element ends up after one that it compares less than. (For a
comparison function that is consistent in the sense of the C standard this is the
ascending order of the standard; `cmpfunc` never answers `0`, so nothing is assumed
about the answer for equal elements.) -/
def SortsBy (qsort : (ℚ → ℚ → Int) → List ℚ → List ℚ) (cmp : ℚ → ℚ → Int) : Prop :=
  ∀ l, (qsort cmp l).Perm l ∧ (qsort cmp l).Pairwise (fun a b => ¬ cmp b a < 0)

/-- A sorting routine that meets `SortsBy`: insertion sort driven by the comparison
function. -/
def insertionQsort (cmp : ℚ → ℚ → Int) (l : List ℚ) : List ℚ :=
  l.insertionSort (fun a b => ¬ cmp b a < 0)

/-- The loop of `main` in `linearcrypt.c` that computes the reported maximum:
`max = 0`, then `if (probs[i][255] > max) max = probs[i][255]` for `i = 1..255`. -/
def maxDeviation (probs : Mat) : ℚ :=
  (List.range' 1 255).foldl (fun mx i => if probs i 255 > mx then probs i 255 else mx) 0

/-- The maximum deviation `main` reports for an S-box: `findprobs`, `sortprobs`, then
the maximum loop (`totxt` and `topgm` only read the matrix). -/
def reportedMax (qsort : (ℚ → ℚ → Int) → List ℚ → List ℚ) (probs0 : Mat) (Sbox : Arr) : ℚ :=
  maxDeviation (sortprobs qsort (findprobs probs0 Sbox))

/-- The values `totxt` prints, line by line: for `i = 255` down to `1` the line holds
`probs[j][i]` for `j = 1..255` (each printed with `%g` and a tab). -/
def totxtCells (probs : Mat) : List (List ℚ) :=
  (List.range' 1 255).reverse.map fun i => (List.range' 1 255).map fun j => probs j i

/-- A matrix whose rows are sorted and whose only non-zero entry is `probs[1][255]`;
it tells the rows of the matrix from its columns. -/
def cornerMatrix : Mat := fun a b => if a = 1 ∧ b = 255 then 1 else 0

/-- A matrix with descending rows: `probs[i][j] = 255 - j`. -/
def descendingMatrix : Mat := fun _ j => ((255 - j : Nat) : ℚ)

/-- Quick sort of a list with at most `n` levels of recursion: the first element is the
pivot; the elements that compare less than the pivot are sorted and put before it,
those that compare equal to it are put next to it, and those that compare greater are
sorted and put after it. -/
def qsortAux (cmp : ℚ → ℚ → Int) : Nat → List ℚ → List ℚ
  | 0, l => l
  | _ + 1, [] => []
  | n + 1, p :: xs =>
    qsortAux cmp n (xs.filter fun x => cmp x p < 0)
      ++ (p :: xs.filter fun x => cmp x p = 0)
      ++ qsortAux cmp n (xs.filter fun x => 0 < cmp x p)

/-- Modelled from the spec: the library routine `qsort`, whose code is not part of the
sources. The specification has it sort a row in ascending order, and the source calls it
quick sort; it is modelled as the quick sort `qsortAux` driven by the comparison
function it is given, which decides by the sign of every comparison as the routine is
documented to (negative: before, zero: equal, positive: after). The depth of the
recursion never exceeds the length of the array. -/
def qsort (cmp : ℚ → ℚ → Int) (l : List ℚ) : List ℚ := qsortAux cmp l.length l

/-- The state of the inverse search of `main` at the start of the iteration `i = n` of
the `for (i=2; i<256; i++)` loop (`n = 256`: after the loop). -/
def searchState (fuel irrpoly : Nat) (invs0 : Arr) (n : Nat) : Option SearchSt :=
  (List.range' 2 (n - 2)).foldlM (searchStep fuel irrpoly)
    { found := (List.range 256).foldl (fun f i => f.set i 0) (fun _ => 0)
      invs := (invs0.set 0 0).set 1 1
      j := 0 }

/-- The naive search the specification compares the search of `main` with: `invs[0] = 0`,
`invs[1] = 1` and, for `i` in `2..255`, the least `j` in `1..255` with
`modpoly(multpoly(i,j), r) = 1`, or `0` when there is none. -/
def naiveInvs (fuel r : Nat) (i : Nat) : Nat :=
  if i = 0 then 0
  else if i = 1 then 1
  else ((List.range' 1 255).find? fun j => modpoly fuel (multpoly i j) r == some 1).getD 0

/-- The decimal digit `d` as a character. -/
def digitChar (d : Nat) : Char := Char.ofNat (48 + d)

/-- The characters `%d` prints for a non-negative `int`. -/
def decimal (n : Nat) : List Char :=
  if n = 0 then ['0'] else (Nat.digits 10 n).reverse.map digitChar

/-- The function `writesbox` (the same in `AESsbox.c` and `randomsbox.c`), as the
content of the file it writes: `fprintf(f, "%d\t", sbox[i])` for each entry and a
newline after every 16th. -/
def writesbox (sbox : Arr) : List Char :=
  (List.range 256).foldl
    (fun out i =>
      if i % 16 = 15 then out ++ decimal (sbox i) ++ ['\t'] ++ ['\n']
      else out ++ decimal (sbox i) ++ ['\t'])
    []

/-- White space in the sense of `isspace`: space, tab, newline, vertical tab, form feed
and carriage return. -/
def isSpace (c : Char) : Bool := c.toNat == 32 || (decide (9 ≤ c.toNat) && decide (c.toNat ≤ 13))

/-- The optional sign of a `%d` conversion: whether it is `-`, and the input after it. -/
def scanSign (s : List Char) : Bool × List Char :=
  match s with
  | [] => (false, [])
  | c :: t => if c = '-' then (true, t) else if c = '+' then (false, t) else (false, c :: t)

/-- One `fscanf(f, "%d", &x)`: white space is skipped, then an optional sign and a
non-empty run of decimal digits are converted. The result is the value stored (`none`
when the conversion fails and nothing is stored) and the input left. -/
def scanInt (input : List Char) : Option Int × List Char :=
  let st := scanSign (input.dropWhile isSpace)
  let ds := st.2.takeWhile Char.isDigit
  if ds.isEmpty then (none, st.2)
  else
    let v : Nat := ds.foldl (fun acc c => acc * 10 + (c.toNat - 48)) 0
    (some (if st.1 then -(v : Int) else (v : Int)), st.2.dropWhile Char.isDigit)

/-- The loop of `main` in `linearcrypt.c` that reads the S-box:
`for (i=0; i<256; i++) fscanf(f, "%d", &Sbox[i])`; `Sbox0` is the uninitialised
content of `Sbox`. -/
def readsbox (input : List Char) (Sbox0 : Nat → Int) : Nat → Int :=
  ((List.range 256).foldl
    (fun (st : List Char × (Nat → Int)) i =>
      match scanInt st.1 with
      | (some v, rest) => (rest, fun k => if k = i then v else st.2 k)
      | (none, rest) => (rest, st.2))
    (input, Sbox0)).2

/-! ## Part 2: lemmas and theorems -/

/-! ### Bit-level facts about naturals -/

theorem two_mul_xor (x y : Nat) : 2 * (x ^^^ y) = 2 * x ^^^ 2 * y := by
  apply Nat.eq_of_testBit_eq
  intro i
  cases i with
  | zero => simp [Nat.testBit_zero]
  | succ i =>
    rw [Nat.testBit_succ, Nat.testBit_succ, Nat.xor_div_two]
    simp

theorem xor_left_comm (x y z : Nat) : x ^^^ (y ^^^ z) = y ^^^ (x ^^^ z) := by
  rw [← Nat.xor_assoc, Nat.xor_comm x y, Nat.xor_assoc]

theorem one_xor_two_mul (y : Nat) : 1 ^^^ 2 * y = 2 * y + 1 := by
  apply Nat.eq_of_testBit_eq
  intro i
  cases i with
  | zero => simp [Nat.testBit_zero]; omega
  | succ i =>
    have h : (2 * y + 1) / 2 = y := by omega
    rw [Nat.testBit_succ, Nat.testBit_succ, Nat.xor_div_two, h]
    simp

theorem testBit_top {x k : Nat} (h1 : 2 ^ k ≤ x) (h2 : x < 2 ^ (k + 1)) : x.testBit k = true := by
  have hx : x = 2 ^ k + (x - 2 ^ k) := by omega
  have hlt : x - 2 ^ k < 2 ^ k := by
    have : 2 ^ (k + 1) = 2 * 2 ^ k := by ring
    omega
  rw [hx, Nat.testBit_two_pow_add_eq, Nat.testBit_lt_two_pow hlt]
  rfl

theorem testBit_above {x k i : Nat} (h : x < 2 ^ k) (hi : k ≤ i) : x.testBit i = false :=
  Nat.testBit_lt_two_pow (Nat.lt_of_lt_of_le h (Nat.pow_le_pow_right (by decide) hi))

theorem xor_lt_of_same_top {x y k : Nat} (hx1 : 2 ^ k ≤ x) (hx2 : x < 2 ^ (k + 1))
    (hy1 : 2 ^ k ≤ y) (hy2 : y < 2 ^ (k + 1)) : x ^^^ y < 2 ^ k := by
  apply Nat.lt_pow_two_of_testBit
  intro i hi
  rw [Nat.testBit_xor]
  rcases Nat.eq_or_lt_of_le hi with h | h
  · subst h
    rw [testBit_top hx1 hx2, testBit_top hy1 hy2]
    rfl
  · rw [testBit_above hx2 h, testBit_above hy2 h]
    rfl

theorem xor_top_of_lt {x y k : Nat} (hx1 : 2 ^ k ≤ x) (hx2 : x < 2 ^ (k + 1))
    (hy : y < 2 ^ k) : 2 ^ k ≤ x ^^^ y ∧ x ^^^ y < 2 ^ (k + 1) := by
  constructor
  · apply Nat.testBit_implies_ge
    rw [Nat.testBit_xor, testBit_top hx1 hx2, Nat.testBit_lt_two_pow hy]
    rfl
  · exact Nat.xor_lt_two_pow hx2 (Nat.lt_of_lt_of_le hy (Nat.pow_le_pow_right (by decide) (by omega)))

theorem bits_induction {P : Nat → Prop} (h0 : P 0) (hs : ∀ b, b ≠ 0 → P (b / 2) → P b) :
    ∀ b, P b := by
  intro b
  induction b using Nat.strong_induction_on with
  | _ b ih =>
    by_cases hb : b = 0
    · subst hb; exact h0
    · exact hs b hb (ih (b / 2) (by omega))

/-! ### Carry-less multiplication is a commutative, associative, bilinear product -/

theorem clmulAux_zero (n a : Nat) : clmulAux n a 0 = 0 := by
  cases n with
  | zero => rfl
  | succ n => simp [clmulAux]

theorem clmulAux_fuel (a : Nat) : ∀ n m b, b < 2 ^ n → b < 2 ^ m →
    clmulAux n a b = clmulAux m a b := by
  intro n
  induction n with
  | zero =>
    intro m b h1 _
    have : b = 0 := by simpa using h1
    subst this
    rw [clmulAux_zero, clmulAux_zero]
  | succ n ih =>
    intro m b h1 h2
    cases m with
    | zero =>
      have : b = 0 := by simpa using h2
      subst this
      rw [clmulAux_zero, clmulAux_zero]
    | succ m =>
      have e1 : 2 ^ (n + 1) = 2 * 2 ^ n := by ring
      have e2 : 2 ^ (m + 1) = 2 * 2 ^ m := by ring
      simp only [clmulAux]
      rw [ih m (b / 2) (by omega) (by omega)]

theorem clmul_zero_right (a : Nat) : clmul a 0 = 0 := clmulAux_zero _ a

theorem clmul_unfold (a b : Nat) :
    clmul a b = (if b % 2 = 1 then a else 0) ^^^ 2 * clmul a (b / 2) := by
  by_cases hb : b = 0
  · subst hb
    simp [clmul_zero_right]
  · unfold clmul
    obtain ⟨b', rfl⟩ := Nat.exists_eq_succ_of_ne_zero hb
    have h1 : (b' + 1) / 2 < 2 ^ b' := by
      have := @Nat.lt_two_pow b'
      have e : 2 ^ (b' + 1) = 2 * 2 ^ b' := by ring
      have := @Nat.lt_two_pow (b' + 1)
      omega
    rw [clmulAux, if_neg hb,
      clmulAux_fuel a b' ((b' + 1) / 2) ((b' + 1) / 2) h1 (Nat.lt_two_pow _)]

theorem clmul_zero_left (b : Nat) : clmul 0 b = 0 := by
  induction b using bits_induction with
  | h0 => exact clmul_zero_right 0
  | hs b _ ih => rw [clmul_unfold, ih]; simp

theorem clmul_one_right (a : Nat) : clmul a 1 = a := by
  rw [clmul_unfold]; simp [clmul_zero_right]

theorem clmul_two_mul_right (a b : Nat) : clmul a (2 * b) = 2 * clmul a b := by
  rw [clmul_unfold]
  have h1 : 2 * b % 2 = 0 := by omega
  have h2 : 2 * b / 2 = b := by omega
  simp [h1, h2]

theorem clmul_two_mul_add_one_right (a b : Nat) : clmul a (2 * b + 1) = a ^^^ 2 * clmul a b := by
  rw [clmul_unfold]
  have h1 : (2 * b + 1) % 2 = 1 := by omega
  have h2 : (2 * b + 1) / 2 = b := by omega
  simp [h1, h2]

theorem ite_xor_ite (c d : Prop) [Decidable c] [Decidable d] (e : Prop) [Decidable e] (a : Nat)
    (h : e ↔ ¬(c ↔ d)) :
    (if e then a else 0) = (if c then a else 0) ^^^ (if d then a else 0) := by
  by_cases hc : c <;> by_cases hd : d <;> simp [hc, hd, h]

theorem clmul_xor_right (a b c : Nat) : clmul a (b ^^^ c) = clmul a b ^^^ clmul a c := by
  induction b using bits_induction generalizing c with
  | h0 => simp [clmul_zero_right]
  | hs b _ ih =>
    rw [clmul_unfold a (b ^^^ c), clmul_unfold a b, clmul_unfold a c, Nat.xor_div_two, ih,
      two_mul_xor,
      ite_xor_ite (b % 2 = 1) (c % 2 = 1) ((b ^^^ c) % 2 = 1) a Nat.xor_mod_two_eq_one]
    simp only [Nat.xor_assoc, xor_left_comm]

theorem two_mul_ite (c : Prop) [Decidable c] (a : Nat) :
    2 * (if c then a else 0) = if c then 2 * a else 0 := by
  split <;> rfl

theorem clmul_two_mul_left (a b : Nat) : clmul (2 * a) b = 2 * clmul a b := by
  induction b using bits_induction with
  | h0 => simp [clmul_zero_right]
  | hs b _ ih =>
    rw [clmul_unfold (2 * a) b, clmul_unfold a b, ih, two_mul_xor, two_mul_ite]

theorem clmul_xor_left (a a' b : Nat) : clmul (a ^^^ a') b = clmul a b ^^^ clmul a' b := by
  induction b using bits_induction with
  | h0 => simp [clmul_zero_right]
  | hs b _ ih =>
    rw [clmul_unfold (a ^^^ a') b, clmul_unfold a b, clmul_unfold a' b, ih, two_mul_xor]
    by_cases h : b % 2 = 1
    · simp only [h, if_true, Nat.xor_assoc, xor_left_comm]
    · simp only [h, if_false, Nat.zero_xor]

theorem clmul_one_left (b : Nat) : clmul 1 b = b := by
  induction b using bits_induction with
  | h0 => exact clmul_zero_right 1
  | hs b _ ih =>
    rw [clmul_unfold, ih]
    by_cases h : b % 2 = 1
    · rw [if_pos h, one_xor_two_mul]; omega
    · rw [if_neg h, Nat.zero_xor]; omega

theorem two_mul_add_bit (a : Nat) : a = 2 * (a / 2) ^^^ (if a % 2 = 1 then 1 else 0) := by
  by_cases h : a % 2 = 1
  · rw [if_pos h, Nat.xor_comm, one_xor_two_mul]; omega
  · rw [if_neg h, Nat.xor_zero]; omega

theorem clmul_ite_left (c : Prop) [Decidable c] (b : Nat) :
    clmul (if c then 1 else 0) b = if c then b else 0 := by
  split
  · exact clmul_one_left b
  · exact clmul_zero_left b

theorem clmul_unfold_left (a b : Nat) :
    clmul a b = 2 * clmul (a / 2) b ^^^ (if a % 2 = 1 then b else 0) := by
  conv => lhs; rw [two_mul_add_bit a]
  rw [clmul_xor_left, clmul_two_mul_left, clmul_ite_left]

theorem clmul_comm (a b : Nat) : clmul a b = clmul b a := by
  induction a using bits_induction generalizing b with
  | h0 => rw [clmul_zero_left, clmul_zero_right]
  | hs a _ ih => rw [clmul_unfold_left a b, clmul_unfold b a, ih, Nat.xor_comm]

theorem clmul_ite_right (c : Prop) [Decidable c] (a b : Nat) :
    clmul a (if c then b else 0) = if c then clmul a b else 0 := by
  split
  · rfl
  · exact clmul_zero_right a

theorem clmul_assoc (a b c : Nat) : clmul (clmul a b) c = clmul a (clmul b c) := by
  induction b using bits_induction generalizing a c with
  | h0 => simp [clmul_zero_right, clmul_zero_left]
  | hs b _ ih =>
    rw [clmul_unfold a b, clmul_unfold_left b c, clmul_xor_left, clmul_xor_right,
      clmul_two_mul_left, clmul_two_mul_right, ih, clmul_ite_right, Nat.xor_comm]
    congr 1
    split <;> simp [clmul_zero_left]

theorem clmul_two_pow_left (j r : Nat) : clmul (2 ^ j) r = r * 2 ^ j := by
  induction j with
  | zero => simp [clmul_one_left]
  | succ j ih =>
    have e : 2 ^ (j + 1) = 2 * 2 ^ j := by ring
    rw [e, clmul_two_mul_left, ih]; ring

theorem clmul_two_pow_right (a j : Nat) : clmul a (2 ^ j) = a * 2 ^ j := by
  rw [clmul_comm, clmul_two_pow_left]

theorem withNat_eq (n : Nat) (f : Nat → Bool) : withNat n f = f n := by
  cases n <;> rfl

theorem allBelow_spec (n : Nat) (p : Nat → Bool) (h : allBelow n p = true) :
    ∀ i, i < n → p i = true := by
  induction n with
  | zero => intro i hi; omega
  | succ n ih =>
    simp only [allBelow, Bool.and_eq_true] at h
    intro i hi
    by_cases e : i = n
    · subst e; exact h.1
    · exact ih h.2 i (by omega)

/-! ### Degrees -/

theorem xor_swap {a b m m' : Nat} (h : a ^^^ m = b ^^^ m') : a ^^^ b = m ^^^ m' := by
  have h1 : a = b ^^^ m' ^^^ m := by rw [← h, Nat.xor_cancel_right]
  rw [h1]
  apply Nat.eq_of_testBit_eq
  intro i
  simp only [Nat.testBit_xor]
  cases b.testBit i <;> cases m.testBit i <;> cases m'.testBit i <;> rfl

theorem clmul_lt_two_pow {a b m n : Nat} (ha : a < 2 ^ (m + 1)) (hb : b < 2 ^ (n + 1)) :
    clmul a b < 2 ^ (m + n + 1) := by
  induction n generalizing b with
  | zero =>
    have : b = 0 ∨ b = 1 := by simp at hb; omega
    rcases this with h | h <;> subst h
    · rw [clmul_zero_right]; exact Nat.two_pow_pos _
    · rw [clmul_one_right]; simpa using ha
  | succ n ih =>
    rw [clmul_unfold]
    have e : 2 ^ (n + 1 + 1) = 2 * 2 ^ (n + 1) := by ring
    have hb2 : b / 2 < 2 ^ (n + 1) := by omega
    have h1 := ih hb2
    have e2 : 2 ^ (m + (n + 1) + 1) = 2 * 2 ^ (m + n + 1) := by ring
    apply Nat.xor_lt_two_pow
    · have h3 : (if b % 2 = 1 then a else 0) ≤ a := by split <;> omega
      have h4 : 2 ^ (m + 1) ≤ 2 ^ (m + (n + 1) + 1) :=
        Nat.pow_le_pow_right (by decide) (by omega)
      omega
    · omega

theorem clmul_testBit_top {a b m n : Nat} (ha1 : 2 ^ m ≤ a) (ha2 : a < 2 ^ (m + 1))
    (hb1 : 2 ^ n ≤ b) (hb2 : b < 2 ^ (n + 1)) : (clmul a b).testBit (m + n) = true := by
  induction n generalizing b with
  | zero =>
    have : b = 1 := by simp at hb1 hb2; omega
    subst this
    rw [clmul_one_right]
    exact testBit_top ha1 ha2
  | succ n ih =>
    have e : 2 ^ (n + 1 + 1) = 2 * 2 ^ (n + 1) := by ring
    have e' : 2 ^ (n + 1) = 2 * 2 ^ n := by ring
    have h1 := ih (b := b / 2) (by omega) (by omega)
    have h3 : (if b % 2 = 1 then a else 0) < 2 ^ (m + 1) := by split <;> omega
    have hA : (if b % 2 = 1 then a else 0).testBit (m + (n + 1)) = false :=
      testBit_above h3 (by omega)
    have hB : (2 * clmul a (b / 2)).testBit (m + (n + 1)) = true := by
      rw [← Nat.add_assoc, Nat.testBit_succ, Nat.mul_div_cancel_left _ (by decide : 0 < 2)]
      exact h1
    rw [clmul_unfold, Nat.testBit_xor, hA, hB]
    rfl

theorem clmul_ge_two_pow {a b m n : Nat} (ha : 2 ^ m ≤ a) (hb : 2 ^ n ≤ b) :
    2 ^ (m + n) ≤ clmul a b := by
  have ha0 : a ≠ 0 := by
    have := Nat.two_pow_pos m; omega
  have hb0 : b ≠ 0 := by
    have := Nat.two_pow_pos n; omega
  have h := clmul_testBit_top (Nat.log2_self_le ha0) Nat.lt_log2_self
    (Nat.log2_self_le hb0) Nat.lt_log2_self
  have hm : m ≤ a.log2 := (Nat.le_log2 ha0).2 ha
  have hn : n ≤ b.log2 := (Nat.le_log2 hb0).2 hb
  exact Nat.le_trans (Nat.pow_le_pow_right (by decide) (by omega)) (Nat.testBit_implies_ge h)

theorem clmul_ne_zero_ge {q r : Nat} (hq : q ≠ 0) (hr : r ≠ 0) : 2 ^ Nat.log2 r ≤ clmul q r := by
  have h := clmul_ge_two_pow (m := 0) (n := Nat.log2 r) (a := q) (b := r)
    (by simp; omega) (Nat.log2_self_le hr)
  simpa using h

/-! ### Division with remainder -/

theorem reduce_lt {p r : Nat} (hp : p ≠ 0) (hr : r ≠ 0) (h : r.log2 ≤ p.log2) :
    p ^^^ clmul (2 ^ (p.log2 - r.log2)) r < p := by
  rw [clmul_two_pow_left]
  have e : 2 ^ p.log2 = 2 ^ r.log2 * 2 ^ (p.log2 - r.log2) := by
    rw [← Nat.pow_add]; congr 1; omega
  have e1 : 2 ^ (p.log2 + 1) = 2 ^ (r.log2 + 1) * 2 ^ (p.log2 - r.log2) := by
    rw [← Nat.pow_add]; congr 1; omega
  have h1 : 2 ^ p.log2 ≤ r * 2 ^ (p.log2 - r.log2) := by
    rw [e]; exact Nat.mul_le_mul_right _ (Nat.log2_self_le hr)
  have h2 : r * 2 ^ (p.log2 - r.log2) < 2 ^ (p.log2 + 1) := by
    rw [e1]
    exact Nat.mul_lt_mul_of_pos_right Nat.lt_log2_self (Nat.two_pow_pos _)
  exact Nat.lt_of_lt_of_le
    (xor_lt_of_same_top (Nat.log2_self_le hp) Nat.lt_log2_self h1 h2) (Nat.log2_self_le hp)

theorem exists_polyRem {r : Nat} (hr : r ≠ 0) (p : Nat) : ∃ m, IsPolyRem p r m := by
  induction p using Nat.strong_induction_on with
  | _ p ih =>
    by_cases hp : p < 2 ^ Nat.log2 r
    · exact ⟨p, hp, 0, by simp [clmul_zero_left]⟩
    · have hp0 : p ≠ 0 := by
        have := Nat.two_pow_pos (Nat.log2 r); omega
      have hk : Nat.log2 r ≤ Nat.log2 p := (Nat.le_log2 hp0).2 (by omega)
      obtain ⟨m, hm, q, hq⟩ := ih _ (reduce_lt hp0 hr hk)
      refine ⟨m, hm, q ^^^ 2 ^ (p.log2 - r.log2), ?_⟩
      rw [clmul_xor_left, Nat.xor_assoc, Nat.xor_comm (clmul (2 ^ _) r) m, ← Nat.xor_assoc, ← hq,
        Nat.xor_assoc, Nat.xor_self, Nat.xor_zero]

theorem polyRem_unique {r q q' m m' : Nat} (hr : r ≠ 0) (hm : m < 2 ^ Nat.log2 r)
    (hm' : m' < 2 ^ Nat.log2 r) (h : clmul q r ^^^ m = clmul q' r ^^^ m') : q = q' ∧ m = m' := by
  have h1 : clmul (q ^^^ q') r = m ^^^ m' := by
    rw [clmul_xor_left]
    exact xor_swap h
  have h2 : m ^^^ m' < 2 ^ Nat.log2 r := Nat.xor_lt_two_pow hm hm'
  have hq : q = q' := by
    by_contra hne
    have := clmul_ne_zero_ge (Nat.xor_ne_zero.2 hne) hr
    omega
  subst hq
  exact ⟨rfl, Nat.xor_right_inj.1 h⟩

theorem isPolyRem_unique {p r m m' : Nat} (hr : r ≠ 0) (h : IsPolyRem p r m)
    (h' : IsPolyRem p r m') : m = m' := by
  obtain ⟨hm, q, hq⟩ := h
  obtain ⟨hm', q', hq'⟩ := h'
  exact (polyRem_unique hr hm hm' (hq.symm.trans hq')).2

theorem log2_of_degree8 {r : Nat} (h1 : 256 ≤ r) (h2 : r ≤ 511) : Nat.log2 r = 8 := by
  have hr : r ≠ 0 := by omega
  have ha : 8 ≤ Nat.log2 r := (Nat.le_log2 hr).2 (by simpa using h1)
  have hb : Nat.log2 r < 9 := (Nat.log2_lt hr).2 (by simp; omega)
  omega

/-! ### Greatest common divisors and inverses modulo a polynomial -/

theorem exists_bezout_aux : ∀ n a b : Nat, a + b ≤ n →
    ∃ g u v c d, g = clmul u a ^^^ clmul v b ∧ a = clmul c g ∧ b = clmul d g := by
  intro n
  induction n with
  | zero =>
    intro a b h
    have ha : a = 0 := by omega
    have hb : b = 0 := by omega
    subst ha; subst hb
    exact ⟨0, 0, 0, 0, 0, by simp [clmul_zero_right], (clmul_zero_right 0).symm,
      (clmul_zero_right 0).symm⟩
  | succ n ih =>
    intro a b h
    by_cases hb : b = 0
    · subst hb
      exact ⟨a, 1, 0, 1, 0, by simp [clmul_one_left, clmul_zero_right],
        (clmul_one_left a).symm, (clmul_zero_left a).symm⟩
    by_cases ha : a = 0
    · subst ha
      exact ⟨b, 0, 1, 0, 1, by simp [clmul_one_left, clmul_zero_right],
        (clmul_zero_left b).symm, (clmul_one_left b).symm⟩
    by_cases hl : b.log2 ≤ a.log2
    · have hlt := reduce_lt ha hb hl
      obtain ⟨g, u, v, c, d, hg, hc, hd⟩ :=
        ih (a ^^^ clmul (2 ^ (a.log2 - b.log2)) b) b (by omega)
      refine ⟨g, u, clmul u (2 ^ (a.log2 - b.log2)) ^^^ v,
        c ^^^ clmul (2 ^ (a.log2 - b.log2)) d, d, ?_, ?_, hd⟩
      · rw [hg, clmul_xor_right, clmul_xor_left, clmul_assoc, Nat.xor_assoc]
      · rw [clmul_xor_left, clmul_assoc, ← hd, ← hc, Nat.xor_assoc, Nat.xor_self, Nat.xor_zero]
    · have hl' : a.log2 ≤ b.log2 := by omega
      have hlt := reduce_lt hb ha hl'
      obtain ⟨g, u, v, c, d, hg, hc, hd⟩ :=
        ih a (b ^^^ clmul (2 ^ (b.log2 - a.log2)) a) (by omega)
      refine ⟨g, u ^^^ clmul v (2 ^ (b.log2 - a.log2)), v, c,
        d ^^^ clmul (2 ^ (b.log2 - a.log2)) c, ?_, hc, ?_⟩
      · rw [hg, clmul_xor_right, clmul_xor_left, clmul_assoc, Nat.xor_assoc,
          Nat.xor_comm (clmul v b)]
      · rw [clmul_xor_left, clmul_assoc, ← hd, ← hc, Nat.xor_assoc, Nat.xor_self, Nat.xor_zero]

theorem exists_bezout (a b : Nat) :
    ∃ g u v c d, g = clmul u a ^^^ clmul v b ∧ a = clmul c g ∧ b = clmul d g :=
  exists_bezout_aux (a + b) a b (Nat.le_refl _)

theorem two_pow_log2_ge {r : Nat} (hr : 256 ≤ r) : 256 ≤ 2 ^ Nat.log2 r := by
  have h : 8 ≤ Nat.log2 r := (Nat.le_log2 (by omega)).2 (by simpa using hr)
  have := Nat.pow_le_pow_right (by decide : 0 < 2) h
  simpa using this

theorem isInvPair_iff {r i j : Nat} (hr : 256 ≤ r) :
    IsInvPair r i j ↔ ∃ q, clmul i j = clmul q r ^^^ 1 := by
  unfold IsInvPair IsPolyRem
  have := two_pow_log2_ge hr
  constructor
  · rintro ⟨_, h⟩; exact h
  · intro h; exact ⟨by omega, h⟩

theorem isInvPair_symm {r i j : Nat} (h : IsInvPair r i j) : IsInvPair r j i := by
  unfold IsInvPair at *
  rw [clmul_comm]
  exact h

theorem isInvPair_unique {r i j j' : Nat} (hr : 256 ≤ r) (hj : j < 256) (hj' : j' < 256)
    (h : IsInvPair r i j) (h' : IsInvPair r i j') : j = j' := by
  obtain ⟨q, hq⟩ := (isInvPair_iff hr).1 h
  obtain ⟨q', hq'⟩ := (isInvPair_iff hr).1 h'
  have hlog := two_pow_log2_ge hr
  have e1 : clmul j' (clmul i j) = clmul (clmul j' q) r ^^^ j' := by
    rw [hq, clmul_xor_right, clmul_one_right, clmul_assoc]
  have e2 : clmul j (clmul i j') = clmul (clmul j q') r ^^^ j := by
    rw [hq', clmul_xor_right, clmul_one_right, clmul_assoc]
  have e3 : clmul j' (clmul i j) = clmul j (clmul i j') := by
    rw [← clmul_assoc, clmul_comm (clmul j' i) j, clmul_comm j' i]
  have := polyRem_unique (by omega : r ≠ 0) (by omega : j' < 2 ^ Nat.log2 r)
    (by omega : j < 2 ^ Nat.log2 r) (e1.symm.trans (e3.trans e2))
  exact this.2.symm

theorem isInvPair_one {r : Nat} (hr : 256 ≤ r) : IsInvPair r 1 1 :=
  (isInvPair_iff hr).2 ⟨0, by simp [clmul_one_left, clmul_zero_left]⟩

theorem isInvPair_ne_zero {r i j : Nat} (hr : 256 ≤ r) (h : IsInvPair r i j) : i ≠ 0 := by
  intro hi
  subst hi
  obtain ⟨q, hq⟩ := (isInvPair_iff hr).1 h
  have hlog := two_pow_log2_ge hr
  rw [clmul_zero_left] at hq
  have h0 : clmul 0 r ^^^ 0 = clmul q r ^^^ 1 := by
    rw [clmul_zero_left]; simpa using hq
  have := polyRem_unique (by omega : r ≠ 0) (by omega : 0 < 2 ^ Nat.log2 r)
    (by omega : 1 < 2 ^ Nat.log2 r) h0
  omega

theorem isInvPair_ge_two {r i j : Nat} (hr : 256 ≤ r) (hi : 2 ≤ i) (hi' : i < 256)
    (h : IsInvPair r i j) : 2 ≤ j := by
  have h0 : j ≠ 0 := isInvPair_ne_zero hr (isInvPair_symm h)
  have h1 : j ≠ 1 := by
    intro e
    subst e
    have := isInvPair_unique hr (by omega) (by decide) (isInvPair_symm h) (isInvPair_one hr)
    omega
  omega

theorem no_inverse_of_factor {r p q j : Nat} (hr : 256 ≤ r) (hp : 2 ≤ p) (h : clmul p q = r) :
    ¬ IsInvPair r p j := by
  intro hinv
  obtain ⟨s, hs⟩ := (isInvPair_iff hr).1 hinv
  have e : clmul s r = clmul p (clmul s q) := by
    rw [← h, ← clmul_assoc, clmul_comm s p, clmul_assoc]
  rw [e] at hs
  have h1 : clmul p (j ^^^ clmul s q) = 1 := by
    rw [clmul_xor_right, hs, Nat.xor_comm, ← Nat.xor_assoc, Nat.xor_self, Nat.zero_xor]
  by_cases hz : j ^^^ clmul s q = 0
  · rw [hz, clmul_zero_right] at h1
    omega
  · have := clmul_ge_two_pow (m := 1) (n := 0) (a := p) (b := j ^^^ clmul s q)
      (by simpa using hp) (by simp; omega)
    simp at this
    omega

theorem exists_inverse_of_irreducible {r i : Nat} (h1 : 256 ≤ r) (h2 : r ≤ 511)
    (hirr : Irreducible8 r) (hi0 : i ≠ 0) (hi : i < 256) : ∃ j, j < 256 ∧ IsInvPair r i j := by
  obtain ⟨g, u, v, c, d, hg, hc, hd⟩ := exists_bezout i r
  have hlog : Nat.log2 r = 8 := log2_of_degree8 h1 h2
  have hr0 : r ≠ 0 := by omega
  have hg0 : g ≠ 0 := by
    intro e; rw [e, clmul_zero_right] at hd; omega
  have hd0 : d ≠ 0 := by
    intro e; rw [e, clmul_zero_left] at hd; omega
  have hc0 : c ≠ 0 := by
    intro e; rw [e, clmul_zero_left] at hc; omega
  have hg256 : g < 256 := by
    by_contra hge
    have := clmul_ge_two_pow (m := 0) (n := 8) (a := c) (b := g) (by simp; omega)
      (by simp; omega)
    rw [← hc] at this
    simp at this
    omega
  have hg1 : g = 1 := by
    by_contra hne
    have hg2 : 2 ≤ g := by omega
    have hd2 : 2 ≤ d := by
      by_contra hlt
      have hd1 : d = 1 := by omega
      rw [hd1, clmul_one_left] at hd
      omega
    have hd256 : d < 256 := by
      by_contra hge
      have := clmul_ge_two_pow (m := 8) (n := 1) (a := d) (b := g) (by simp; omega)
        (by simpa using hg2)
      rw [← hd] at this
      simp at this
      omega
    exact hirr d hd256 g hg256 hd2 hg2 hd.symm
  subst hg1
  obtain ⟨m, hm, q, hq⟩ := exists_polyRem hr0 u
  rw [hlog] at hm
  refine ⟨m, by simpa using hm, (isInvPair_iff h1).2 ⟨v ^^^ clmul i q, ?_⟩⟩
  have hu : clmul u i = clmul v r ^^^ 1 := by
    have := @xor_swap (clmul u i) 1 (clmul v r) 0 (by simpa using hg.symm)
    rw [Nat.xor_zero] at this
    have h3 := congrArg (fun x => x ^^^ 1) this
    simp only [Nat.xor_cancel_right] at h3
    exact h3
  have hm' : m = u ^^^ clmul q r := by rw [hq, Nat.xor_comm, ← Nat.xor_assoc, Nat.xor_self, Nat.zero_xor]
  rw [hm', clmul_xor_right, clmul_comm i u, hu, clmul_xor_left, ← clmul_assoc]
  simp only [Nat.xor_assoc, xor_left_comm, Nat.xor_comm 1]

/-! ### `multpoly` is the carry-less product -/

theorem rotl8_iterate_byte : ∀ x < 256, ∀ k < 8,
    (decide (rotl8^[k + 1] x % 2 = 1) = x.testBit (7 - k)) ∧ rotl8^[8] x = x := by
  decide!

theorem rotl8_iterate_mod (x k : Nat) (hx : x < 256) (hk : k < 8) :
    (if rotl8^[k + 1] x % 2 = 1 then 1 <<< (7 - k) else 0) = bitv x (7 - k) := by
  have h := (rotl8_iterate_byte x hx k hk).1
  unfold bitv
  rw [← h, Nat.one_shiftLeft]
  simp

theorem rotl8_iterate_eight (x : Nat) (hx : x < 256) : rotl8^[8] x = x :=
  (rotl8_iterate_byte x hx 0 (by decide)).2

theorem multpolyRow_upto (A i b : Nat) (g : Arr) (n : Nat) :
    (List.range n).foldl
      (fun (t : Nat × Arr) j =>
        (rotl8 t.1, t.2.set (i * 8 + j)
          (A * (if rotl8 t.1 % 2 = 1 then 1 <<< (7 - j) else 0)))) (b, g)
    = (rotl8^[n] b, fun k => if i * 8 ≤ k ∧ k < i * 8 + n then
        A * (if rotl8^[k - i * 8 + 1] b % 2 = 1 then 1 <<< (7 - (k - i * 8)) else 0)
        else g k) := by
  induction n with
  | zero =>
    simp only [List.range_zero, List.foldl_nil, Function.iterate_zero, id_eq, Prod.mk.injEq,
      true_and]
    funext k
    have c : ¬(i * 8 ≤ k ∧ k < i * 8 + 0) := by omega
    rw [if_neg c]
  | succ n ih =>
    rw [List.range_succ, List.foldl_append, ih]
    simp only [List.foldl_cons, List.foldl_nil, Prod.mk.injEq]
    refine ⟨(Function.iterate_succ_apply' rotl8 n b).symm, ?_⟩
    funext k
    simp only [Arr.set]
    by_cases hk : k = i * 8 + n
    · subst hk
      have e : i * 8 + n - i * 8 = n := by omega
      have c1 : i * 8 ≤ i * 8 + n ∧ i * 8 + n < i * 8 + (n + 1) := by omega
      rw [if_pos (rfl : i * 8 + n = i * 8 + n), if_pos c1, e, Function.iterate_succ_apply']
    · by_cases h2 : i * 8 ≤ k ∧ k < i * 8 + n
      · have c1 : i * 8 ≤ k ∧ k < i * 8 + (n + 1) := by omega
        rw [if_neg hk, if_pos h2, if_pos c1]
      · have c1 : ¬(i * 8 ≤ k ∧ k < i * 8 + (n + 1)) := by omega
        rw [if_neg hk, if_neg h2, if_neg c1]

theorem multpolyRow_eq (a i b : Nat) (g : Arr) (hb : b < 256) :
    multpolyRow a i (b, g)
    = (b, fun k => if i * 8 ≤ k ∧ k < i * 8 + 8 then
        (if a % 2 = 1 then 1 <<< (7 - i) else 0) * bitv b (7 - (k - i * 8)) else g k) := by
  unfold multpolyRow
  simp only []
  rw [multpolyRow_upto, rotl8_iterate_eight b hb]
  simp only [Prod.mk.injEq, true_and]
  funext k
  by_cases h : i * 8 ≤ k ∧ k < i * 8 + 8
  · rw [if_pos h, if_pos h, rotl8_iterate_mod b (k - i * 8) hb (by omega)]
  · rw [if_neg h, if_neg h]

theorem multpolyTable_upto (a b : Nat) (g : Arr) (ha : a < 256) (hb : b < 256) (n : Nat)
    (hn : n ≤ 8) :
    (List.range n).foldl
      (fun (st : Nat × Nat × Arr) i =>
        ((rotl8 st.1, (multpolyRow (rotl8 st.1) i st.2).1,
          (multpolyRow (rotl8 st.1) i st.2).2) : Nat × Nat × Arr)) (a, b, g)
    = (rotl8^[n] a, b, fun k => if k < n * 8 then
        bitv a (7 - k / 8) * bitv b (7 - k % 8) else g k) := by
  induction n with
  | zero =>
    simp only [List.range_zero, List.foldl_nil, Function.iterate_zero, id_eq, Prod.mk.injEq,
      true_and]
    funext k
    have c : ¬(k < 0 * 8) := by omega
    rw [if_neg c]
  | succ n ih =>
    rw [List.range_succ, List.foldl_append, ih (by omega)]
    simp only [List.foldl_cons, List.foldl_nil]
    rw [multpolyRow_eq _ _ _ _ hb, ← Function.iterate_succ_apply' rotl8 n a,
      rotl8_iterate_mod a n ha (by omega)]
    simp only [Prod.mk.injEq, true_and]
    funext k
    by_cases h : n * 8 ≤ k ∧ k < n * 8 + 8
    · have e1 : k / 8 = n := by omega
      have e2 : k % 8 = k - n * 8 := by omega
      have c : k < (n + 1) * 8 := by omega
      rw [if_pos h, if_pos c, e1, e2]
    · rw [if_neg h]
      by_cases h2 : k < n * 8
      · have c : k < (n + 1) * 8 := by omega
        rw [if_pos h2, if_pos c]
      · have c : ¬(k < (n + 1) * 8) := by omega
        rw [if_neg h2, if_neg c]

theorem multpolyTable_eq (g : Arr) (a b k : Nat) (hk : k < 64) :
    multpolyTable g a b k = bitv (a % 256) (7 - k / 8) * bitv (b % 256) (7 - k % 8) := by
  unfold multpolyTable
  rw [multpolyTable_upto (a % 256) (b % 256) g (Nat.mod_lt _ (by decide))
    (Nat.mod_lt _ (by decide)) 8 (Nat.le_refl _)]
  simp only
  rw [if_pos (by omega)]

theorem xorSum_eq_foldl_map (f : Nat → Nat) (l : List Nat) :
    l.foldl (fun result i => result ^^^ f i) 0 = xorSum (l.map f) := by
  unfold xorSum
  rw [List.foldl_map]

theorem multpolyWith_eq (g : Arr) (a b : Nat) :
    multpolyWith g a b = xorSum ((List.range 64).map fun k =>
      bitv (a % 256) (7 - k / 8) * bitv (b % 256) (7 - k % 8)) := by
  unfold multpolyWith
  simp only
  rw [xorSum_eq_foldl_map]
  congr 1
  apply List.map_congr_left
  intro k hk
  exact multpolyTable_eq g a b k (List.mem_range.1 hk)

theorem multpolyWith_irrelevant (g g' : Arr) (a b : Nat) :
    multpolyWith g a b = multpolyWith g' a b := by
  rw [multpolyWith_eq, multpolyWith_eq]

/-! ### XOR sums -/

theorem foldl_xor_eq (l : List Nat) (acc : Nat) :
    l.foldl (fun acc x => acc ^^^ x) acc = acc ^^^ xorSum l := by
  unfold xorSum
  induction l generalizing acc with
  | nil => simp
  | cons x l ih => rw [List.foldl_cons, List.foldl_cons, ih, ih (0 ^^^ x), Nat.zero_xor, Nat.xor_assoc]

theorem xorSum_nil : xorSum [] = 0 := rfl

theorem xorSum_cons (x : Nat) (l : List Nat) : xorSum (x :: l) = x ^^^ xorSum l := by
  show List.foldl _ (0 ^^^ x) l = _
  rw [foldl_xor_eq, Nat.zero_xor]

theorem xorSum_append (l l' : List Nat) : xorSum (l ++ l') = xorSum l ^^^ xorSum l' := by
  induction l with
  | nil => simp [xorSum_nil]
  | cons x l ih => rw [List.cons_append, xorSum_cons, xorSum_cons, ih, Nat.xor_assoc]

theorem clmul_xorSum_right (a : Nat) (l : List Nat) :
    clmul a (xorSum l) = xorSum (l.map (clmul a)) := by
  induction l with
  | nil => exact clmul_zero_right a
  | cons x l ih => rw [List.map_cons, xorSum_cons, xorSum_cons, clmul_xor_right, ih]

theorem clmul_xorSum_left (l : List Nat) (b : Nat) :
    clmul (xorSum l) b = xorSum (l.map fun a => clmul a b) := by
  induction l with
  | nil => exact clmul_zero_left b
  | cons x l ih => rw [List.map_cons, xorSum_cons, xorSum_cons, clmul_xor_left, ih]

theorem xorSum_product (G : Nat → Nat → Nat) (l1 l2 : List Nat) :
    xorSum ((l1.product l2).map fun p => G p.1 p.2)
      = xorSum (l1.map fun i => xorSum (l2.map (G i))) := by
  induction l1 with
  | nil => rfl
  | cons x l ih =>
    have e : (x :: l).product l2 = l2.map (Prod.mk x) ++ l.product l2 := rfl
    rw [e, List.map_append, xorSum_append, ih, List.map_cons, xorSum_cons, List.map_map]
    rfl

theorem testBit_xorSum (l : List Nat) (k : Nat) :
    (xorSum l).testBit k = decide (l.countP (fun x => x.testBit k) % 2 = 1) := by
  induction l with
  | nil => simp [xorSum_nil]
  | cons x l ih =>
    rw [xorSum_cons, Nat.testBit_xor, ih, List.countP_cons]
    rcases Nat.mod_two_eq_zero_or_one (List.countP (fun x => x.testBit k) l) with h | h <;>
      cases hx : x.testBit k <;> simp [h, Nat.add_mod]

/-! ### Bytes as sums of monomials -/

theorem byte_decomp : ∀ x < 256,
    xorSum ((List.range 8).map fun j => bitv x (7 - j)) = x ∧
    xorSum ((List.range 8).map (bitv x)) = x := by
  decide!

theorem range64_pairs :
    (List.range 64).map (fun k => (k / 8, k % 8)) = (List.range 8).product (List.range 8) := by
  decide!

theorem pairs_reverse :
    ((List.range 8).product (List.range 8)).map (fun p => (7 - p.1, 7 - p.2))
      = ((List.range 8).product (List.range 8)).reverse := by
  decide!

theorem bitv_mul (a i y : Nat) : bitv a i * y = clmul (bitv a i) y := by
  unfold bitv
  split
  · rw [clmul_two_pow_left, Nat.mul_comm]
  · rw [clmul_zero_left, Nat.zero_mul]

theorem testBit_bitv_mul (a b i j t : Nat) :
    (bitv a i * bitv b j).testBit t = (decide (i + j = t) && a.testBit i && b.testBit j) := by
  unfold bitv
  cases ha : a.testBit i <;> cases hb : b.testBit j <;>
    simp [← Nat.pow_add, Nat.testBit_two_pow]

theorem multpolyWith_eq_pairs (g : Arr) (a b : Nat) :
    multpolyWith g a b = xorSum (((List.range 8).product (List.range 8)).map fun p =>
      bitv (a % 256) (7 - p.1) * bitv (b % 256) (7 - p.2)) := by
  rw [multpolyWith_eq, ← range64_pairs, List.map_map]
  rfl

theorem multpolyWith_eq_clmul (g : Arr) (a b : Nat) :
    multpolyWith g a b = clmul (a % 256) (b % 256) := by
  rw [multpolyWith_eq_pairs,
    xorSum_product (fun i j => bitv (a % 256) (7 - i) * bitv (b % 256) (7 - j))]
  have hb := (byte_decomp (b % 256) (Nat.mod_lt _ (by decide))).1
  have ha := (byte_decomp (a % 256) (Nat.mod_lt _ (by decide))).1
  have inner : ∀ i, xorSum ((List.range 8).map fun j =>
      bitv (a % 256) (7 - i) * bitv (b % 256) (7 - j)) = clmul (bitv (a % 256) (7 - i)) (b % 256) := by
    intro i
    conv => rhs; rw [← hb]
    rw [clmul_xorSum_right, List.map_map]
    congr 1
    apply List.map_congr_left
    intro j _
    exact bitv_mul _ _ _
  simp only [inner]
  conv => rhs; rw [← ha]
  rw [clmul_xorSum_left, List.map_map]
  rfl

theorem multpoly_eq_clmul (a b : Nat) (ha : a < 256) (hb : b < 256) :
    multpoly a b = clmul a b := by
  unfold multpoly
  rw [multpolyWith_eq_clmul, Nat.mod_eq_of_lt ha, Nat.mod_eq_of_lt hb]

theorem clmulRef_fold (a b : Nat) (l : List Nat) (acc : Nat) :
    l.foldl (fun acc j => if b.testBit j then acc ^^^ (a <<< j) else acc) acc
      = acc ^^^ xorSum (l.map fun j => clmul a (bitv b j)) := by
  induction l generalizing acc with
  | nil => simp [xorSum_nil]
  | cons j l ih =>
    rw [List.foldl_cons, ih, List.map_cons, xorSum_cons]
    unfold bitv
    by_cases h : b.testBit j
    · simp only [h, if_true]
      rw [clmul_two_pow_right, Nat.shiftLeft_eq, Nat.xor_assoc]
    · simp only [h, if_false, Bool.false_eq_true]
      rw [clmul_zero_right, Nat.zero_xor]

theorem clmulRef_eq_clmul (a b : Nat) (hb : b < 256) : clmulRef a b = clmul a b := by
  unfold clmulRef
  rw [clmulRef_fold, Nat.zero_xor]
  have h := clmul_xorSum_right a ((List.range 8).map (bitv b))
  rw [List.map_map, (byte_decomp b hb).2] at h
  exact h.symm

theorem multpoly_testBit (a b k : Nat) (ha : a < 256) (hb : b < 256) :
    (multpoly a b).testBit k = decide (pairCount a b k % 2 = 1) := by
  unfold multpoly pairCount
  rw [multpolyWith_eq_pairs, testBit_xorSum, List.countP_map, Nat.mod_eq_of_lt ha,
    Nat.mod_eq_of_lt hb]
  have e : List.countP ((fun x => x.testBit k) ∘ fun p : Nat × Nat =>
        bitv a (7 - p.1) * bitv b (7 - p.2)) ((List.range 8).product (List.range 8))
      = List.countP ((fun p : Nat × Nat =>
          decide (p.1 + p.2 = k) && a.testBit p.1 && b.testBit p.2) ∘
          fun p : Nat × Nat => (7 - p.1, 7 - p.2)) ((List.range 8).product (List.range 8)) := by
    apply List.countP_congr
    intro p _
    simp only [Function.comp, testBit_bitv_mul]
  rw [e, ← List.countP_map, pairs_reverse, List.countP_reverse]

theorem pairCount_zero_of_gt (a b k : Nat) (hk : 14 < k) : pairCount a b k = 0 := by
  unfold pairCount
  rw [List.countP_eq_zero]
  intro p hp
  have h := List.mem_product.1 hp
  have h1 := List.mem_range.1 h.1
  have h2 := List.mem_range.1 h.2
  have : p.1 + p.2 ≠ k := by omega
  simp [this]

/-! ### Loops with fuel -/

theorem whileLoop_spec {σ : Type} (cond : σ → Bool) (body : σ → Option σ) (inv : σ → Prop)
    (μ : σ → Nat)
    (hstep : ∀ s, inv s → cond s = true → ∃ s', body s = some s' ∧ inv s' ∧ μ s' < μ s) :
    ∀ fuel s, inv s → μ s < fuel →
      ∃ s', whileLoop cond body fuel s = some s' ∧ inv s' ∧ cond s' = false := by
  intro fuel
  induction fuel with
  | zero => intro s _ h; omega
  | succ n ih =>
    intro s hinv hμ
    by_cases hc : cond s = true
    · obtain ⟨s', hb, hi', hlt⟩ := hstep s hinv hc
      obtain ⟨s'', h1, h2, h3⟩ := ih s' hi' (by omega)
      exact ⟨s'', by simp [whileLoop, hc, hb, h1], h2, h3⟩
    · exact ⟨s, by simp [whileLoop, hc], hinv, by simpa using hc⟩

/-! ### `modpoly` computes the remainder of the polynomial division -/

theorem modpolyAlign_spec (p r fuel : Nat) (hp : p < 2 ^ 16) (hf : 9 ≤ fuel) :
    ∃ k, k ≤ 8 ∧ p ≤ 2 ^ (8 + k) ∧
      modpolyAlign fuel { i := 256, poly := p, irrpoly := r }
        = some { i := 2 ^ (8 + k), poly := p, irrpoly := r * 2 ^ k } := by
  have h := whileLoop_spec (fun s : ModSt => decide (s.i < s.poly))
    (fun s => some { s with irrpoly := s.irrpoly <<< 1, i := s.i <<< 1 })
    (fun s => ∃ k, k ≤ 8 ∧ s = { i := 2 ^ (8 + k), poly := p, irrpoly := r * 2 ^ k })
    (fun s => 16 - Nat.log2 s.i)
    (by
      rintro s ⟨k, hk, rfl⟩ hc
      have hc' : 2 ^ (8 + k) < p := by simpa using hc
      have hk8 : k < 8 := by
        by_contra hge
        have : k = 8 := by omega
        subst this
        omega
      refine ⟨_, rfl, ⟨k + 1, by omega, ?_⟩, ?_⟩
      · simp only [Nat.shiftLeft_eq, ModSt.mk.injEq, true_and]
        constructor <;> ring
      · simp only [Nat.shiftLeft_eq]
        have e : 2 ^ (8 + k) * 2 ^ 1 = 2 ^ (8 + k + 1) := by ring
        rw [e, Nat.log2_two_pow, Nat.log2_two_pow]
        omega)
    fuel { i := 256, poly := p, irrpoly := r } ⟨0, by omega, by simp⟩
    (by
      have e : (256 : Nat) = 2 ^ 8 := by norm_num
      simp only [e, Nat.log2_two_pow]
      omega)
  obtain ⟨s', h1, ⟨k, hk, rfl⟩, h3⟩ := h
  refine ⟨k, hk, ?_, h1⟩
  simpa using h3

theorem modpolyDivide_spec (p r fuel k : Nat) (hr1 : 256 ≤ r) (hr2 : r ≤ 511) (hk : k ≤ 8)
    (hp : p ≤ 2 ^ (8 + k)) (hf : 10 ≤ fuel) :
    ∃ s', modpolyDivide fuel { i := 2 ^ (8 + k), poly := p, irrpoly := r * 2 ^ k } = some s' ∧
      s'.poly < 256 ∧ ∃ q, s'.poly = p ^^^ clmul q r := by
  have h := whileLoop_spec (fun s : ModSt => decide (256 ≤ s.poly))
    (fun s => some
      { poly := if s.i ≤ s.poly ∧ s.poly < s.i * 2 then s.poly ^^^ s.irrpoly else s.poly
        irrpoly := s.irrpoly >>> 1
        i := s.i >>> 1 })
    (fun s => (∃ q, s.poly = p ^^^ clmul q r) ∧
      (256 ≤ s.poly → ∃ k, k ≤ 8 ∧ s.i = 2 ^ (8 + k) ∧ s.irrpoly = r * 2 ^ k ∧
        s.poly < 2 ^ (9 + k)))
    (fun s => if s.poly < 256 then 0 else Nat.log2 s.i - 7)
    (by
      rintro ⟨i, poly, irr⟩ ⟨⟨q, hq⟩, h2⟩ hc
      have hc' : 256 ≤ poly := by simpa using hc
      obtain ⟨k, hk, hi, hirr, hlt⟩ := h2 hc'
      simp only at hi hirr hlt hq
      subst hi hirr
      have e9 : 2 ^ (9 + k) = 2 ^ (8 + k) * 2 := by ring
      have e8 : 2 ^ (8 + k) = 256 * 2 ^ k := by ring
      have hpos := Nat.two_pow_pos k
      refine ⟨_, rfl, ?_⟩
      simp only
      have key : ∀ poly', poly' < 2 ^ (8 + k) → (∃ q, poly' = p ^^^ clmul q r) →
          ((∃ q, poly' = p ^^^ clmul q r) ∧
            (256 ≤ poly' → ∃ k', k' ≤ 8 ∧ 2 ^ (8 + k) >>> 1 = 2 ^ (8 + k') ∧
              (r * 2 ^ k) >>> 1 = r * 2 ^ k' ∧ poly' < 2 ^ (9 + k'))) ∧
          (if poly' < 256 then 0 else Nat.log2 (2 ^ (8 + k) >>> 1) - 7) <
            (if poly < 256 then 0 else Nat.log2 (2 ^ (8 + k)) - 7) := by
        intro poly' hlt' hq'
        have hk1 : 256 ≤ poly' → 1 ≤ k := by
          intro h256
          by_contra hk0
          have : k = 0 := by omega
          subst this
          simp at hlt'
          omega
        have hshift : 1 ≤ k → 2 ^ (8 + k) >>> 1 = 2 ^ (8 + (k - 1)) := by
          intro h1
          have e : 2 ^ (8 + k) = 2 ^ (8 + (k - 1)) * 2 := by
            rw [← Nat.pow_succ]; congr 1; omega
          rw [Nat.shiftRight_eq_div_pow, e]
          simp
        refine ⟨⟨hq', ?_⟩, ?_⟩
        · intro h256
          have h1 := hk1 h256
          refine ⟨k - 1, by omega, hshift h1, ?_, ?_⟩
          · have e : 2 ^ k = 2 ^ (k - 1) * 2 := by
              rw [← Nat.pow_succ]; congr 1; omega
            rw [Nat.shiftRight_eq_div_pow, e, ← Nat.mul_assoc]
            simp
          · have e : 9 + (k - 1) = 8 + k := by omega
            rw [e]; exact hlt'
        · rw [if_neg (by omega : ¬ poly < 256), Nat.log2_two_pow]
          by_cases h256 : poly' < 256
          · rw [if_pos h256]; omega
          · rw [if_neg h256, hshift (hk1 (by omega)), Nat.log2_two_pow]; omega
      by_cases hal : 2 ^ (8 + k) ≤ poly ∧ poly < 2 ^ (8 + k) * 2
      · rw [if_pos hal]
        apply key
        · apply xor_lt_of_same_top hal.1 (by rw [Nat.pow_succ]; exact hal.2)
          · rw [e8]; exact Nat.mul_le_mul_right _ hr1
          · rw [Nat.pow_succ, e8]
            have : r * 2 ^ k < 512 * 2 ^ k := Nat.mul_lt_mul_of_pos_right (by omega) hpos
            omega
        · refine ⟨q ^^^ 2 ^ k, ?_⟩
          rw [hq, clmul_xor_left, clmul_two_pow_left, Nat.xor_assoc]
      · rw [if_neg hal]
        exact key poly (by omega) ⟨q, hq⟩)
    fuel { i := 2 ^ (8 + k), poly := p, irrpoly := r * 2 ^ k }
    ⟨⟨0, by simp [clmul_zero_left]⟩, fun _ => ⟨k, hk, rfl, rfl, by
      have e9 : 2 ^ (9 + k) = 2 ^ (8 + k) * 2 := by ring
      have := Nat.two_pow_pos (8 + k)
      simp only
      omega⟩⟩
    (by
      simp only [Nat.log2_two_pow]
      split <;> omega)
  obtain ⟨s', h1, ⟨hq, _⟩, h3⟩ := h
  exact ⟨s', h1, by simpa using h3, hq⟩

theorem modpoly_spec (p r fuel : Nat) (hp : p < 2 ^ 16) (hr1 : 256 ≤ r) (hr2 : r ≤ 511)
    (hf : 10 ≤ fuel) :
    ∃ m q, m < 256 ∧ p = clmul q r ^^^ m ∧ modpoly fuel p r = some (if m = 1 then 1 else 0) := by
  obtain ⟨k, hk, hle, h1⟩ := modpolyAlign_spec p r fuel hp (by omega)
  obtain ⟨s', h2, hlt, q, hq⟩ := modpolyDivide_spec p r fuel k hr1 hr2 hk hle hf
  refine ⟨s'.poly, q, hlt, ?_, ?_⟩
  · rw [hq, Nat.xor_comm p, ← Nat.xor_assoc, Nat.xor_self, Nat.zero_xor]
  · unfold modpoly
    rw [h1]
    show Option.map _ (modpolyDivide fuel _) = _
    rw [h2]
    rfl

theorem modpoly_eq_one_iff (p r fuel : Nat) (hp : p < 2 ^ 16) (hr1 : 256 ≤ r) (hr2 : r ≤ 511)
    (hf : 10 ≤ fuel) :
    (IsPolyRem p r 1 → modpoly fuel p r = some 1) ∧
    (¬ IsPolyRem p r 1 → modpoly fuel p r = some 0) := by
  obtain ⟨m, q, hm, hq, h⟩ := modpoly_spec p r fuel hp hr1 hr2 hf
  have hlog := log2_of_degree8 hr1 hr2
  have hrem : IsPolyRem p r m := ⟨by rw [hlog]; simpa using hm, q, hq⟩
  constructor
  · intro h1
    have := isPolyRem_unique (by omega) hrem h1
    rw [h, if_pos this]
  · intro h1
    have : m ≠ 1 := by
      intro e; subst e; exact h1 hrem
    rw [h, if_neg this]

/-! ### `modpoly` with a reduction polynomial of more than 9 bits -/

theorem whileLoop_diverges {σ : Type} (cond : σ → Bool) (body : σ → Option σ) (inv : σ → Prop)
    (hstep : ∀ s, inv s → cond s = true ∧ ∃ s', body s = some s' ∧ inv s') :
    ∀ fuel s, inv s → whileLoop cond body fuel s = none := by
  intro fuel
  induction fuel with
  | zero => intro s _; rfl
  | succ n ih =>
    intro s hinv
    obtain ⟨hc, s', hb, hi'⟩ := hstep s hinv
    simp [whileLoop, hc, hb, ih s' hi']

theorem whileLoop_post {σ : Type} (cond : σ → Bool) (body : σ → Option σ) (inv : σ → Prop)
    (hstep : ∀ s s', inv s → cond s = true → body s = some s' → inv s') :
    ∀ fuel s s', inv s → whileLoop cond body fuel s = some s' → inv s' ∧ cond s' = false := by
  intro fuel
  induction fuel with
  | zero => intro s s' _ h; simp [whileLoop] at h
  | succ n ih =>
    intro s s' hinv h
    by_cases hc : cond s = true
    · simp only [whileLoop, hc, if_true] at h
      cases hb : body s with
      | none => simp [hb] at h
      | some t =>
        rw [hb] at h
        exact ih t s' (hstep s t hinv hc hb) h
    · simp only [whileLoop, hc, Bool.false_eq_true, if_false, Option.some.injEq] at h
      subst h
      exact ⟨hinv, by simpa using hc⟩

theorem xor_ge_two_pow {x y m : Nat} (hy : y < 2 ^ m) (hx : 2 ^ m ≤ x) : 2 ^ m ≤ y ^^^ x := by
  by_contra hcon
  have h1 : y ^^^ (y ^^^ x) < 2 ^ m := Nat.xor_lt_two_pow hy (Nat.lt_of_not_le hcon)
  rw [← Nat.xor_assoc, Nat.xor_self, Nat.zero_xor] at h1
  omega

theorem modpolyDivide_diverges (r : Nat) (hr : 512 ≤ r) (s : ModSt) (k : Nat)
    (hi : s.i = 2 ^ (8 + k)) (hirr : s.irrpoly = r * 2 ^ k) (hp1 : 256 ≤ s.poly)
    (hp2 : s.poly < 2 * s.i) (fuel : Nat) : modpolyDivide fuel s = none := by
  unfold modpolyDivide
  refine whileLoop_diverges _ _
    (fun s : ModSt => 256 ≤ s.poly ∧
      (2 * s.i ≤ s.poly ∨
        ∃ k, s.i = 2 ^ (8 + k) ∧ s.irrpoly = r * 2 ^ k ∧ s.poly < 2 * s.i))
    ?_ fuel s ⟨hp1, Or.inr ⟨k, hi, hirr, hp2⟩⟩
  rintro ⟨i, poly, irr⟩ ⟨h1, h2⟩
  simp only at h1 h2
  refine ⟨by simpa using h1, _, rfl, ?_⟩
  simp only [Nat.shiftRight_eq_div_pow, pow_one]
  rcases h2 with h2 | ⟨k, hk1, hk2, hk3⟩
  · have hno : ¬ (i ≤ poly ∧ poly < i * 2) := fun h => by omega
    rw [if_neg hno]
    exact ⟨h1, Or.inl (by omega)⟩
  · by_cases hal : i ≤ poly
    · have hyes : i ≤ poly ∧ poly < i * 2 := ⟨hal, by omega⟩
      rw [if_pos hyes]
      have hpow : 2 * i = 2 ^ (9 + k) := by
        rw [hk1, show 9 + k = (8 + k) + 1 from by omega, pow_succ]
        omega
      have hbig : 2 ^ (9 + k) ≤ irr := by
        rw [hk2, show 9 + k = k + 9 from by omega, pow_add]
        have : 0 < 2 ^ k := Nat.two_pow_pos k
        nlinarith
      have hx : 2 ^ (9 + k) ≤ poly ^^^ irr := xor_ge_two_pow (by omega) hbig
      have hi256 : 256 ≤ i := by
        rw [hk1, pow_add]
        have : 0 < 2 ^ k := Nat.two_pow_pos k
        omega
      exact ⟨by omega, Or.inl (by omega)⟩
    · have hno : ¬ (i ≤ poly ∧ poly < i * 2) := fun h => hal h.1
      rw [if_neg hno]
      refine ⟨h1, Or.inr ?_⟩
      cases k with
      | zero =>
        rw [hk1] at hal
        norm_num at hal
        omega
      | succ k =>
        refine ⟨k, ?_, ?_, ?_⟩
        · rw [hk1, show 8 + (k + 1) = (8 + k) + 1 from by omega, pow_succ]
          omega
        · rw [hk2, pow_succ, ← Nat.mul_assoc]
          omega
        · have : i / 2 * 2 = i := by
            rw [hk1, show 8 + (k + 1) = (8 + k) + 1 from by omega, pow_succ]
            omega
          omega

theorem modpoly_diverges (p r : Nat) (hp : 256 ≤ p) (hr : 512 ≤ r) (fuel : Nat) :
    modpoly fuel p r = none := by
  unfold modpoly
  cases h : modpolyAlign fuel { i := 256, poly := p, irrpoly := r } with
  | none => rfl
  | some s1 =>
    have hpost := whileLoop_post (fun s : ModSt => decide (s.i < s.poly))
      (fun s => some { s with irrpoly := s.irrpoly <<< 1, i := s.i <<< 1 })
      (fun s => s.poly = p ∧ ∃ k, s.i = 2 ^ (8 + k) ∧ s.irrpoly = r * 2 ^ k)
      (by
        rintro ⟨i, poly, irr⟩ s' ⟨h1, k, h2, h3⟩ _ hb
        simp only [Option.some.injEq] at hb
        subst hb
        simp only at h1 h2 h3 ⊢
        refine ⟨h1, k + 1, ?_, ?_⟩
        · rw [Nat.shiftLeft_eq, h2, pow_one, ← pow_succ]
          rfl
        · rw [Nat.shiftLeft_eq, h3, pow_one, pow_succ, Nat.mul_assoc])
      fuel _ s1 ⟨rfl, 0, rfl, by simp⟩ h
    obtain ⟨⟨h1, k, h2, h3⟩, h4⟩ := hpost
    have h5 : s1.poly ≤ s1.i := by simpa using h4
    rw [Option.some_bind,
      modpolyDivide_diverges r hr s1 k h2 h3 (by omega) (by omega) fuel]
    rfl

theorem modpoly_small (p r fuel : Nat) (hp : p < 256) (hf : 1 ≤ fuel) :
    modpoly fuel p r = some (if p = 1 then 1 else 0) := by
  obtain ⟨n, rfl⟩ : ∃ n, fuel = n + 1 := ⟨fuel - 1, by omega⟩
  have h1 : ¬ (256 < p) := by omega
  have h2 : ¬ (256 ≤ p) := by omega
  simp [modpoly, modpolyAlign, modpolyDivide, whileLoop, h1, h2]

/-! ### The inverse search of `main` -/

theorem Arr.set_same (a : Arr) (i v : Nat) : a.set i v i = v := by
  unfold Arr.set; rw [if_pos rfl]

theorem Arr.set_ne (a : Arr) {i k : Nat} (v : Nat) (h : k ≠ i) : a.set i v k = a k := by
  unfold Arr.set; rw [if_neg h]

theorem multpoly_lt (i j : Nat) (hi : i < 256) (hj : j < 256) : multpoly i j < 2 ^ 16 := by
  rw [multpoly_eq_clmul i j hi hj]
  have := clmul_lt_two_pow (m := 7) (n := 7) (a := i) (b := j) (by simpa using hi)
    (by simpa using hj)
  omega

theorem test_spec (r fuel i j : Nat) (hr1 : 256 ≤ r) (hr2 : r ≤ 511) (hf : 10 ≤ fuel)
    (hi : i < 256) (hj : j < 256) :
    (IsInvPair r i j → modpoly fuel (multpoly i j) r = some 1) ∧
    (¬ IsInvPair r i j → modpoly fuel (multpoly i j) r = some 0) := by
  have hlt := multpoly_lt i j hi hj
  rw [multpoly_eq_clmul i j hi hj] at hlt ⊢
  exact modpoly_eq_one_iff (clmul i j) r fuel hlt hr1 hr2 hf

theorem foundInv_skip {r n : Nat} {found : Arr} (hr : 256 ≤ r) (hn : n < 256)
    (F2 : FoundInv r n found) (hf : found n ≠ 0) (hn2 : 2 ≤ n) : FoundInv r (n + 1) found := by
  intro x hx2 hx
  rw [F2 x hx2 hx]
  constructor
  · rintro ⟨y, hy, hR, hlt⟩
    exact ⟨y, hy, hR, by omega⟩
  · rintro ⟨y, hy, hR, hlt⟩
    by_cases hxn : x = n
    · subst hxn
      exact (F2 x hx2 hx).1 hf
    by_cases hyn : y = n
    · subst hyn
      obtain ⟨y', hy', hR', hlt'⟩ := (F2 y hn2 hn).1 hf
      have e : y' = x := isInvPair_unique hr hy' hx hR' (isInvPair_symm hR)
      subst e
      exact ⟨y, hy, hR, by omega⟩
    exact ⟨y, hy, hR, by omega⟩

theorem no_inverse_of_scan {r n : Nat} {found : Arr} (hn : n < 256) (F2 : FoundInv r n found)
    (hf : found n = 0) (hn2 : 2 ≤ n) (hno : ∀ y, n ≤ y → y < 256 → ¬ IsInvPair r n y) :
    ∀ y, y < 256 → ¬ IsInvPair r n y := by
  intro y hy hR
  by_cases hyn : n ≤ y
  · exact hno y hyn hy hR
  · exact (F2 n hn2 hn).2 ⟨y, hy, hR, by omega⟩ hf

theorem foundInv_none {r n : Nat} {found : Arr} (F2 : FoundInv r n found)
    (hnone : ∀ y, y < 256 → ¬ IsInvPair r n y) : FoundInv r (n + 1) found := by
  intro x hx2 hx
  rw [F2 x hx2 hx]
  constructor
  · rintro ⟨y, hy, hR, hlt⟩
    exact ⟨y, hy, hR, by omega⟩
  · rintro ⟨y, hy, hR, hlt⟩
    by_cases hxn : x = n
    · subst hxn; exact absurd hR (hnone y hy)
    by_cases hyn : y = n
    · subst hyn; exact absurd (isInvPair_symm hR) (hnone x hx)
    exact ⟨y, hy, hR, by omega⟩

theorem foundInv_pair {r n y : Nat} {found : Arr} (hr : 256 ≤ r) (hn : n < 256)
    (F2 : FoundInv r n found) (hy : y < 256) (hR : IsInvPair r n y) :
    FoundInv r (n + 1) ((found.set y 1).set n 1) := by
  have hfn : ((found.set y 1).set n 1) n ≠ 0 := by rw [Arr.set_same]; decide
  have hfy : ((found.set y 1).set n 1) y ≠ 0 := by
    by_cases e : y = n
    · subst e; exact hfn
    · rw [Arr.set_ne _ _ e, Arr.set_same]; decide
  intro x hx2 hx
  by_cases hxn : x = n
  · subst hxn
    exact ⟨fun _ => ⟨y, hy, hR, by omega⟩, fun _ => hfn⟩
  by_cases hxy : x = y
  · subst hxy
    exact ⟨fun _ => ⟨n, hn, isInvPair_symm hR, by omega⟩, fun _ => hfy⟩
  rw [Arr.set_ne _ _ hxn, Arr.set_ne _ _ hxy, F2 x hx2 hx]
  constructor
  · rintro ⟨z, hz, hRz, hlt⟩
    exact ⟨z, hz, hRz, by omega⟩
  · rintro ⟨z, hz, hRz, hlt⟩
    by_cases hzn : z = n
    · subst hzn
      exact absurd (isInvPair_unique hr hx hy (isInvPair_symm hRz) hR) hxy
    exact ⟨z, hz, hRz, by omega⟩

theorem searchInv_skip {r n : Nat} {found invs : Arr} (hr : 256 ≤ r) (hn : n < 256)
    (h : SearchInv r n found invs) (hf : found n ≠ 0) (hn2 : 2 ≤ n) :
    SearchInv r (n + 1) found invs := by
  obtain ⟨F2, I1, I2, I3⟩ := h
  refine ⟨foundInv_skip hr hn F2 hf hn2, I1, ?_, I3⟩
  intro x hx2 hxn hfx
  by_cases hxn' : x = n
  · subst hxn'; exact absurd hfx hf
  · exact I2 x hx2 (by omega) hfx

theorem searchInv_none {r n : Nat} {found invs : Arr} (hn : n < 256)
    (h : SearchInv r n found invs) (hf : found n = 0) (hn2 : 2 ≤ n)
    (hno : ∀ y, n ≤ y → y < 256 → ¬ IsInvPair r n y) :
    SearchInv r (n + 1) found (invs.set n 0) := by
  obtain ⟨F2, I1, I2, I3, I4⟩ := h
  refine ⟨foundInv_none F2 (no_inverse_of_scan hn F2 hf hn2 hno), ?_, ?_, ?_, ?_⟩
  · intro x hx2 hx hfx
    have hxn : x ≠ n := by
      intro e; subst e; exact hfx hf
    rw [Arr.set_ne _ _ hxn]
    exact I1 x hx2 hx hfx
  · intro x hx2 hxn hfx
    by_cases hxn' : x = n
    · subst hxn'; exact Arr.set_same _ _ _
    · rw [Arr.set_ne _ _ hxn']
      exact I2 x hx2 (by omega) hfx
  · rw [Arr.set_ne _ _ (by omega)]; exact I3
  · rw [Arr.set_ne _ _ (by omega)]; exact I4

theorem searchInv_pair {r n y : Nat} {found invs : Arr} (hr : 256 ≤ r) (hn : n < 256)
    (h : SearchInv r n found invs) (hn2 : 2 ≤ n) (hny : n ≤ y) (hy : y < 256)
    (hR : IsInvPair r n y) :
    SearchInv r (n + 1) ((found.set y 1).set n 1) ((invs.set n y).set y n) := by
  obtain ⟨F2, I1, I2, I3, I4⟩ := h
  have hfn : ((found.set y 1).set n 1) n ≠ 0 := by rw [Arr.set_same]; decide
  have hfy : ((found.set y 1).set n 1) y ≠ 0 := by
    by_cases e : y = n
    · subst e; exact hfn
    · rw [Arr.set_ne _ _ e, Arr.set_same]; decide
  have hfo : ∀ x, x ≠ n → x ≠ y → ((found.set y 1).set n 1) x = found x := by
    intro x h1 h2
    rw [Arr.set_ne _ _ h1, Arr.set_ne _ _ h2]
  have hin : ((invs.set n y).set y n) n = y := by
    by_cases e : n = y
    · subst e; exact Arr.set_same _ _ _
    · rw [Arr.set_ne _ _ e, Arr.set_same]
  have hiy : ((invs.set n y).set y n) y = n := Arr.set_same _ _ _
  have hio : ∀ x, x ≠ n → x ≠ y → ((invs.set n y).set y n) x = invs x := by
    intro x h1 h2
    rw [Arr.set_ne _ _ h2, Arr.set_ne _ _ h1]
  refine ⟨foundInv_pair hr hn F2 hy hR, ?_, ?_, ?_, ?_⟩
  · intro x hx2 hx hfx
    by_cases hxn : x = n
    · subst hxn; rw [hin]; exact ⟨hy, hR⟩
    by_cases hxy : x = y
    · subst hxy; rw [hiy]; exact ⟨hn, isInvPair_symm hR⟩
    rw [hio x hxn hxy]
    rw [hfo x hxn hxy] at hfx
    exact I1 x hx2 hx hfx
  · intro x hx2 hxn hfx
    by_cases hxn' : x = n
    · subst hxn'; exact absurd hfx hfn
    by_cases hxy : x = y
    · subst hxy; exact absurd hfx hfy
    rw [hio x hxn' hxy]
    rw [hfo x hxn' hxy] at hfx
    exact I2 x hx2 (by omega) hfx
  · rw [hio 0 (by omega) (by omega)]; exact I3
  · rw [hio 1 (by omega) (by omega)]; exact I4

theorem searchWhile_spec (r fuel n : Nat) (s : SearchSt) (hr1 : 256 ≤ r) (hr2 : r ≤ 511)
    (hf : 256 ≤ fuel) (hn2 : 2 ≤ n) (hn : n < 256) :
    ∃ s1, whileLoop (fun t : SearchSt => t.found n == 0 && decide (t.j < 256))
        (searchBody fuel r n) fuel { s with j := n } = some s1 ∧
      n ≤ s1.j ∧ s1.j ≤ 256 ∧ (s1.found n = 0 → s1.j = 256) ∧
      ((s1.found = s.found ∧ s1.invs = s.invs ∧ ∀ y, n ≤ y → y < s1.j → ¬ IsInvPair r n y) ∨
       (∃ y, n ≤ y ∧ y < 256 ∧ IsInvPair r n y ∧
          s1.found = (s.found.set y 1).set n 1 ∧ s1.invs = (s.invs.set n y).set y n)) := by
  have hloop := whileLoop_spec (fun t : SearchSt => t.found n == 0 && decide (t.j < 256))
    (searchBody fuel r n)
    (fun t => n ≤ t.j ∧ t.j ≤ 256 ∧
      ((t.found = s.found ∧ t.invs = s.invs ∧ ∀ y, n ≤ y → y < t.j → ¬ IsInvPair r n y) ∨
       (∃ y, n ≤ y ∧ y < 256 ∧ IsInvPair r n y ∧
          t.found = (s.found.set y 1).set n 1 ∧ t.invs = (s.invs.set n y).set y n)))
    (fun t => 256 - t.j)
    (by
      rintro t ⟨hj1, hj2, hcase⟩ hc
      simp only [Bool.and_eq_true, beq_iff_eq, decide_eq_true_eq] at hc
      obtain ⟨hc1, hc2⟩ := hc
      rcases hcase with ⟨hfd, hiv, hno⟩ | ⟨y, _, _, _, hfd, _⟩
      · have ht := test_spec r fuel n t.j hr1 hr2 (by omega) hn hc2
        by_cases hR : IsInvPair r n t.j
        · refine ⟨{ found := (t.found.set t.j 1).set n 1,
                    invs := (t.invs.set n t.j).set t.j n, j := t.j + 1 }, ?_, ?_, ?_⟩
          · unfold searchBody
            rw [ht.1 hR]
            rfl
          · refine ⟨by simp only; omega, by simp only; omega, Or.inr ⟨t.j, hj1, hc2, hR, ?_, ?_⟩⟩
            · simp only [hfd]
            · simp only [hiv]
          · simp only; omega
        · refine ⟨{ t with j := t.j + 1 }, ?_, ?_, ?_⟩
          · unfold searchBody
            rw [ht.2 hR]
            rfl
          · refine ⟨by simp only; omega, by simp only; omega, Or.inl ⟨hfd, hiv, ?_⟩⟩
            intro y hy1 hy2
            simp only at hy2
            by_cases e : y = t.j
            · subst e; exact hR
            · exact hno y hy1 (by omega)
          · simp only; omega
      · rw [hfd, Arr.set_same] at hc1
        omega)
    fuel { s with j := n }
    ⟨Nat.le_refl _, by simp only; omega, Or.inl ⟨rfl, rfl, fun y h1 h2 => by
      simp only at h2; omega⟩⟩
    (by simp only; omega)
  obtain ⟨s1, hw, ⟨hj1, hj2, hcase⟩, hc⟩ := hloop
  simp only at hc
  refine ⟨s1, hw, hj1, hj2, ?_, hcase⟩
  intro h0
  simp only [h0, beq_self_eq_true, Bool.true_and, decide_eq_false_iff_not] at hc
  omega

theorem searchStep_spec (r fuel n : Nat) (s : SearchSt) (hr1 : 256 ≤ r) (hr2 : r ≤ 511)
    (hf : 256 ≤ fuel) (hn2 : 2 ≤ n) (hn : n < 256) (h : SearchInv r n s.found s.invs) :
    ∃ s', searchStep fuel r s n = some s' ∧ SearchInv r (n + 1) s'.found s'.invs := by
  obtain ⟨s1, hw, hj1, hj2, hj, hcase⟩ := searchWhile_spec r fuel n s hr1 hr2 hf hn2 hn
  unfold searchStep
  rw [hw]
  simp only [Option.map_some', Option.some.injEq, exists_eq_left']
  rcases hcase with ⟨hfd, hiv, hno⟩ | ⟨y, hy1, hy2, hR, hfd, hiv⟩
  · by_cases hf0 : s.found n = 0
    · have hj' : s1.j = 256 := hj (by rw [hfd]; exact hf0)
      rw [if_pos ⟨hj', by rw [hfd]; exact hf0⟩]
      simp only [hfd, hiv]
      exact searchInv_none hn h hf0 hn2 (fun y h1 h2 => hno y h1 (by omega))
    · rw [if_neg (by rw [hfd]; exact fun hh => hf0 hh.2)]
      rw [hfd, hiv]
      exact searchInv_skip hr1 hn h hf0 hn2
  · have hne : s1.found n ≠ 0 := by rw [hfd, Arr.set_same]; decide
    rw [if_neg (fun hh => hne hh.2), hfd, hiv]
    exact searchInv_pair hr1 hn h hn2 hy1 hy2 hR

theorem searchFold_spec (r fuel : Nat) (hr1 : 256 ≤ r) (hr2 : r ≤ 511) (hf : 256 ≤ fuel) :
    ∀ k n (s : SearchSt), n + k = 256 → 2 ≤ n → SearchInv r n s.found s.invs →
      ∃ s', (List.range' n k).foldlM (searchStep fuel r) s = some s' ∧
        SearchInv r 256 s'.found s'.invs := by
  intro k
  induction k with
  | zero =>
    intro n s hnk _ h
    have : n = 256 := by omega
    subst this
    exact ⟨s, rfl, h⟩
  | succ k ih =>
    intro n s hnk hn2 h
    obtain ⟨s1, h1, hinv1⟩ := searchStep_spec r fuel n s hr1 hr2 hf hn2 (by omega) h
    obtain ⟨s2, h2, hinv2⟩ := ih (n + 1) s1 (by omega) (by omega) hinv1
    refine ⟨s2, ?_, hinv2⟩
    rw [List.range'_succ, List.foldlM_cons, h1]
    exact h2

theorem found_init (l : List Nat) :
    l.foldl (fun (f : Arr) i => f.set i 0) (fun _ => 0) = fun _ => 0 := by
  induction l with
  | nil => rfl
  | cons i l ih =>
    have e : Arr.set (fun _ => 0) i 0 = fun _ => 0 := by
      funext k; unfold Arr.set; split <;> rfl
    rw [List.foldl_cons, e, ih]

theorem searchInv_init (r : Nat) (hr : 256 ≤ r) (invs0 : Arr) :
    SearchInv r 2 (fun _ => 0) ((invs0.set 0 0).set 1 1) := by
  refine ⟨?_, ?_, ?_, ?_, ?_⟩
  · intro x hx2 hx
    constructor
    · intro h; exact absurd rfl h
    · rintro ⟨y, hy, hR, hlt⟩
      have := isInvPair_ge_two hr hx2 hx hR
      omega
  · intro x _ _ h; exact absurd rfl h
  · intro x h1 h2; omega
  · rw [Arr.set_ne _ _ (by decide), Arr.set_same]
  · rw [Arr.set_same]

/-- Outcome of the inverse search for a reduction polynomial of degree 8: the search
ends, and every byte with an inverse is mapped to it, every other byte in `2..255` to
the sentinel `0`. -/
theorem searchInvs_spec (r fuel : Nat) (invs0 : Arr) (hr1 : 256 ≤ r) (hr2 : r ≤ 511)
    (hf : 256 ≤ fuel) :
    ∃ invs, searchInvs fuel r invs0 = some invs ∧ invs 0 = 0 ∧ invs 1 = 1 ∧
      ∀ x, 2 ≤ x → x < 256 →
        ((∃ y, y < 256 ∧ IsInvPair r x y) → invs x < 256 ∧ IsInvPair r x (invs x)) ∧
        ((¬ ∃ y, y < 256 ∧ IsInvPair r x y) → invs x = 0) := by
  obtain ⟨s', h1, F2, I1, I2, I3, I4⟩ := searchFold_spec r fuel hr1 hr2 hf 254 2
    { found := fun _ => 0, invs := (invs0.set 0 0).set 1 1, j := 0 } rfl (Nat.le_refl _)
    (searchInv_init r hr1 invs0)
  refine ⟨s'.invs, ?_, I3, I4, ?_⟩
  · unfold searchInvs
    rw [found_init, h1]
    rfl
  · intro x hx2 hx
    constructor
    · rintro ⟨y, hy, hR⟩
      exact I1 x hx2 hx ((F2 x hx2 hx).2 ⟨y, hy, hR, Or.inl hx⟩)
    · intro hno
      apply I2 x hx2 hx
      by_contra hne
      obtain ⟨y, hy, hR, _⟩ := (F2 x hx2 hx).1 hne
      exact hno ⟨y, hy, hR⟩

/-! ### The scan of `irrpolylist` -/

theorem whileLoop_sim {σ τ : Type} (proj : σ → τ) (c1 : σ → Bool) (b1 : σ → Option σ)
    (c2 : τ → Bool) (b2 : τ → Option τ) (hc : ∀ s, c2 (proj s) = c1 s)
    (hb : ∀ s, b2 (proj s) = (b1 s).map proj) :
    ∀ fuel s, whileLoop c2 b2 fuel (proj s) = (whileLoop c1 b1 fuel s).map proj := by
  intro fuel
  induction fuel with
  | zero => intro s; rfl
  | succ n ih =>
    intro s
    unfold whileLoop
    rw [hc s]
    by_cases h : c1 s = true
    · rw [if_pos h, if_pos h, hb s]
      cases hs : b1 s with
      | none => rfl
      | some s' => exact ih s'
    · rw [if_neg h, if_neg h]
      rfl

theorem irrWhile_spec (r fuel n : Nat) (t : IrrSt) (hr1 : 256 ≤ r) (hr2 : r ≤ 511)
    (hf : 256 ≤ fuel) (hn2 : 2 ≤ n) (hn : n < 256) (hb : t.broke = false) :
    ∃ t1, whileLoop (fun t : IrrSt => t.found n == 0 && decide (t.j < 256))
        (irrBody fuel r n) fuel { t with j := n } = some t1 ∧
      t1.count = t.count ∧ t1.list = t.list ∧ t1.broke = false ∧
      t1.j ≤ 256 ∧ (t1.found n = 0 → t1.j = 256) ∧
      ((t1.found = t.found ∧ ∀ y, n ≤ y → y < t1.j → ¬ IsInvPair r n y) ∨
       (∃ y, n ≤ y ∧ y < 256 ∧ IsInvPair r n y ∧ t1.found = (t.found.set y 1).set n 1)) := by
  obtain ⟨s1, hw, _, hj2, hj, hcase⟩ := searchWhile_spec r fuel n
    { found := t.found, invs := fun _ => 0, j := t.j } hr1 hr2 hf hn2 hn
  have hsim := whileLoop_sim
    (fun s : SearchSt =>
      ({ found := s.found, j := s.j, count := t.count, list := t.list, broke := false } : IrrSt))
    (fun t : SearchSt => t.found n == 0 && decide (t.j < 256)) (searchBody fuel r n)
    (fun t : IrrSt => t.found n == 0 && decide (t.j < 256)) (irrBody fuel r n)
    (fun s => rfl)
    (by
      intro s
      unfold irrBody searchBody
      cases modpoly fuel (multpoly n s.j) r with
      | none => rfl
      | some v =>
        simp only [Option.map_some']
        split <;> rfl)
    fuel { found := t.found, invs := fun _ => 0, j := n }
  have e : ({ t with j := n } : IrrSt)
      = { found := t.found, j := n, count := t.count, list := t.list, broke := false } := by
    rw [← hb]
  rw [e]
  simp only at hsim hw
  rw [hsim, hw]
  refine ⟨_, rfl, rfl, rfl, rfl, hj2, hj, ?_⟩
  rcases hcase with ⟨hfd, _, hno⟩ | ⟨y, hy1, hy2, hR, hfd, _⟩
  · exact Or.inl ⟨hfd, hno⟩
  · exact Or.inr ⟨y, hy1, hy2, hR, hfd⟩

theorem irrStep_spec (r fuel n : Nat) (t : IrrSt) (hr1 : 256 ≤ r) (hr2 : r ≤ 511)
    (hf : 256 ≤ fuel) (hn2 : 2 ≤ n) (hn : n < 256) (hb : t.broke = false)
    (F2 : FoundInv r n t.found) :
    ∃ t', irrStep fuel r t n = some t' ∧
      ((HasInv r n ∧ t'.broke = false ∧ FoundInv r (n + 1) t'.found ∧
          t'.count = (if n = 255 then t.count + 1 else t.count) ∧
          t'.list = (if n = 255 then t.list.set t.count r else t.list)) ∨
       (¬ HasInv r n ∧ t'.broke = true ∧ t'.count = t.count ∧ t'.list = t.list)) := by
  obtain ⟨t1, hw, hc, hl, hb1, hj2, hj, hcase⟩ := irrWhile_spec r fuel n t hr1 hr2 hf hn2 hn hb
  unfold irrStep
  rw [if_neg (by rw [hb]; decide), hw]
  simp only [Option.map_some', Option.some.injEq, exists_eq_left']
  have good : ∀ (hne : t1.found n ≠ 0), HasInv r n → FoundInv r (n + 1) t1.found →
      (HasInv r n ∧
        (if t1.j = 256 ∧ t1.found n = 0 then { t1 with broke := true }
          else if n = 255 then
            { t1 with list := t1.list.set t1.count r, count := t1.count + 1 }
          else t1).broke = false ∧
        FoundInv r (n + 1)
          (if t1.j = 256 ∧ t1.found n = 0 then { t1 with broke := true }
          else if n = 255 then
            { t1 with list := t1.list.set t1.count r, count := t1.count + 1 }
          else t1).found ∧
        (if t1.j = 256 ∧ t1.found n = 0 then { t1 with broke := true }
          else if n = 255 then
            { t1 with list := t1.list.set t1.count r, count := t1.count + 1 }
          else t1).count = (if n = 255 then t.count + 1 else t.count) ∧
        (if t1.j = 256 ∧ t1.found n = 0 then { t1 with broke := true }
          else if n = 255 then
            { t1 with list := t1.list.set t1.count r, count := t1.count + 1 }
          else t1).list = (if n = 255 then t.list.set t.count r else t.list)) := by
    intro hne hi hF
    rw [if_neg (fun hh => hne hh.2)]
    by_cases h255 : n = 255
    · simp only [h255, if_true, hb1, hc, hl]
      subst h255
      exact ⟨hi, trivial, hF, trivial, trivial⟩
    · simp only [h255, if_false, hb1, hc, hl]
      exact ⟨hi, trivial, hF, trivial, trivial⟩
  rcases hcase with ⟨hfd, hno⟩ | ⟨y, hy1, hy2, hR, hfd⟩
  · by_cases hf0 : t.found n = 0
    · have h0 : t1.found n = 0 := by rw [hfd]; exact hf0
      have hj' := hj h0
      right
      rw [if_pos ⟨hj', h0⟩]
      refine ⟨?_, rfl, hc, hl⟩
      rintro ⟨y, hy, hR⟩
      exact no_inverse_of_scan hn F2 hf0 hn2 (fun y h1 h2 => hno y h1 (by omega)) y hy hR
    · left
      have hne : t1.found n ≠ 0 := by rw [hfd]; exact hf0
      obtain ⟨y, hy, hR, _⟩ := (F2 n hn2 hn).1 hf0
      refine good hne ⟨y, hy, hR⟩ ?_
      rw [hfd]
      exact foundInv_skip hr1 hn F2 hf0 hn2
  · left
    have hne : t1.found n ≠ 0 := by rw [hfd, Arr.set_same]; decide
    refine good hne ⟨y, hy2, hR⟩ ?_
    rw [hfd]
    exact foundInv_pair hr1 hn F2 hy2 hR

theorem irrFold_spec (r fuel c : Nat) (l : Arr) (hr1 : 256 ≤ r) (hr2 : r ≤ 511)
    (hf : 256 ≤ fuel) :
    ∀ k n (t : IrrSt), n + k = 256 → 2 ≤ n → n < 256 ∨ k = 0 → IrrInv r c l n t →
      ∃ t', (List.range' n k).foldlM (irrStep fuel r) t = some t' ∧ IrrInv r c l 256 t' := by
  intro k
  induction k with
  | zero =>
    intro n t hnk _ _ h
    have : n = 256 := by omega
    subst this
    exact ⟨t, rfl, h⟩
  | succ k ih =>
    intro n t hnk hn2 _ h
    have hn : n < 256 := by omega
    rw [List.range'_succ, List.foldlM_cons]
    rcases h with ⟨hb, F2, hall, hc, hl⟩ | ⟨hb, hex, hc, hl⟩
    · obtain ⟨t', ht', hcase⟩ := irrStep_spec r fuel n t hr1 hr2 hf hn2 hn hb F2
      rw [ht']
      rw [if_neg (by omega)] at hc hl
      apply ih (n + 1) t' (by omega) (by omega) (by omega)
      rcases hcase with ⟨hi, hb', F2', hc', hl'⟩ | ⟨hi, hb', hc', hl'⟩
      · left
        refine ⟨hb', F2', ?_, ?_, ?_⟩
        · intro i hi2 hin
          by_cases e : i = n
          · subst e; exact hi
          · exact hall i hi2 (by omega)
        · rw [hc', hc]
          by_cases e : n = 255
          · rw [if_pos e, if_pos (by omega)]
          · rw [if_neg e, if_neg (by omega)]
        · rw [hl', hl, hc]
          by_cases e : n = 255
          · rw [if_pos e, if_pos (by omega)]
          · rw [if_neg e, if_neg (by omega)]
      · right
        exact ⟨hb', ⟨n, hn2, by omega, hi⟩, by rw [hc', hc], by rw [hl', hl]⟩
    · have e : irrStep fuel r t n = some t := by
        unfold irrStep
        rw [if_pos hb]
      rw [e]
      apply ih (n + 1) t (by omega) (by omega) (by omega)
      right
      obtain ⟨i, h1, h2, h3⟩ := hex
      exact ⟨hb, ⟨i, h1, by omega, h3⟩, hc, hl⟩

theorem foundInv_init (r : Nat) (hr : 256 ≤ r) : FoundInv r 2 (fun _ => 0) := by
  intro x hx2 hx
  constructor
  · intro h; exact absurd rfl h
  · rintro ⟨y, hy, hR, hlt⟩
    have := isInvPair_ge_two hr hx2 hx hR
    omega

theorem irrCandidate_spec (fuel : Nat) (o : IrrOuter) (hr1 : 256 ≤ o.irrpoly)
    (hr2 : o.irrpoly ≤ 511) (hf : 256 ≤ fuel) :
    ∃ o', irrCandidate fuel o = some o' ∧ o'.irrpoly = o.irrpoly + 2 ∧
      ((AllInv o.irrpoly ∧ o'.count = o.count + 1 ∧ o'.list = o.list.set o.count o.irrpoly) ∨
       (¬ AllInv o.irrpoly ∧ o'.count = o.count ∧ o'.list = o.list)) := by
  obtain ⟨t', h1, hinv⟩ := irrFold_spec o.irrpoly fuel o.count o.list hr1 hr2 hf 254 2
    { found := fun _ => 0, j := 0, count := o.count, list := o.list, broke := false }
    rfl (Nat.le_refl _) (Or.inl (by decide))
    (Or.inl ⟨rfl, foundInv_init _ hr1, fun i h1 h2 => by omega, rfl, rfl⟩)
  unfold irrCandidate
  rw [found_init, h1]
  refine ⟨_, rfl, rfl, ?_⟩
  rcases hinv with ⟨_, _, hall, hc, hl⟩ | ⟨_, ⟨i, hi1, hi2, hi3⟩, hc, hl⟩
  · left
    exact ⟨hall, by simpa using hc, by simpa using hl⟩
  · right
    exact ⟨fun hall => hi3 (hall i hi1 hi2), hc, hl⟩

theorem map_range_set (l : Arr) (c r : Nat) :
    (List.range (c + 1)).map (l.set c r) = (List.range c).map l ++ [r] := by
  rw [List.range_succ, List.map_append]
  congr 1
  · apply List.map_congr_left
    intro k hk
    have := List.mem_range.1 hk
    exact Arr.set_ne _ _ (by omega)
  · simp [Arr.set_same]

open Classical in
theorem irrpolylist_eq_filter (fuel : Nat) (list0 : Arr) (hf : 256 ≤ fuel) :
    irrpolylist fuel list0
      = some (((List.range 128).map fun t => 0x101 + 2 * t).filter fun r => decide (AllInv r)) := by
  have hloop := whileLoop_spec (fun o : IrrOuter => decide (o.irrpoly < 0x200))
    (irrCandidate fuel)
    (fun o => ∃ k, k ≤ 128 ∧ o.irrpoly = 0x101 + 2 * k ∧
      (List.range o.count).map o.list
        = ((List.range k).map fun t => 0x101 + 2 * t).filter fun r => decide (AllInv r))
    (fun o => 0x200 - o.irrpoly)
    (by
      rintro o ⟨k, hk, hr, hl⟩ hc
      have hc' : o.irrpoly < 0x200 := by simpa using hc
      obtain ⟨o', h1, h2, hcase⟩ := irrCandidate_spec fuel o (by omega) (by omega) hf
      refine ⟨o', h1, ⟨k + 1, by omega, by omega, ?_⟩, by simp only; omega⟩
      rw [List.range_succ, List.map_append, List.filter_append, ← hl, List.map_singleton, ← hr]
      rcases hcase with ⟨hall, hc1, hl1⟩ | ⟨hall, hc1, hl1⟩
      · rw [hc1, hl1, map_range_set]
        congr 1
        simp [hall]
      · rw [hc1, hl1]
        simp [hall])
    fuel { irrpoly := 0x101, count := 0, list := list0 } ⟨0, by omega, rfl, rfl⟩
    (by simp only; omega)
  obtain ⟨o, h1, ⟨k, hk, hr, hl⟩, hc⟩ := hloop
  have hk' : k = 128 := by
    have : ¬ o.irrpoly < 0x200 := by simpa using hc
    omega
  subst hk'
  unfold irrpolylist
  rw [h1]
  simp only [Option.map_some', hl]

theorem irrpolylist_spec (fuel : Nat) (list0 : Arr) (hf : 256 ≤ fuel) :
    ∃ L, irrpolylist fuel list0 = some L ∧ L.Pairwise (fun a b => a < b) ∧
      ∀ r, r ∈ L ↔ (0x101 ≤ r ∧ r ≤ 0x1FF ∧ r % 2 = 1 ∧ AllInv r) := by
  refine ⟨_, irrpolylist_eq_filter fuel list0 hf, ?_, ?_⟩
  · apply List.Pairwise.filter
    rw [List.pairwise_map]
    exact List.Pairwise.imp (fun {a b} (h : a < b) => (by omega : 0x101 + 2 * a < 0x101 + 2 * b))
      (List.pairwise_lt_range 128)
  · intro r
    simp only [List.mem_filter, List.mem_map, List.mem_range, decide_eq_true_eq]
    constructor
    · rintro ⟨⟨t, ht, rfl⟩, hall⟩
      exact ⟨by omega, by omega, by omega, hall⟩
    · rintro ⟨h1, h2, h3, hall⟩
      exact ⟨⟨(r - 0x101) / 2, by omega, by omega⟩, hall⟩

theorem isInvPair_of_test {r fuel i j : Nat} (hr1 : 256 ≤ r) (hr2 : r ≤ 511) (hf : 10 ≤ fuel)
    (hi : i < 256) (hj : j < 256) (h : modpoly fuel (multpoly i j) r = some 1) :
    IsInvPair r i j := by
  by_contra hne
  rw [(test_spec r fuel i j hr1 hr2 hf hi hj).2 hne] at h
  exact absurd h (by decide)

theorem allInv_iff_test {r fuel : Nat} (hr1 : 256 ≤ r) (hr2 : r ≤ 511) (hf : 10 ≤ fuel) :
    AllInv r ↔ ∀ i, 2 ≤ i → i ≤ 255 →
      ∃ j, 2 ≤ j ∧ j ≤ 255 ∧ modpoly fuel (multpoly i j) r = some 1 := by
  constructor
  · intro h i hi2 hi
    obtain ⟨y, hy, hR⟩ := h i hi2 (by omega)
    exact ⟨y, isInvPair_ge_two hr1 hi2 (by omega) hR, by omega,
      (test_spec r fuel i y hr1 hr2 hf (by omega) hy).1 hR⟩
  · intro h i hi2 hi
    obtain ⟨j, _, hj, ht⟩ := h i hi2 (by omega)
    exact ⟨j, by omega, isInvPair_of_test hr1 hr2 hf hi (by omega) ht⟩

/-! ### Irreducibility and inverses -/

theorem allInv_of_irreducible {r : Nat} (hr1 : 256 ≤ r) (hr2 : r ≤ 511) (h : Irreducible8 r) :
    AllInv r := fun i hi2 hi => exists_inverse_of_irreducible hr1 hr2 h (by omega) hi

theorem irreducible_of_allInv {r : Nat} (hr1 : 256 ≤ r) (h : AllInv r) : Irreducible8 r := by
  intro p hp q _ hp2 _ hpq
  obtain ⟨y, _, hR⟩ := h p hp2 hp
  exact no_inverse_of_factor hr1 hp2 hpq hR

theorem odd_of_irreducible {r : Nat} (hr1 : 256 ≤ r) (hr2 : r ≤ 511) (h : Irreducible8 r) :
    r % 2 = 1 := by
  by_contra hne
  apply h 2 (by decide) (r / 2) (by omega) (by decide) (by omega)
  have e : clmul 2 (r / 2) = 2 * clmul 1 (r / 2) := clmul_two_mul_left 1 (r / 2)
  rw [e, clmul_one_left]
  omega

theorem exists_factor_of_reducible {r : Nat} (h : ¬ Irreducible8 r) :
    ∃ p q, 2 ≤ p ∧ p < 256 ∧ 2 ≤ q ∧ q < 256 ∧ clmul p q = r := by
  unfold Irreducible8 at h
  push_neg at h
  obtain ⟨p, hp, q, hq, hp2, hq2, e⟩ := h
  exact ⟨p, q, hp2, hp, hq2, hq, e⟩

/-! ### The search of `main` against the naive search -/

theorem searchInvs_eq_state (fuel r : Nat) (invs0 : Arr) :
    searchInvs fuel r invs0 = (searchState fuel r invs0 256).map fun s => s.invs := rfl

theorem searchState_succ (fuel r : Nat) (invs0 : Arr) (n : Nat) (hn : 2 ≤ n) :
    searchState fuel r invs0 (n + 1)
      = (searchState fuel r invs0 n).bind fun s => searchStep fuel r s n := by
  unfold searchState
  have h1 : n + 1 - 2 = (n - 2) + 1 := by omega
  have h2 : 2 + 1 * (n - 2) = n := by omega
  rw [h1, List.range'_concat, List.foldlM_append, h2]
  simp only [List.foldlM_cons, List.foldlM_nil, bind_pure]
  rfl

theorem searchState_inv (r fuel : Nat) (invs0 : Arr) (hr1 : 256 ≤ r) (hr2 : r ≤ 511)
    (hf : 256 ≤ fuel) :
    ∀ n, 2 ≤ n → n ≤ 256 →
      ∃ s, searchState fuel r invs0 n = some s ∧ SearchInv r n s.found s.invs := by
  intro n hn2
  induction n, hn2 using Nat.le_induction with
  | base =>
    intro _
    refine ⟨_, rfl, ?_⟩
    simp only [found_init]
    exact searchInv_init r hr1 invs0
  | succ n hn ih =>
    intro hle
    obtain ⟨s, hs, hinv⟩ := ih (by omega)
    obtain ⟨s', hs', hinv'⟩ := searchStep_spec r fuel n s hr1 hr2 hf hn (by omega) hinv
    exact ⟨s', by rw [searchState_succ fuel r invs0 n hn, hs]; exact hs', hinv'⟩

theorem searchStep_frame (r fuel n : Nat) (s s' : SearchSt) (hr1 : 256 ≤ r) (hr2 : r ≤ 511)
    (hf : 256 ≤ fuel) (hn2 : 2 ≤ n) (hn : n < 256) (h : SearchInv r n s.found s.invs)
    (hs : searchStep fuel r s n = some s') :
    ∀ x, x < 256 → (x < n ∨ s.found x ≠ 0) → s'.invs x = s.invs x := by
  obtain ⟨s1, hw, _, _, hj, hcase⟩ := searchWhile_spec r fuel n s hr1 hr2 hf hn2 hn
  obtain ⟨F2, _, _, _, _⟩ := h
  have hnot : ∀ x, x < 256 → (x < n ∨ s.found x ≠ 0) →
      ∀ y, n ≤ y → y < 256 → IsInvPair r n y → x ≠ n ∧ x ≠ y := by
    intro x hx hrec y hy1 hy2 hR
    rcases hrec with hlt | hfx
    · exact ⟨by omega, by omega⟩
    · by_cases hx2 : 2 ≤ x
      · obtain ⟨z, hz, hRz, hzn⟩ := (F2 x hx2 hx).1 hfx
        constructor
        · rintro rfl
          have := isInvPair_unique hr1 hz hy2 hRz hR
          omega
        · rintro rfl
          have := isInvPair_unique hr1 hz hn hRz (isInvPair_symm hR)
          omega
      · exact ⟨by omega, by omega⟩
  unfold searchStep at hs
  rw [hw] at hs
  simp only [Option.map_some', Option.some.injEq] at hs
  intro x hx hrec
  rcases hcase with ⟨hfd, hiv, _⟩ | ⟨y, hy1, hy2, hR, hfd, hiv⟩
  · by_cases hf0 : s.found n = 0
    · have hj' : s1.j = 256 := hj (by rw [hfd]; exact hf0)
      rw [if_pos ⟨hj', by rw [hfd]; exact hf0⟩] at hs
      subst hs
      have hxn : x ≠ n := by
        rcases hrec with hlt | hfx
        · omega
        · rintro rfl
          exact hfx hf0
      simp only [hiv]
      exact Arr.set_ne _ _ hxn
    · rw [if_neg (by rw [hfd]; exact fun hh => hf0 hh.2)] at hs
      subst hs
      rw [hiv]
  · have hfn : s1.found n ≠ 0 := by
      rw [hfd, Arr.set_same]
      decide
    rw [if_neg (fun hh => hfn hh.2)] at hs
    subst hs
    obtain ⟨hxn, hxy⟩ := hnot x hx hrec y hy1 hy2 hR
    rw [hiv, Arr.set_ne _ _ hxy, Arr.set_ne _ _ hxn]

theorem find_unique (p : Nat → Bool) (l : List Nat) (y : Nat) (hy : y ∈ l) (hp : p y = true)
    (hu : ∀ j ∈ l, p j = true → j = y) : l.find? p = some y := by
  induction l with
  | nil => simp at hy
  | cons a l ih =>
    by_cases ha : p a = true
    · have : a = y := hu a (List.mem_cons_self _ _) ha
      subst this
      simp [List.find?, ha]
    · have ha' : p a = false := by simpa using ha
      have hya : y ≠ a := fun e => ha (e ▸ hp)
      rcases List.mem_cons.1 hy with e | hy'
      · exact absurd e hya
      · simp only [List.find?, ha']
        exact ih hy' (fun j hj => hu j (List.mem_cons_of_mem _ hj))

theorem naiveInvs_spec (r fuel : Nat) (hr1 : 256 ≤ r) (hr2 : r ≤ 511) (hf : 10 ≤ fuel)
    (x : Nat) (hx2 : 2 ≤ x) (hx : x < 256) :
    (∀ y, y < 256 → IsInvPair r x y → naiveInvs fuel r x = y)
    ∧ ((¬ ∃ y, y < 256 ∧ IsInvPair r x y) → naiveInvs fuel r x = 0) := by
  have h0 : x ≠ 0 := by omega
  have h1 : x ≠ 1 := by omega
  unfold naiveInvs
  rw [if_neg h0, if_neg h1]
  constructor
  · intro y hy hR
    have hy2 := isInvPair_ge_two hr1 hx2 hx hR
    rw [find_unique _ _ y (by rw [List.mem_range'_1]; omega)
      (by simpa using (test_spec r fuel x y hr1 hr2 hf hx hy).1 hR)]
    · rfl
    · intro j hj hpj
      rw [List.mem_range'_1] at hj
      have hRj := isInvPair_of_test hr1 hr2 hf hx (by omega : j < 256) (by simpa using hpj)
      exact isInvPair_unique hr1 (by omega) hy hRj hR
  · intro hno
    rw [List.find?_eq_none.2]
    · rfl
    · intro j hj hpj
      rw [List.mem_range'_1] at hj
      exact hno ⟨j, by omega,
        isInvPair_of_test hr1 hr2 hf hx (by omega : j < 256) (by simpa using hpj)⟩

/-! ### The affine transformation -/

theorem affRow_rows : (List.range 8).map affRow = [0xF1, 0xE3, 0xC7, 0x8F, 0x1F, 0x3E, 0x7C, 0xF8] := by
  decide

theorem affOut_check : allBelow 256 (fun x => affCheck x (affOut x)) = true := by
  decide!

theorem affOut_byte (x : Nat) (hx : x < 256) : (affOut x).1 = 0xf1 ∧ (affOut x).2 < 256 ∧
    ∀ j < 8, (affOut x).2.testBit j = parity8 (x &&& affRow j) := by
  have h := allBelow_spec 256 _ affOut_check x hx
  simp only [affCheck, withNat_eq, Bool.and_eq_true, beq_iff_eq, decide_eq_true_eq] at h
  refine ⟨h.1.1, h.1.2, fun j hj => ?_⟩
  have hj' := allBelow_spec 8 _ h.2 j hj
  simpa only [withNat_eq, beq_iff_eq] using hj'

theorem affFold_spec (invs : Arr) (hinv : ∀ k, k < 256 → invs k < 256) (l : List Nat)
    (hl : ∀ k ∈ l, k < 256) (sbox0 : Arr) :
    l.foldl affEntry { aff := 0xf1, bprime := 0, invs := invs, sbox := sbox0 }
      = { aff := 0xf1, bprime := 0, invs := invs,
          sbox := fun k => if k ∈ l then (affOut (invs k)).2 ^^^ 0x63 else sbox0 k } := by
  induction l generalizing sbox0 with
  | nil => simp
  | cons a l ih =>
    have ha : a < 256 := hl a (List.mem_cons_self a l)
    have h1 := (affOut_byte (invs a) (hinv a ha)).1
    have e : affEntry { aff := 0xf1, bprime := 0, invs := invs, sbox := sbox0 } a
        = { aff := 0xf1, bprime := 0, invs := invs,
            sbox := sbox0.set a ((affOut (invs a)).2 ^^^ 0x63) } := by
      unfold affEntry
      simp only
      have e2 : (List.range 8).foldl (fun t _ => affBit (invs a) t) (0xf1, 0) = affOut (invs a) := rfl
      rw [e2, h1]
    rw [List.foldl_cons, e, ih (fun k hk => hl k (List.mem_cons_of_mem a hk))]
    congr 1
    funext k
    unfold Arr.set
    by_cases hk : k ∈ l
    · rw [if_pos hk, if_pos (List.mem_cons_of_mem a hk)]
    · rw [if_neg hk]
      by_cases hka : k = a
      · subst hka
        rw [if_pos rfl, if_pos (List.mem_cons_self k l)]
      · rw [if_neg hka, if_neg (by simp [hka, hk])]

theorem afftrans_entry (invs sbox0 : Arr) (hinv : ∀ k, k < 256 → invs k < 256) (i : Nat)
    (hi : i < 256) : (afftrans invs sbox0).sbox i = (affOut (invs i)).2 ^^^ 0x63 := by
  unfold afftrans
  rw [affFold_spec invs hinv (List.range 256) (fun k hk => List.mem_range.1 hk)]
  simp only
  rw [if_pos (List.mem_range.2 hi)]

/-! ### The reduction polynomial `0x11B` -/

theorem aesInv_check : allBelow 254 (fun x => invCheck 0x11B (x + 2)) = true := by
  decide!

theorem aesInv_cert (x : Nat) (hx : x < 256) (hx2 : 2 ≤ x) :
    modpoly 10 (clmul x (packedAt aesInvPacked x)) 0x11B = some 1 ∧
      packedAt aesInvPacked x < 256 := by
  have h := allBelow_spec 254 _ aesInv_check (x - 2) (by omega)
  have e : x - 2 + 2 = x := by omega
  simp only [e, invCheck, withNat_eq, Bool.and_eq_true, beq_iff_eq, decide_eq_true_eq] at h
  exact ⟨h.2, h.1⟩

theorem aesInv_small : packedAt aesInvPacked 0 = 0 ∧ packedAt aesInvPacked 1 = 1 := by
  decide!

theorem aes_affine_check : allBelow 256 sboxCheck = true := by
  decide!

theorem aes_affine (x : Nat) (hx : x < 256) :
    (affOut (packedAt aesInvPacked x)).2 ^^^ 0x63 = packedAt aesSboxPacked x := by
  have h := allBelow_spec 256 _ aes_affine_check x hx
  simpa only [sboxCheck, withNat_eq, beq_iff_eq] using h

theorem aesSbox_range : (List.range 256).map (packedAt aesSboxPacked) = aesSbox := by
  decide!

theorem aesSbox_small : packedAt aesSboxPacked 0x00 = 0x63 ∧ packedAt aesSboxPacked 0x01 = 0x7C ∧
    packedAt aesSboxPacked 0xFF = 0x16 := by
  decide!

theorem isInvPair_aes (x : Nat) (hx2 : 2 ≤ x) (hx : x < 256) :
    IsInvPair 0x11B x (packedAt aesInvPacked x) := by
  obtain ⟨h1, h2⟩ := aesInv_cert x hx hx2
  have hlt : clmul x (packedAt aesInvPacked x) < 2 ^ 16 := by
    have := clmul_lt_two_pow (m := 7) (n := 7) (a := x) (b := packedAt aesInvPacked x)
      (by simpa using hx) (by simpa using h2)
    omega
  by_contra hne
  rw [(modpoly_eq_one_iff _ 0x11B 10 hlt (by decide) (by decide) (by decide)).2 hne] at h1
  exact absurd h1 (by decide)

theorem allInv_aes : AllInv 0x11B := fun x hx2 hx =>
  ⟨packedAt aesInvPacked x, (aesInv_cert x hx hx2).2, isInvPair_aes x hx2 hx⟩

theorem irreducible_aes : Irreducible8 0x11B := irreducible_of_allInv (by decide) allInv_aes

theorem searchInvs_aes (fuel : Nat) (invs0 : Arr) (hf : 256 ≤ fuel) :
    ∃ invs, searchInvs fuel 0x11B invs0 = some invs ∧
      ∀ x, x < 256 → invs x = packedAt aesInvPacked x := by
  obtain ⟨invs, h1, h2, h3, h4⟩ := searchInvs_spec 0x11B fuel invs0 (by decide) (by decide) hf
  refine ⟨invs, h1, ?_⟩
  intro x hx
  by_cases hx0 : x = 0
  · subst hx0; rw [h2, aesInv_small.1]
  by_cases hx1 : x = 1
  · subst hx1; rw [h3, aesInv_small.2]
  have hx2 : 2 ≤ x := by omega
  obtain ⟨hlt, hR⟩ := (h4 x hx2 hx).1 (allInv_aes x hx2 hx)
  exact isInvPair_unique (by decide) hlt (aesInv_cert x hx hx2).2 hR (isInvPair_aes x hx2 hx)

theorem sbox_aes (fuel : Nat) (invs0 sbox0 : Arr) (hf : 256 ≤ fuel) :
    ∃ invs, searchInvs fuel 0x11B invs0 = some invs ∧
      ∀ x, x < 256 → (afftrans invs sbox0).sbox x = packedAt aesSboxPacked x := by
  obtain ⟨invs, h1, h2⟩ := searchInvs_aes fuel invs0 hf
  refine ⟨invs, h1, ?_⟩
  intro x hx
  have hinv : ∀ k, k < 256 → invs k < 256 := by
    intro k hk
    rw [h2 k hk]
    exact Nat.mod_lt _ (by decide)
  rw [afftrans_entry invs sbox0 hinv x hx, h2 x hx]
  exact aes_affine x hx

/-! ### `findprobs` -/

theorem Mat.set_row (P : Mat) (i : Nat) (c : Nat → ℚ) (l : List Nat) :
    l.foldl (fun (P : Mat) j => P.set i j (c j)) P
      = fun a b => if a = i ∧ b ∈ l then c b else P a b := by
  induction l generalizing P with
  | nil => simp
  | cons x l ih =>
    rw [List.foldl_cons, ih]
    funext a b
    unfold Mat.set
    by_cases h1 : a = i ∧ b ∈ l
    · rw [if_pos h1, if_pos ⟨h1.1, List.mem_cons_of_mem x h1.2⟩]
    · rw [if_neg h1]
      by_cases h2 : a = i ∧ b = x
      · rw [if_pos h2, if_pos ⟨h2.1, by rw [h2.2]; exact List.mem_cons_self x l⟩, h2.2]
      · rw [if_neg h2, if_neg]
        rintro ⟨ha, hb⟩
        rcases List.mem_cons.1 hb with e | e
        · exact h2 ⟨ha, e⟩
        · exact h1 ⟨ha, e⟩

theorem findprobs_rows (Sbox : Arr) (P : Mat) (l : List Nat) :
    l.foldl (fun (P : Mat) i =>
        (List.range 256).foldl (fun (P : Mat) j => P.set i j (findprobsCell Sbox i j)) P) P
      = fun a b => if a ∈ l ∧ b < 256 then findprobsCell Sbox a b else P a b := by
  induction l generalizing P with
  | nil => simp
  | cons x l ih =>
    rw [List.foldl_cons, ih, Mat.set_row]
    funext a b
    show (if a ∈ l ∧ b < 256 then _ else (if a = x ∧ b ∈ List.range 256 then _ else _)) = _
    by_cases h1 : a ∈ l ∧ b < 256
    · rw [if_pos h1, if_pos ⟨List.mem_cons_of_mem x h1.1, h1.2⟩]
    · rw [if_neg h1]
      by_cases h2 : a = x ∧ b ∈ List.range 256
      · rw [if_pos h2, if_pos ⟨by rw [h2.1]; exact List.mem_cons_self x l, List.mem_range.1 h2.2⟩,
          h2.1]
      · rw [if_neg h2, if_neg]
        rintro ⟨ha, hb⟩
        rcases List.mem_cons.1 ha with e | e
        · exact h2 ⟨e, List.mem_range.2 hb⟩
        · exact h1 ⟨e, hb⟩

theorem findprobs_cell (probs : Mat) (Sbox : Arr) (i j : Nat) (hi1 : 1 ≤ i) (hi : i ≤ 255)
    (hj : j < 256) : findprobs probs Sbox i j = findprobsCell Sbox i j := by
  unfold findprobs
  rw [findprobs_rows]
  simp only
  rw [if_pos ⟨List.mem_range'_1.2 ⟨hi1, by omega⟩, hj⟩]

theorem count_fold (p : Nat → Bool) (l : List Nat) (e : Nat) :
    l.foldl (fun (c : Nat × Nat × ℚ) k => if p k then (c.1 + 1, c.2.1, c.2.2 + 1) else c)
      (e, 0, (e : ℚ))
    = (e + l.countP p, 0, ((e + l.countP p : Nat) : ℚ)) := by
  induction l generalizing e with
  | nil => simp
  | cons k l ih =>
    rw [List.foldl_cons, List.countP_cons]
    by_cases hk : p k = true
    · simp only [hk, if_true]
      have e1 : ((e : ℚ) + 1) = ((e + 1 : Nat) : ℚ) := by push_cast; rfl
      have e2 : e + 1 + List.countP p l = e + (List.countP p l + 1) := by omega
      rw [e1, ih (e + 1), e2]
    · simp only [hk, if_false, Bool.false_eq_true]
      rw [ih e]
      simp

theorem identity_step (m : Nat) (hm : m ≠ 0) :
    (fun (c : Nat × Nat × ℚ) k =>
      if odd (m &&& k) || m == 0 then
        if odd ((fun k => k) k &&& m) then (c.1 + 1, c.2.1, c.2.2 + 1)
        else (c.1, c.2.1 + 1, c.2.2 + 1)
      else c)
    = fun (c : Nat × Nat × ℚ) k =>
        if odd (m &&& k) then (c.1 + 1, c.2.1, c.2.2 + 1) else c := by
  funext c k
  have hm0 : (m == 0) = false := by simpa using hm
  rw [hm0, Bool.or_false]
  simp only [Nat.and_comm k m]
  by_cases hk : odd (m &&& k) = true <;> simp [hk]

theorem identity_counts (m : Nat) (hm : m ≠ 0) :
    findprobsCounts (fun k => k) m m
      = ((List.range 256).countP (fun k => odd (m &&& k)), 0,
          (((List.range 256).countP (fun k => odd (m &&& k)) : Nat) : ℚ)) := by
  unfold findprobsCounts
  rw [identity_step m hm]
  have h := count_fold (fun k => odd (m &&& k)) (List.range 256) 0
  simp only [Nat.cast_zero, Nat.zero_add] at h
  exact h

theorem lowbit_check :
    allBelow 255 (fun m => odd ((m + 1) &&& ((m + 1) &&& (255 - m)))) = true := by
  decide!

theorem identity_diag (probs : Mat) (m : Nat) (hm1 : 1 ≤ m) (hm : m ≤ 255) :
    (findprobsCounts (fun k => k) m m).2.2 ≠ 0 ∧ findprobs probs (fun k => k) m m = 1 / 2 := by
  have hc := identity_counts m (by omega : m ≠ 0)
  have hpos : 0 < (List.range 256).countP (fun k => odd (m &&& k)) := by
    rw [List.countP_pos_iff]
    have h := allBelow_spec 255 _ lowbit_check (m - 1) (by omega)
    have e1 : m - 1 + 1 = m := by omega
    have e2 : 255 - (m - 1) = 256 - m := by omega
    simp only [e1, e2] at h
    refine ⟨m &&& (256 - m), List.mem_range.2 ?_, h⟩
    exact Nat.lt_of_le_of_lt Nat.and_le_left (by omega)
  constructor
  · rw [hc]
    simp only
    exact_mod_cast (by omega : (List.range 256).countP (fun k => odd (m &&& k)) ≠ 0)
  · rw [findprobs_cell probs _ m m hm1 hm (by omega)]
    unfold findprobsCell
    simp only [hc]
    rw [if_pos (by simpa using hpos)]
    simp

/-! ### The counters of `findprobs` -/

theorem counts_fold (c q : Nat → Bool) (l : List Nat) (e n : Nat) (s : ℚ) :
    l.foldl
      (fun (t : Nat × Nat × ℚ) k =>
        if c k then
          if q k then (t.1 + 1, t.2.1, t.2.2 + 1) else (t.1, t.2.1 + 1, t.2.2 + 1)
        else t)
      (e, n, s)
    = (e + l.countP (fun k => c k && q k), n + l.countP (fun k => c k && !q k),
        s + (l.countP c : ℚ)) := by
  induction l generalizing e n s with
  | nil => simp
  | cons k l ih =>
    rw [List.foldl_cons, List.countP_cons, List.countP_cons, List.countP_cons]
    cases hc : c k <;> cases hq : q k <;>
      simp only [Bool.false_eq_true, if_false, if_true, Bool.and_self, Bool.and_false,
        Bool.false_and, Bool.and_true, Bool.not_true, Bool.not_false, Nat.add_zero,
        Bool.true_and] <;>
      rw [ih] <;>
      refine Prod.ext ?_ (Prod.ext ?_ ?_) <;> simp only [Nat.cast_add, Nat.cast_one] <;>
      first
        | rfl
        | omega
        | ring

theorem countP_split (c q : Nat → Bool) (l : List Nat) :
    l.countP (fun k => c k && q k) + l.countP (fun k => c k && !q k) = l.countP c := by
  induction l with
  | nil => rfl
  | cons k l ih =>
    rw [List.countP_cons, List.countP_cons, List.countP_cons, ← ih]
    cases c k <;> cases q k <;> simp <;> omega

theorem findprobsCounts_eq (Sbox : Arr) (i j : Nat) :
    findprobsCounts Sbox i j
      = ((List.range 256).countP (fun k => (odd (j &&& k) || j == 0) && odd (Sbox k &&& i)),
         (List.range 256).countP (fun k => (odd (j &&& k) || j == 0) && !odd (Sbox k &&& i)),
         ((List.range 256).countP (fun k => odd (j &&& k) || j == 0) : ℚ)) := by
  unfold findprobsCounts
  have h := counts_fold (fun k => odd (j &&& k) || j == 0) (fun k => odd (Sbox k &&& i))
    (List.range 256) 0 0 0
  simp only [Nat.zero_add, zero_add] at h
  exact h

theorem findprobsCounts_sum (Sbox : Arr) (i j : Nat) :
    (findprobsCounts Sbox i j).2.2
      = ((findprobsCounts Sbox i j).1 : ℚ) + ((findprobsCounts Sbox i j).2.1 : ℚ) := by
  rw [findprobsCounts_eq]
  simp only
  rw [← countP_split (fun k => odd (j &&& k) || j == 0) (fun k => odd (Sbox k &&& i))]
  push_cast
  rfl

/-! ### Half of the inputs have odd parity under a non-zero mask -/

theorem odd_parity_check : allBelow 256 (fun a => odd a == parity8 a) = true := by
  decide!

theorem odd_eq_parity8 (a : Nat) (ha : a < 256) : odd a = parity8 a := by
  have h := allBelow_spec 256 _ odd_parity_check a ha
  simpa using h

theorem parity8_flip (x b : Nat) (hb : b < 8) : parity8 (x ^^^ 2 ^ b) = !parity8 x := by
  interval_cases b <;>
    simp only [parity8, List.foldl, Nat.testBit_xor, Nat.testBit_two_pow] <;>
    generalize x.testBit 0 = c0 <;> generalize x.testBit 1 = c1 <;>
    generalize x.testBit 2 = c2 <;> generalize x.testBit 3 = c3 <;>
    generalize x.testBit 4 = c4 <;> generalize x.testBit 5 = c5 <;>
    generalize x.testBit 6 = c6 <;> generalize x.testBit 7 = c7 <;>
    revert c0 c1 c2 c3 c4 c5 c6 c7 <;> decide

theorem odd_flip (a b : Nat) (ha : a < 256) (hb : b < 8) : odd (a ^^^ 2 ^ b) = !odd a := by
  have hp : 2 ^ b < 2 ^ 8 := Nat.pow_lt_pow_right (by decide) hb
  have hx : a ^^^ 2 ^ b < 2 ^ 8 := Nat.xor_lt_two_pow (by simpa using ha) hp
  rw [odd_eq_parity8 _ (by simpa using hx), odd_eq_parity8 a ha, parity8_flip a b hb]

theorem flip_perm (b : Nat) (hb : b < 8) :
    ((List.range 256).map (fun k => k ^^^ 2 ^ b)).Perm (List.range 256) := by
  have hp : 2 ^ b < 2 ^ 8 := Nat.pow_lt_pow_right (by decide) hb
  have hinv : ∀ k : Nat, (k ^^^ 2 ^ b) ^^^ 2 ^ b = k := fun k => by
    rw [Nat.xor_assoc, Nat.xor_self, Nat.xor_zero]
  have hinj : Function.Injective (fun k : Nat => k ^^^ 2 ^ b) := fun x y h => by
    have h2 := congrArg (fun t => t ^^^ 2 ^ b) h
    simpa only [hinv] using h2
  rw [List.perm_ext_iff_of_nodup (List.Nodup.map hinj (List.nodup_range 256))
    (List.nodup_range 256)]
  intro a
  simp only [List.mem_map, List.mem_range]
  constructor
  · rintro ⟨k, hk, rfl⟩
    exact Nat.xor_lt_two_pow (n := 8) hk hp
  · intro ha
    exact ⟨a ^^^ 2 ^ b, Nat.xor_lt_two_pow (n := 8) ha hp, hinv a⟩

theorem count_odd_half (j : Nat) (hj0 : j ≠ 0) (hj : j < 256) :
    (List.range 256).countP (fun k => odd (j &&& k)) = 128 := by
  obtain ⟨b, hjb⟩ := Nat.ne_zero_implies_bit_true hj0
  have hb : b < 8 := by
    by_contra hcon
    have h2 : j < 2 ^ b := lt_of_lt_of_le hj
      (Nat.pow_le_pow_right (by decide) (Nat.le_of_not_lt hcon) : 2 ^ 8 ≤ 2 ^ b)
    rw [Nat.testBit_lt_two_pow h2] at hjb
    exact Bool.false_ne_true hjb
  have hflip : ∀ k, odd (j &&& (k ^^^ 2 ^ b)) = !odd (j &&& k) := fun k => by
    have h1 : j &&& 2 ^ b = 2 ^ b := by rw [Nat.and_two_pow, hjb]; simp
    rw [Nat.and_xor_distrib_left, h1]
    exact odd_flip _ b (lt_of_le_of_lt Nat.and_le_left hj) hb
  have h1 := List.Perm.countP_eq (fun k => odd (j &&& k)) (flip_perm b hb)
  rw [List.countP_map] at h1
  have h2 : List.countP ((fun k => odd (j &&& k)) ∘ fun k => k ^^^ 2 ^ b) (List.range 256)
      = List.countP (fun a => decide ¬odd (j &&& a) = true) (List.range 256) := by
    apply List.countP_congr
    intro k _
    simp only [Function.comp, hflip]
    simp
  have h3 := List.length_eq_countP_add_countP (fun k => odd (j &&& k)) (List.range 256)
  rw [List.length_range, ← h2, h1] at h3
  omega

theorem findprobsCounts_total (Sbox : Arr) (i j : Nat) (hj : j < 256) :
    (findprobsCounts Sbox i j).2.2
      = (((List.range 256).countP (fun k => decide (j = 0) || odd (j &&& k)) : Nat) : ℚ)
    ∧ (j = 0 → (findprobsCounts Sbox i j).2.2 = 256)
    ∧ (j ≠ 0 → (findprobsCounts Sbox i j).2.2 = 128) := by
  rw [findprobsCounts_eq]
  simp only
  have hcongr : (List.range 256).countP (fun k => odd (j &&& k) || j == 0)
      = (List.range 256).countP (fun k => decide (j = 0) || odd (j &&& k)) := by
    apply List.countP_congr
    intro k _
    simp [or_comm]
  refine ⟨by rw [hcongr], fun h0 => ?_, fun h0 => ?_⟩
  · subst h0
    have : (List.range 256).countP (fun k => odd (0 &&& k) || 0 == 0) = 256 := by
      rw [List.countP_eq_length.2 (fun k _ => by simp), List.length_range]
    rw [this]
    norm_num
  · have : (List.range 256).countP (fun k => odd (j &&& k) || j == 0) = 128 := by
      rw [← count_odd_half j h0 hj]
      apply List.countP_congr
      intro k _
      simp [h0]
    rw [this]
    norm_num

theorem findprobsCell_min (Sbox : Arr) (i j : Nat) :
    findprobsCell Sbox i j
      = 1 / 2 - ((min (findprobsCounts Sbox i j).1 (findprobsCounts Sbox i j).2.1 : Nat) : ℚ)
          / (findprobsCounts Sbox i j).2.2 := by
  unfold findprobsCell
  simp only
  by_cases h : (findprobsCounts Sbox i j).1 > (findprobsCounts Sbox i j).2.1
  · rw [if_pos h, Nat.min_eq_right (Nat.le_of_lt h)]
  · rw [if_neg h, Nat.min_eq_left (Nat.le_of_not_lt h)]

theorem findprobsCell_bounds (Sbox : Arr) (i j : Nat) :
    0 ≤ findprobsCell Sbox i j ∧ findprobsCell Sbox i j ≤ 1 / 2 := by
  rw [findprobsCell_min, findprobsCounts_sum]
  generalize (findprobsCounts Sbox i j).1 = e
  generalize (findprobsCounts Sbox i j).2.1 = n
  have he : (0 : ℚ) ≤ (e : ℚ) := Nat.cast_nonneg e
  have hn : (0 : ℚ) ≤ (n : ℚ) := Nat.cast_nonneg n
  have hm : (0 : ℚ) ≤ ((min e n : Nat) : ℚ) := Nat.cast_nonneg _
  have hm1 : ((min e n : Nat) : ℚ) ≤ e := by exact_mod_cast Nat.min_le_left e n
  have hm2 : ((min e n : Nat) : ℚ) ≤ n := by exact_mod_cast Nat.min_le_right e n
  have hq : (0 : ℚ) ≤ ((min e n : Nat) : ℚ) / ((e : ℚ) + (n : ℚ)) :=
    div_nonneg hm (add_nonneg he hn)
  have hq2 : ((min e n : Nat) : ℚ) / ((e : ℚ) + (n : ℚ)) ≤ 1 / 2 := by
    by_cases hs : (e : ℚ) + (n : ℚ) = 0
    · rw [hs, div_zero]
      norm_num
    · have hpos : (0 : ℚ) < (e : ℚ) + (n : ℚ) :=
        lt_of_le_of_ne (add_nonneg he hn) (Ne.symm hs)
      rw [div_le_iff₀ hpos]
      linarith
  constructor <;> linarith

/-! ### `sortprobs` -/

theorem sortprobs_rows (qsort : (ℚ → ℚ → Int) → List ℚ → List ℚ) (l : List Nat)
    (hl : l.Nodup) (P : Mat) :
    l.foldl (fun P i => P.setRow i (qsort cmpfunc ((List.range 256).map (P i)))) P
      = fun a b =>
          if a ∈ l ∧ b < 256 then (qsort cmpfunc ((List.range 256).map (P a))).getD b 0
          else P a b := by
  induction l generalizing P with
  | nil => simp
  | cons x l ih =>
    rw [List.foldl_cons, ih (List.nodup_cons.1 hl).2]
    have hx : x ∉ l := (List.nodup_cons.1 hl).1
    funext a b
    by_cases ha : a ∈ l
    · have hax : a ≠ x := fun h => hx (h ▸ ha)
      have hrow : (List.range 256).map
            (Mat.setRow P x (qsort cmpfunc ((List.range 256).map (P x))) a)
          = (List.range 256).map (P a) := by
        apply List.map_congr_left
        intro c _
        simp [Mat.setRow, hax]
      simp only [ha, true_and, List.mem_cons, or_true, hrow]
      simp [Mat.setRow, hax]
    · by_cases hax : a = x
      · subst hax
        simp [Mat.setRow, ha]
      · simp [Mat.setRow, ha, hax]

theorem sortprobs_entry (qsort : (ℚ → ℚ → Int) → List ℚ → List ℚ) (probs : Mat) (i j : Nat)
    (hi1 : 1 ≤ i) (hi : i ≤ 255) (hj : j < 256) :
    sortprobs qsort probs i j = (qsort cmpfunc ((List.range 256).map (probs i))).getD j 0 := by
  unfold sortprobs
  rw [sortprobs_rows qsort _ (List.nodup_range' 1 255)]
  have hmem : i ∈ List.range' 1 255 := by
    rw [List.mem_range'_1]
    omega
  simp only [hmem, hj, and_self, if_true]

theorem map_getD_range (L : List ℚ) (n : Nat) (h : L.length = n) :
    (List.range n).map (fun b => L.getD b 0) = L := by
  apply List.ext_getElem
  · simp [h]
  · intro k h1 h2
    simp only [List.getElem_map, List.getElem_range]
    exact List.getD_eq_getElem L 0 h2

theorem cmpfunc_neg (a b : ℚ) : cmpfunc b a < 0 ↔ b < a := by
  unfold cmpfunc
  by_cases h : b ≥ a
  · rw [if_pos h]
    constructor
    · intro h2
      exact absurd h2 (by decide)
    · intro h2
      exact absurd h (not_le.2 h2)
  · rw [if_neg h]
    exact ⟨fun _ => not_le.1 h, fun _ => by decide⟩

theorem sortsBy_sorted {qsort : (ℚ → ℚ → Int) → List ℚ → List ℚ} (hq : SortsBy qsort cmpfunc)
    (l : List ℚ) : (qsort cmpfunc l).Pairwise (fun a b => a ≤ b) :=
  (hq l).2.imp fun {a b} h => not_lt.1 (fun h2 => h ((cmpfunc_neg a b).2 h2))

theorem insertionQsort_sortsBy : SortsBy insertionQsort cmpfunc := by
  intro l
  have hrel : (fun a b : ℚ => ¬ cmpfunc b a < 0) = (fun a b : ℚ => a ≤ b) := by
    funext a b
    exact propext ⟨fun h => not_lt.1 (fun h2 => h ((cmpfunc_neg a b).2 h2)),
      fun h h2 => absurd ((cmpfunc_neg a b).1 h2) (not_lt.2 h)⟩
  refine ⟨List.perm_insertionSort _ l, ?_⟩
  have hs : (List.insertionSort (fun a b : ℚ => a ≤ b) l).Pairwise (fun a b : ℚ => a ≤ b) :=
    List.sorted_insertionSort (fun a b : ℚ => a ≤ b) l
  unfold insertionQsort
  convert hs using 2

theorem sortprobs_row {qsort : (ℚ → ℚ → Int) → List ℚ → List ℚ} (hq : SortsBy qsort cmpfunc)
    (probs : Mat) (i : Nat) (hi1 : 1 ≤ i) (hi : i ≤ 255) :
    (List.range 256).map (sortprobs qsort probs i)
      = qsort cmpfunc ((List.range 256).map (probs i)) := by
  have hlen : (qsort cmpfunc ((List.range 256).map (probs i))).length = 256 := by
    rw [(hq _).1.length_eq]
    simp
  rw [← map_getD_range (qsort cmpfunc ((List.range 256).map (probs i))) 256 hlen]
  apply List.map_congr_left
  intro j hj
  exact sortprobs_entry qsort probs i j hi1 hi (List.mem_range.1 hj)

theorem sortprobs_last {qsort : (ℚ → ℚ → Int) → List ℚ → List ℚ} (hq : SortsBy qsort cmpfunc)
    (probs : Mat) (i : Nat) (hi1 : 1 ≤ i) (hi : i ≤ 255) :
    (∀ j, j < 256 → probs i j ≤ sortprobs qsort probs i 255)
    ∧ ∃ j, j < 256 ∧ sortprobs qsort probs i 255 = probs i j := by
  have hperm := (hq ((List.range 256).map (probs i))).1
  have hsorted := sortsBy_sorted hq ((List.range 256).map (probs i))
  have hlen : (qsort cmpfunc ((List.range 256).map (probs i))).length = 256 := by
    rw [hperm.length_eq]
    simp
  have hlast : sortprobs qsort probs i 255
      = (qsort cmpfunc ((List.range 256).map (probs i)))[255] := by
    rw [sortprobs_entry qsort probs i 255 hi1 hi (by decide)]
    exact List.getD_eq_getElem _ 0 (by omega)
  constructor
  · intro j hj
    have hmem : probs i j ∈ qsort cmpfunc ((List.range 256).map (probs i)) :=
      hperm.mem_iff.2 (List.mem_map.2 ⟨j, List.mem_range.2 hj, rfl⟩)
    obtain ⟨k, hk, hkv⟩ := List.mem_iff_getElem.1 hmem
    rw [hlast, ← hkv]
    by_cases hk2 : k = 255
    · subst hk2
      exact le_refl _
    · exact (List.pairwise_iff_getElem.1 hsorted) k 255 hk (by omega) (by omega)
  · have hmem : (qsort cmpfunc ((List.range 256).map (probs i)))[255]
        ∈ (List.range 256).map (probs i) := hperm.mem_iff.1 (List.getElem_mem _)
    obtain ⟨j, hj, hjv⟩ := List.mem_map.1 hmem
    exact ⟨j, List.mem_range.1 hj, by rw [hlast, hjv]⟩

/-! ### The quick sort driven by `cmpfunc` -/

theorem cmpfunc_sign (a b : ℚ) :
    (cmpfunc a b < 0 ↔ a < b) ∧ cmpfunc a b ≠ 0 ∧ (0 < cmpfunc a b ↔ b ≤ a) := by
  unfold cmpfunc
  by_cases h : a ≥ b
  · rw [if_pos h]
    exact ⟨⟨fun h2 => absurd h2 (by decide), fun h2 => absurd h (not_le.2 h2)⟩, by decide,
      ⟨fun _ => h, fun _ => by decide⟩⟩
  · rw [if_neg h]
    exact ⟨⟨fun _ => not_le.1 h, fun _ => by decide⟩, by decide,
      ⟨fun h2 => absurd h2 (by decide), fun h2 => absurd h2 h⟩⟩

theorem qsortAux_spec (n : Nat) :
    ∀ l : List ℚ, l.length ≤ n →
      (qsortAux cmpfunc n l).Perm l ∧ (qsortAux cmpfunc n l).Pairwise (fun a b => a ≤ b) := by
  induction n with
  | zero =>
    intro l hl
    have : l = [] := List.length_eq_zero.1 (Nat.le_zero.1 hl)
    subst this
    exact ⟨List.Perm.refl _, List.Pairwise.nil⟩
  | succ n ih =>
    intro l hl
    cases l with
    | nil => exact ⟨List.Perm.refl _, List.Pairwise.nil⟩
    | cons p xs =>
      have hlen : xs.length ≤ n := by
        rw [List.length_cons] at hl
        omega
      have hE : xs.filter (fun x => decide (cmpfunc x p = 0)) = [] := by
        rw [List.filter_eq_nil_iff]
        intro x _
        simpa using (cmpfunc_sign x p).2.1
      have hG : xs.filter (fun x => decide (0 < cmpfunc x p))
          = xs.filter (fun x => !decide (cmpfunc x p < 0)) := by
        apply List.filter_congr
        intro x _
        by_cases hx : x < p
        · have h1 : cmpfunc x p < 0 := (cmpfunc_sign x p).1.2 hx
          have h2 : ¬ 0 < cmpfunc x p := fun h => absurd ((cmpfunc_sign x p).2.2.1 h) (not_le.2 hx)
          simp [h1, h2]
        · have h1 : ¬ cmpfunc x p < 0 := fun h => hx ((cmpfunc_sign x p).1.1 h)
          have h2 : 0 < cmpfunc x p := (cmpfunc_sign x p).2.2.2 (not_lt.1 hx)
          simp [h1, h2]
      obtain ⟨hLp, hLs⟩ := ih (xs.filter fun x => decide (cmpfunc x p < 0))
        (le_trans (List.length_filter_le _ _) hlen)
      obtain ⟨hGp, hGs⟩ := ih (xs.filter fun x => decide (0 < cmpfunc x p))
        (le_trans (List.length_filter_le _ _) hlen)
      have hLmem : ∀ a ∈ qsortAux cmpfunc n (xs.filter fun x => decide (cmpfunc x p < 0)),
          a < p := by
        intro a ha
        have h := (List.mem_filter.1 (hLp.mem_iff.1 ha)).2
        exact (cmpfunc_sign a p).1.1 (by simpa using h)
      have hGmem : ∀ b ∈ qsortAux cmpfunc n (xs.filter fun x => decide (0 < cmpfunc x p)),
          p ≤ b := by
        intro b hb
        have h := (List.mem_filter.1 (hGp.mem_iff.1 hb)).2
        exact (cmpfunc_sign b p).2.2.1 (by simpa using h)
      show (qsortAux cmpfunc n (xs.filter fun x => decide (cmpfunc x p < 0))
            ++ (p :: xs.filter fun x => decide (cmpfunc x p = 0))
            ++ qsortAux cmpfunc n (xs.filter fun x => decide (0 < cmpfunc x p))).Perm (p :: xs)
          ∧ (qsortAux cmpfunc n (xs.filter fun x => decide (cmpfunc x p < 0))
            ++ (p :: xs.filter fun x => decide (cmpfunc x p = 0))
            ++ qsortAux cmpfunc n (xs.filter fun x => decide (0 < cmpfunc x p))).Pairwise
              (fun a b => a ≤ b)
      rw [hE, List.append_assoc, List.singleton_append]
      constructor
      · refine List.perm_middle.trans (List.Perm.cons p ((List.Perm.append hLp hGp).trans ?_))
        rw [hG]
        exact List.filter_append_perm _ xs
      · rw [List.pairwise_append]
        refine ⟨hLs, List.pairwise_cons.2 ⟨hGmem, hGs⟩, ?_⟩
        intro a ha b hb
        rcases List.mem_cons.1 hb with rfl | hb
        · exact le_of_lt (hLmem a ha)
        · exact le_trans (le_of_lt (hLmem a ha)) (hGmem b hb)

theorem qsort_sortsBy : SortsBy qsort cmpfunc := by
  intro l
  obtain ⟨hp, hs⟩ := qsortAux_spec l.length l (le_refl _)
  exact ⟨hp, hs.imp fun {a b} h h2 => absurd ((cmpfunc_sign b a).1.1 h2) (not_lt.2 h)⟩

/-! ### The reported maximum and the layout of `totxt` -/

theorem maxFold_spec (v : Nat → ℚ) (l : List Nat) (m0 : ℚ) :
    m0 ≤ l.foldl (fun mx i => if v i > mx then v i else mx) m0
    ∧ (∀ i ∈ l, v i ≤ l.foldl (fun mx i => if v i > mx then v i else mx) m0)
    ∧ (l.foldl (fun mx i => if v i > mx then v i else mx) m0 = m0
        ∨ ∃ i ∈ l, l.foldl (fun mx i => if v i > mx then v i else mx) m0 = v i) := by
  induction l generalizing m0 with
  | nil => simp
  | cons x l ih =>
    rw [List.foldl_cons]
    obtain ⟨h1, h2, h3⟩ := ih (if v x > m0 then v x else m0)
    have hge : m0 ≤ (if v x > m0 then v x else m0) ∧ v x ≤ (if v x > m0 then v x else m0) := by
      by_cases h : v x > m0
      · rw [if_pos h]
        exact ⟨le_of_lt h, le_refl _⟩
      · rw [if_neg h]
        exact ⟨le_refl _, not_lt.1 h⟩
    refine ⟨le_trans hge.1 h1, ?_, ?_⟩
    · intro i hi
      rcases List.mem_cons.1 hi with rfl | hi
      · exact le_trans hge.2 h1
      · exact h2 i hi
    · rcases h3 with h3 | ⟨i, hi, h3⟩
      · by_cases h : v x > m0
        · rw [if_pos h] at h3
          exact Or.inr ⟨x, List.mem_cons_self _ _, by rw [if_pos h]; exact h3⟩
        · rw [if_neg h] at h3
          exact Or.inl (by rw [if_neg h]; exact h3)
      · exact Or.inr ⟨i, List.mem_cons_of_mem _ hi, h3⟩

theorem reportedMax_spec {qsort : (ℚ → ℚ → Int) → List ℚ → List ℚ}
    (hq : SortsBy qsort cmpfunc) (probs0 : Mat) (Sbox : Arr) :
    (∀ i j, 1 ≤ i → i ≤ 255 → j ≤ 255 →
        findprobs probs0 Sbox i j ≤ reportedMax qsort probs0 Sbox)
    ∧ ∃ i j, 1 ≤ i ∧ i ≤ 255 ∧ j ≤ 255
        ∧ reportedMax qsort probs0 Sbox = findprobs probs0 Sbox i j := by
  obtain ⟨h1, h2, h3⟩ := maxFold_spec
    (fun i => sortprobs qsort (findprobs probs0 Sbox) i 255) (List.range' 1 255) 0
  have hres : reportedMax qsort probs0 Sbox
      = (List.range' 1 255).foldl
          (fun mx i => if sortprobs qsort (findprobs probs0 Sbox) i 255 > mx
            then sortprobs qsort (findprobs probs0 Sbox) i 255 else mx) 0 := rfl
  rw [← hres] at h1 h2 h3
  constructor
  · intro i j hi1 hi hj
    have hmem : i ∈ List.range' 1 255 := by
      rw [List.mem_range'_1]
      omega
    exact le_trans ((sortprobs_last hq (findprobs probs0 Sbox) i hi1 hi).1 j (by omega))
      (h2 i hmem)
  · rcases h3 with h3 | ⟨i, hi, h3⟩
    · refine ⟨1, 0, le_refl _, by decide, by decide, ?_⟩
      have hle := le_trans
        ((sortprobs_last hq (findprobs probs0 Sbox) 1 (le_refl _) (by decide)).1 0 (by decide))
        (h2 1 (by rw [List.mem_range'_1]; omega))
      have hge : 0 ≤ findprobs probs0 Sbox 1 0 := by
        rw [findprobs_cell probs0 Sbox 1 0 (le_refl _) (by decide) (by decide)]
        exact (findprobsCell_bounds Sbox 1 0).1
      rw [h3] at hle ⊢
      exact le_antisymm hge hle
    · rw [List.mem_range'_1] at hi
      obtain ⟨j, hj, hjv⟩ :=
        (sortprobs_last hq (findprobs probs0 Sbox) i hi.1 (by omega)).2
      exact ⟨i, j, hi.1, by omega, by omega, by rw [h3]; exact hjv⟩

theorem totxtCells_length (probs : Mat) : (totxtCells probs).length = 255 := by
  simp [totxtCells]

theorem totxtCells_line (probs : Mat) (r : Nat) (hr : r < 255) :
    (totxtCells probs).getD r [] = (List.range' 1 255).map (fun j => probs j (255 - r)) := by
  have hlen : r < (totxtCells probs).length := by rw [totxtCells_length]; exact hr
  rw [List.getD_eq_getElem _ _ hlen]
  simp only [totxtCells, List.getElem_map, List.getElem_reverse, List.getElem_range',
    List.length_range']
  have : 1 + 1 * (255 - 1 - r) = 255 - r := by omega
  rw [this]

theorem totxtCells_cell (probs : Mat) (r c : Nat) (hr : r < 255) (hc : c < 255) :
    ((totxtCells probs).getD r []).getD c 0 = probs (c + 1) (255 - r) := by
  rw [totxtCells_line probs r hr]
  have hlen : c < ((List.range' 1 255).map (fun j => probs j (255 - r))).length := by
    simpa using hc
  rw [List.getD_eq_getElem _ _ hlen]
  simp only [List.getElem_map, List.getElem_range']
  have : 1 + 1 * c = c + 1 := by omega
  rw [this]

/-! ### Writing the S-box and reading it back -/

theorem digitChar_spec (d : Nat) (hd : d < 10) :
    (digitChar d).isDigit = true ∧ (digitChar d).toNat - 48 = d ∧ isSpace (digitChar d) = false
      ∧ digitChar d ≠ '-' ∧ digitChar d ≠ '+' := by
  interval_cases d <;> decide

theorem decimal_spec (n : Nat) :
    (∀ c ∈ decimal n, c.isDigit = true ∧ isSpace c = false ∧ c ≠ '-' ∧ c ≠ '+')
    ∧ decimal n ≠ []
    ∧ (decimal n).foldl (fun acc c => acc * 10 + (c.toNat - 48)) 0 = n := by
  unfold decimal
  by_cases h0 : n = 0
  · subst h0
    rw [if_pos rfl]
    refine ⟨?_, by simp, by decide⟩
    intro c hc
    rw [List.mem_singleton] at hc
    subst hc
    decide
  · rw [if_neg h0]
    have hd : ∀ d ∈ Nat.digits 10 n, d < 10 := fun d hd => Nat.digits_lt_base (by decide) hd
    refine ⟨?_, ?_, ?_⟩
    · intro c hc
      obtain ⟨d, hd1, rfl⟩ := List.mem_map.1 hc
      have h := digitChar_spec d (hd d (List.mem_reverse.1 hd1))
      exact ⟨h.1, h.2.2.1, h.2.2.2.1, h.2.2.2.2⟩
    · intro h
      rw [List.map_eq_nil_iff, List.reverse_eq_nil_iff] at h
      exact h0 (Nat.digits_eq_nil_iff_eq_zero.1 h)
    · rw [List.foldl_map]
      have e : ∀ (l : List Nat) (a : Nat), (∀ d ∈ l, d < 10) →
          l.foldl (fun acc d => acc * 10 + ((digitChar d).toNat - 48)) a
            = l.foldl (fun acc d => acc * 10 + d) a := by
        intro l
        induction l with
        | nil => intro a _; rfl
        | cons d l ih =>
          intro a hl
          rw [List.foldl_cons, List.foldl_cons,
            (digitChar_spec d (hl d (List.mem_cons_self _ _))).2.1]
          exact ih _ (fun d' hd' => hl d' (List.mem_cons_of_mem _ hd'))
      rw [e _ 0 (fun d hd1 => hd d (List.mem_reverse.1 hd1)), List.foldl_reverse]
      have h2 := Nat.ofDigits_digits 10 n
      rw [Nat.ofDigits_eq_foldr] at h2
      refine Eq.trans ?_ h2
      congr 1
      funext x y
      simp only [Nat.cast_id]
      ring

theorem scanInt_decimal (w : List Char) (hw : ∀ c ∈ w, isSpace c = true) (n : Nat)
    (rest : List Char) :
    scanInt (w ++ (decimal n ++ '\t' :: rest)) = (some (n : Int), '\t' :: rest) := by
  obtain ⟨hall, hne, hval⟩ := decimal_spec n
  obtain ⟨c, ds, hcd⟩ : ∃ c ds, decimal n = c :: ds := by
    cases h : decimal n with
    | nil => exact absurd h hne
    | cons c ds => exact ⟨c, ds, rfl⟩
  have hc := hall c (by rw [hcd]; exact List.mem_cons_self _ _)
  have hdrop : (w ++ (decimal n ++ '\t' :: rest)).dropWhile isSpace
      = decimal n ++ '\t' :: rest := by
    rw [List.dropWhile_append_of_pos hw, hcd, List.cons_append,
      List.dropWhile_cons_of_neg (by rw [hc.2.1]; decide)]
  have hsign : scanSign (decimal n ++ '\t' :: rest) = (false, decimal n ++ '\t' :: rest) := by
    rw [hcd, List.cons_append]
    unfold scanSign
    simp only [if_neg hc.2.2.1, if_neg hc.2.2.2]
  have htake : (decimal n ++ '\t' :: rest).takeWhile Char.isDigit = decimal n := by
    rw [List.takeWhile_append_of_pos (fun a ha => (hall a ha).1),
      List.takeWhile_cons_of_neg (by decide), List.append_nil]
  have hdrop2 : (decimal n ++ '\t' :: rest).dropWhile Char.isDigit = '\t' :: rest := by
    rw [List.dropWhile_append_of_pos (fun a ha => (hall a ha).1),
      List.dropWhile_cons_of_neg (by decide)]
  have hemp : (decimal n).isEmpty = false := by
    rw [hcd]
    rfl
  unfold scanInt
  simp only [hdrop, hsign, htake, hdrop2, hemp, hval, Bool.false_eq_true, if_false]

theorem append_fold (g : Nat → List Char) (l : List Nat) (acc : List Char) :
    l.foldl (fun out i => out ++ g i) acc = acc ++ l.foldr (fun i t => g i ++ t) [] := by
  induction l generalizing acc with
  | nil => simp
  | cons i l ih => rw [List.foldl_cons, ih, List.foldr_cons, List.append_assoc]

theorem writesbox_eq (sbox : Arr) :
    writesbox sbox
      = (List.range 256).foldr
          (fun i t => (decimal (sbox i) ++ '\t' :: (if i % 16 = 15 then ['\n'] else [])) ++ t)
          [] := by
  have h := append_fold
    (fun i => decimal (sbox i) ++ '\t' :: (if i % 16 = 15 then ['\n'] else []))
    (List.range 256) []
  rw [List.nil_append] at h
  have hf : (fun (out : List Char) (i : Nat) =>
        if i % 16 = 15 then out ++ decimal (sbox i) ++ ['\t'] ++ ['\n']
        else out ++ decimal (sbox i) ++ ['\t'])
      = fun out i => out ++ (decimal (sbox i) ++ '\t' :: (if i % 16 = 15 then ['\n'] else [])) := by
    funext out i
    by_cases hi : i % 16 = 15
    · simp [hi]
    · simp [hi]
  unfold writesbox
  rw [hf]
  exact h

theorem read_fold (sbox : Arr) (l : List Nat) (w : List Char)
    (hw : ∀ c ∈ w, isSpace c = true) (S : Nat → Int) :
    (l.foldl
      (fun (st : List Char × (Nat → Int)) i =>
        match scanInt st.1 with
        | (some v, rest) => (rest, fun k => if k = i then v else st.2 k)
        | (none, rest) => (rest, st.2))
      (w ++ l.foldr
          (fun i t => (decimal (sbox i) ++ '\t' :: (if i % 16 = 15 then ['\n'] else [])) ++ t)
          [],
        S)).2
      = fun k => if k ∈ l then (sbox k : Int) else S k := by
  induction l generalizing w S with
  | nil => simp
  | cons i l ih =>
    rw [List.foldl_cons, List.foldr_cons]
    have hscan := scanInt_decimal w hw (sbox i)
      ((if i % 16 = 15 then ['\n'] else []) ++ l.foldr
        (fun i t => (decimal (sbox i) ++ '\t' :: (if i % 16 = 15 then ['\n'] else [])) ++ t)
        [])
    have hshape : w ++ ((decimal (sbox i) ++ '\t' :: (if i % 16 = 15 then ['\n'] else []))
          ++ l.foldr
            (fun i t =>
              (decimal (sbox i) ++ '\t' :: (if i % 16 = 15 then ['\n'] else [])) ++ t) [])
        = w ++ (decimal (sbox i) ++ '\t' :: ((if i % 16 = 15 then ['\n'] else []) ++ l.foldr
            (fun i t =>
              (decimal (sbox i) ++ '\t' :: (if i % 16 = 15 then ['\n'] else [])) ++ t) [])) := by
      simp
    simp only [hshape, hscan]
    have hw2 : ∀ c ∈ '\t' :: (if i % 16 = 15 then ['\n'] else []), isSpace c = true := by
      intro c hc
      by_cases hi : i % 16 = 15
      · rw [if_pos hi] at hc
        simp only [List.mem_cons, List.mem_singleton, List.not_mem_nil, or_false] at hc
        rcases hc with rfl | rfl <;> decide
      · rw [if_neg hi] at hc
        simp only [List.mem_cons, List.not_mem_nil, or_false] at hc
        subst hc
        decide
    have h2 := ih ('\t' :: (if i % 16 = 15 then ['\n'] else [])) hw2
      (fun k => if k = i then (sbox i : Int) else S k)
    rw [List.cons_append] at h2
    rw [h2]
    funext k
    by_cases hki : k = i
    · subst hki
      by_cases hkl : k ∈ l <;> simp [hkl]
    · by_cases hkl : k ∈ l <;> simp [hkl, hki]

theorem readsbox_writesbox (sbox : Arr) (Sbox0 : Nat → Int) (i : Nat) (hi : i < 256) :
    readsbox (writesbox sbox) Sbox0 i = (sbox i : Int) := by
  unfold readsbox
  rw [writesbox_eq]
  have h := read_fold sbox (List.range 256) [] (fun c hc => absurd hc (List.not_mem_nil c)) Sbox0
  rw [List.nil_append] at h
  rw [h]
  simp only [List.mem_range, hi, if_true]

/-! ### Consequences for irreducible and reducible polynomials -/

theorem searchInvs_irreducible (r fuel : Nat) (invs0 : Arr) (hr1 : 256 ≤ r) (hr2 : r ≤ 511)
    (hirr : Irreducible8 r) (hf : 256 ≤ fuel) :
    ∃ invs, searchInvs fuel r invs0 = some invs ∧ invs 0 = 0 ∧ invs 1 = 1 ∧
      ∀ x, 1 ≤ x → x ≤ 255 →
        1 ≤ invs x ∧ invs x ≤ 255 ∧ IsInvPair r x (invs x) ∧ invs (invs x) = x := by
  obtain ⟨invs, h1, h2, h3, h4⟩ := searchInvs_spec r fuel invs0 hr1 hr2 hf
  refine ⟨invs, h1, h2, h3, ?_⟩
  intro x hx1 hx
  by_cases hx1' : x = 1
  · subst hx1'
    rw [h3]
    exact ⟨by decide, by decide, isInvPair_one hr1, h3⟩
  have hx2 : 2 ≤ x := by omega
  have hall := allInv_of_irreducible hr1 hr2 hirr
  obtain ⟨hlt, hR⟩ := (h4 x hx2 (by omega)).1 (hall x hx2 (by omega))
  have hz2 : 2 ≤ invs x := isInvPair_ge_two hr1 hx2 (by omega) hR
  obtain ⟨hlt', hR'⟩ := (h4 (invs x) hz2 hlt).1 ⟨x, by omega, isInvPair_symm hR⟩
  exact ⟨by omega, by omega, hR,
    isInvPair_unique hr1 hlt' (by omega) hR' (isInvPair_symm hR)⟩

theorem searchInvs_reducible (r fuel : Nat) (invs0 : Arr) (hr1 : 256 ≤ r) (hr2 : r ≤ 511)
    (hred : ¬ Irreducible8 r) (hf : 256 ≤ fuel) :
    ∃ invs, searchInvs fuel r invs0 = some invs ∧ invs 0 = 0 ∧
      ∃ i, 2 ≤ i ∧ i ≤ 255 ∧ invs i = 0 := by
  obtain ⟨invs, h1, h2, _, h4⟩ := searchInvs_spec r fuel invs0 hr1 hr2 hf
  obtain ⟨p, q, hp2, hp, _, _, hpq⟩ := exists_factor_of_reducible hred
  refine ⟨invs, h1, h2, p, hp2, by omega, ?_⟩
  apply (h4 p hp2 hp).2
  rintro ⟨y, _, hR⟩
  exact no_inverse_of_factor hr1 hp2 hpq hR

theorem reducible_256 : ¬ Irreducible8 0x100 := fun h =>
  h 16 (by decide) 16 (by decide) (by decide) (by decide) (by decide)

theorem polyRem_exists_unique (p r : Nat) (hr : r ≠ 0) :
    ∃ m, IsPolyRem p r m ∧ ∀ m', IsPolyRem p r m' → m' = m := by
  obtain ⟨m, hm⟩ := exists_polyRem hr p
  exact ⟨m, hm, fun m' hm' => isPolyRem_unique hr hm' hm⟩

/-! ### The affine transformation is injective on the bytes -/

theorem aesSbox_distinct_check :
    allBelow 256 (fun x => withNat (packedAt aesSboxPacked x) fun sx =>
      allBelow x fun y => !(sx == packedAt aesSboxPacked y)) = true := by
  decide!

theorem aesSbox_injective (x y : Nat) (hx : x < 256) (hy : y < 256)
    (h : packedAt aesSboxPacked x = packedAt aesSboxPacked y) : x = y := by
  have key : ∀ a b, a < 256 → b < a → packedAt aesSboxPacked a ≠ packedAt aesSboxPacked b := by
    intro a b ha hb
    have h1 := allBelow_spec 256 _ aesSbox_distinct_check a ha
    rw [withNat_eq] at h1
    have h2 := allBelow_spec a _ h1 b hb
    simpa using h2
  rcases Nat.lt_trichotomy x y with hlt | heq | hgt
  · exact absurd h.symm (key y x hy hlt)
  · exact heq
  · exact absurd h (key x y hx hgt)

theorem aesInv_involution (x : Nat) (hx : x < 256) :
    packedAt aesInvPacked (packedAt aesInvPacked x) = x := by
  obtain ⟨invs, h1, h2⟩ := searchInvs_aes 256 (fun _ => 0) (le_refl _)
  obtain ⟨invs', h1', h0, _, h4⟩ := searchInvs_irreducible 0x11B 256 (fun _ => 0) (by decide)
    (by decide) irreducible_aes (le_refl _)
  have e : invs' = invs := Option.some.inj (h1'.symm.trans h1)
  subst e
  by_cases hx0 : x = 0
  · subst hx0
    rw [aesInv_small.1, aesInv_small.1]
  · obtain ⟨_, hle, _, hinv⟩ := h4 x (by omega) (by omega)
    rw [← h2 x hx, ← h2 (invs' x) (by omega)]
    exact hinv

theorem affine_eq_table (y : Nat) (hy : y < 256) :
    (affOut y).2 ^^^ 0x63 = packedAt aesSboxPacked (packedAt aesInvPacked y) := by
  have h := aes_affine (packedAt aesInvPacked y) (Nat.mod_lt _ (by decide))
  rw [aesInv_involution y hy] at h
  exact h

theorem affine_injective (x y : Nat) (hx : x < 256) (hy : y < 256)
    (h : (affOut x).2 ^^^ 0x63 = (affOut y).2 ^^^ 0x63) : x = y := by
  rw [affine_eq_table x hx, affine_eq_table y hy] at h
  have hb : ∀ z, packedAt aesInvPacked z < 256 := fun z => Nat.mod_lt _ (by decide)
  have h2 : packedAt aesInvPacked x = packedAt aesInvPacked y :=
    aesSbox_injective _ _ (hb x) (hb y) h
  rw [← aesInv_involution x hx, ← aesInv_involution y hy, h2]

theorem affine_lt (y : Nat) (hy : y < 256) : (affOut y).2 ^^^ 0x63 < 256 :=
  Nat.xor_lt_two_pow (n := 8) (affOut_byte y hy).2.1 (by decide)

theorem perm_range_of_injective (f : Nat → Nat) (n : Nat)
    (hinj : ∀ x, x < n → ∀ y, y < n → f x = f y → x = y) (hlt : ∀ x, x < n → f x < n) :
    ((List.range n).map f).Perm (List.range n) := by
  have hnd : ((List.range n).map f).Nodup :=
    List.Nodup.map_on
      (fun x hx y hy h => hinj x (List.mem_range.1 hx) y (List.mem_range.1 hy) h)
      (List.nodup_range n)
  have hsub : (List.range n).map f ⊆ List.range n := by
    intro a ha
    obtain ⟨x, hx, rfl⟩ := List.mem_map.1 ha
    exact List.mem_range.2 (hlt x (List.mem_range.1 hx))
  exact (hnd.subperm hsub).perm_of_length_le (by simp)

theorem sbox_permutation (r fuel : Nat) (invs0 sbox0 : Arr) (hr1 : 256 ≤ r) (hr2 : r ≤ 511)
    (hirr : Irreducible8 r) (hf : 256 ≤ fuel) :
    ∃ invs, searchInvs fuel r invs0 = some invs
      ∧ (∀ x, x < 256 → ∀ y, y < 256 → invs x = invs y → x = y)
      ∧ (∀ x, x < 256 → invs x < 256)
      ∧ (∀ x, x < 256 → (afftrans invs sbox0).sbox x = (affOut (invs x)).2 ^^^ 0x63)
      ∧ (∀ x, x < 256 → ∀ y, y < 256 →
          (afftrans invs sbox0).sbox x = (afftrans invs sbox0).sbox y → x = y)
      ∧ ((List.range 256).map (afftrans invs sbox0).sbox).Perm (List.range 256) := by
  obtain ⟨invs, h1, h0, _, h4⟩ := searchInvs_irreducible r fuel invs0 hr1 hr2 hirr hf
  have hlt : ∀ x, x < 256 → invs x < 256 := by
    intro x hx
    by_cases hx0 : x = 0
    · subst hx0
      rw [h0]
      decide
    · have := (h4 x (by omega) (by omega)).2.1
      omega
  have hinj : ∀ x, x < 256 → ∀ y, y < 256 → invs x = invs y → x = y := by
    intro x hx y hy h
    by_cases hx0 : x = 0
    · subst hx0
      by_contra hy0
      have := (h4 y (by omega) (by omega)).1
      rw [← h, h0] at this
      omega
    · by_cases hy0 : y = 0
      · subst hy0
        have := (h4 x (by omega) (by omega)).1
        rw [h, h0] at this
        omega
      · have e1 := (h4 x (by omega) (by omega)).2.2.2
        have e2 := (h4 y (by omega) (by omega)).2.2.2
        rw [← e1, ← e2, h]
  have hent : ∀ x, x < 256 → (afftrans invs sbox0).sbox x = (affOut (invs x)).2 ^^^ 0x63 :=
    fun x hx => afftrans_entry invs sbox0 hlt x hx
  have hsinj : ∀ x, x < 256 → ∀ y, y < 256 →
      (afftrans invs sbox0).sbox x = (afftrans invs sbox0).sbox y → x = y := by
    intro x hx y hy h
    rw [hent x hx, hent y hy] at h
    exact hinj x hx y hy (affine_injective _ _ (hlt x hx) (hlt y hy) h)
  refine ⟨invs, h1, hinj, hlt, hent, hsinj, ?_⟩
  apply perm_range_of_injective _ 256 hsinj
  intro x hx
  rw [hent x hx]
  exact affine_lt _ (hlt x hx)

/-! ## Part 3: the statements of the specification -/

/-- C1: for the reduction polynomial `0x11B`, the inverse search of `main` ends, and the
table that `afftrans` derives from its result is the canonical AES S-box; in particular
`sbox[0x00] = 0x63`, `sbox[0x01] = 0x7C` and `sbox[0xFF] = 0x16`. -/
theorem aes_sbox_canonical (fuel : Nat) (invs0 sbox0 : Arr) (hf : 256 ≤ fuel) :
    ∃ invs, searchInvs fuel 0x11B invs0 = some invs ∧
      (List.range 256).map (afftrans invs sbox0).sbox = aesSbox ∧
      (afftrans invs sbox0).sbox 0x00 = 0x63 ∧
      (afftrans invs sbox0).sbox 0x01 = 0x7C ∧
      (afftrans invs sbox0).sbox 0xFF = 0x16 := by
  obtain ⟨invs, h1, h2⟩ := sbox_aes fuel invs0 sbox0 hf
  refine ⟨invs, h1, ?_, ?_, ?_, ?_⟩
  · rw [← aesSbox_range]
    apply List.map_congr_left
    intro x hx
    exact h2 x (List.mem_range.1 hx)
  · rw [h2 0 (by decide)]; exact aesSbox_small.1
  · rw [h2 1 (by decide)]; exact aesSbox_small.2.1
  · rw [h2 0xFF (by decide)]; exact aesSbox_small.2.2

theorem aes_sbox_canonical_witness :
    256 ≤ 256 ∧ ∃ invs, searchInvs 256 0x11B (fun _ => 0) = some invs ∧
      (List.range 256).map (afftrans invs (fun _ => 0)).sbox = aesSbox ∧
      (afftrans invs (fun _ => 0)).sbox 0x00 = 0x63 ∧
      (afftrans invs (fun _ => 0)).sbox 0x01 = 0x7C ∧
      (afftrans invs (fun _ => 0)).sbox 0xFF = 0x16 :=
  ⟨by decide, aes_sbox_canonical 256 (fun _ => 0) (fun _ => 0) (by decide)⟩

/-- C2: for bytes `a` and `b`, `multpoly a b` is the unreduced carry-less product: for
`k` in `0..14`, bit `k` of the result is the parity of the number of pairs `(i, j)` with
`i, j` in `0..7`, `i + j = k`, bit `i` of `a` and bit `j` of `b` set; every bit above
bit 14 is zero; and the result equals the shift-and-XOR reference `clmulRef`. -/
theorem multpoly_carryless (a b : Nat) (ha : a < 256) (hb : b < 256) :
    (∀ k, k ≤ 14 → (multpoly a b).testBit k = decide (pairCount a b k % 2 = 1)) ∧
    (∀ k, 14 < k → (multpoly a b).testBit k = false) ∧
    multpoly a b = clmulRef a b := by
  refine ⟨fun k _ => multpoly_testBit a b k ha hb, ?_, ?_⟩
  · intro k hk
    rw [multpoly_testBit a b k ha hb, pairCount_zero_of_gt a b k hk]
    rfl
  · rw [multpoly_eq_clmul a b ha hb, clmulRef_eq_clmul a b hb]

theorem multpoly_carryless_witness :
    (0x57 < 256 ∧ 0x83 < 256) ∧
    (∀ k, k ≤ 14 → (multpoly 0x57 0x83).testBit k = decide (pairCount 0x57 0x83 k % 2 = 1)) ∧
    (∀ k, 14 < k → (multpoly 0x57 0x83).testBit k = false) ∧
    multpoly 0x57 0x83 = clmulRef 0x57 0x83 :=
  ⟨⟨by decide, by decide⟩, multpoly_carryless 0x57 0x83 (by decide) (by decide)⟩

/-- C3: for a product `p < 2^16` and a reduction polynomial `r` in `0x100..0x1FF`,
`modpoly` ends (10 units of fuel suffice) and returns `1` when the remainder of `p`
divided by `r` over GF(2), which exists and is unique, is the constant `1`, and `0`
otherwise. -/
theorem modpoly_remainder (p r fuel : Nat) (hp : p < 2 ^ 16) (hr1 : 0x100 ≤ r)
    (hr2 : r ≤ 0x1FF) (hf : 10 ≤ fuel) :
    ∃ m, IsPolyRem p r m ∧ (∀ m', IsPolyRem p r m' → m' = m) ∧
      modpoly fuel p r = some (if m = 1 then 1 else 0) := by
  obtain ⟨m, hm, huniq⟩ := polyRem_exists_unique p r (by omega)
  refine ⟨m, hm, huniq, ?_⟩
  have h := modpoly_eq_one_iff p r fuel hp hr1 hr2 hf
  by_cases h1 : m = 1
  · rw [if_pos h1]
    subst h1
    exact h.1 hm
  · rw [if_neg h1]
    exact h.2 (fun h' => h1 (huniq 1 h').symm)

theorem modpoly_remainder_witness :
    (11129 < 2 ^ 16 ∧ 0x100 ≤ 0x11B ∧ 0x11B ≤ 0x1FF ∧ 10 ≤ 10) ∧
    ∃ m, IsPolyRem 11129 0x11B m ∧ (∀ m', IsPolyRem 11129 0x11B m' → m' = m) ∧
      modpoly 10 11129 0x11B = some (if m = 1 then 1 else 0) :=
  ⟨⟨by decide, by decide, by decide, by decide⟩,
    modpoly_remainder 11129 0x11B 10 (by decide) (by decide) (by decide) (by decide)⟩

/-- C4: for an irreducible reduction polynomial `r` of degree 8, the inverse search of
`main` ends with a table `invs` such that `invs[0] = 0`, `invs[1] = 1`, and for every
`x` in `1..255`, `invs[x]` is in `1..255` and `invs[invs[x]] = x`; hence `invs` is
injective on `1..255` and maps `1..255` onto itself. -/
theorem inverse_table_involution (r fuel : Nat) (invs0 : Arr) (hr1 : 0x100 ≤ r)
    (hr2 : r ≤ 0x1FF) (hirr : Irreducible8 r) (hf : 256 ≤ fuel) :
    ∃ invs, searchInvs fuel r invs0 = some invs ∧ invs 0 = 0 ∧ invs 1 = 1 ∧
      (∀ x, 1 ≤ x → x ≤ 255 → 1 ≤ invs x ∧ invs x ≤ 255 ∧ invs (invs x) = x) ∧
      (∀ x y, 1 ≤ x → x ≤ 255 → 1 ≤ y → y ≤ 255 → invs x = invs y → x = y) ∧
      (∀ y, 1 ≤ y → y ≤ 255 → ∃ x, 1 ≤ x ∧ x ≤ 255 ∧ invs x = y) := by
  obtain ⟨invs, h1, h2, h3, h4⟩ := searchInvs_irreducible r fuel invs0 hr1 hr2 hirr hf
  refine ⟨invs, h1, h2, h3, ?_, ?_, ?_⟩
  · intro x hx1 hx
    obtain ⟨a, b, _, d⟩ := h4 x hx1 hx
    exact ⟨a, b, d⟩
  · intro x y hx1 hx hy1 hy hxy
    have ex := (h4 x hx1 hx).2.2.2
    have ey := (h4 y hy1 hy).2.2.2
    rw [← ex, ← ey, hxy]
  · intro y hy1 hy
    obtain ⟨a, b, _, d⟩ := h4 y hy1 hy
    exact ⟨invs y, a, b, d⟩

theorem inverse_table_involution_witness :
    (0x100 ≤ 0x11B ∧ 0x11B ≤ 0x1FF ∧ Irreducible8 0x11B ∧ 256 ≤ 256) ∧
    ∃ invs, searchInvs 256 0x11B (fun _ => 0) = some invs ∧ invs 0 = 0 ∧ invs 1 = 1 ∧
      (∀ x, 1 ≤ x → x ≤ 255 → 1 ≤ invs x ∧ invs x ≤ 255 ∧ invs (invs x) = x) ∧
      (∀ x y, 1 ≤ x → x ≤ 255 → 1 ≤ y → y ≤ 255 → invs x = invs y → x = y) ∧
      (∀ y, 1 ≤ y → y ≤ 255 → ∃ x, 1 ≤ x ∧ x ≤ 255 ∧ invs x = y) :=
  ⟨⟨by decide, by decide, irreducible_aes, by decide⟩,
    inverse_table_involution 0x11B 256 (fun _ => 0) (by decide) (by decide) irreducible_aes
      (by decide)⟩

/-- C5: for an irreducible reduction polynomial `r` of degree 8, the inverse search of
`main` ends with a table `invs` such that `modpoly(multpoly(a, invs[a]), r) = 1` for
every nonzero byte `a`. -/
theorem inverse_product_one (r fuel : Nat) (invs0 : Arr) (hr1 : 0x100 ≤ r) (hr2 : r ≤ 0x1FF)
    (hirr : Irreducible8 r) (hf : 256 ≤ fuel) :
    ∃ invs, searchInvs fuel r invs0 = some invs ∧
      ∀ a, 1 ≤ a → a ≤ 255 → modpoly fuel (multpoly a (invs a)) r = some 1 := by
  obtain ⟨invs, h1, _, _, h4⟩ := searchInvs_irreducible r fuel invs0 hr1 hr2 hirr hf
  refine ⟨invs, h1, ?_⟩
  intro a ha1 ha
  obtain ⟨_, hb, hR, _⟩ := h4 a ha1 ha
  exact (test_spec r fuel a (invs a) hr1 hr2 (by omega) (by omega) (by omega)).1 hR

theorem inverse_product_one_witness :
    (0x100 ≤ 0x11B ∧ 0x11B ≤ 0x1FF ∧ Irreducible8 0x11B ∧ 256 ≤ 256) ∧
    ∃ invs, searchInvs 256 0x11B (fun _ => 0) = some invs ∧
      ∀ a, 1 ≤ a → a ≤ 255 → modpoly 256 (multpoly a (invs a)) 0x11B = some 1 :=
  ⟨⟨by decide, by decide, irreducible_aes, by decide⟩,
    inverse_product_one 0x11B 256 (fun _ => 0) (by decide) (by decide) irreducible_aes
      (by decide)⟩

/-- C6: for a table `invs` of bytes and an index `i` in `0..255`, `afftrans` sets
`sbox[i] = b XOR 0x63` where bit `j` of the byte `b` is the parity of `invs[i]` masked by
`0xF1` rotated left by `j` (row `j` of the matrix of the file header); `sbox[i]` depends
on `invs[i]` only, whatever the other entries, the previous content of `sbox` and the
order in which the entries are processed; and `invs` is left unchanged. -/
theorem afftrans_affine (invs sbox0 : Arr) (i : Nat) (hinv : ∀ k, k < 256 → invs k < 256)
    (hi : i < 256) :
    (∃ b, b < 256 ∧ (∀ j, j < 8 → b.testBit j = parity8 (invs i &&& affRow j)) ∧
      (afftrans invs sbox0).sbox i = b ^^^ 0x63) ∧
    (List.range 8).map affRow = [0xF1, 0xE3, 0xC7, 0x8F, 0x1F, 0x3E, 0x7C, 0xF8] ∧
    (∀ invs' sbox0', (∀ k, k < 256 → invs' k < 256) → invs' i = invs i →
      (afftrans invs' sbox0').sbox i = (afftrans invs sbox0).sbox i) ∧
    (∀ l : List Nat, l.Perm (List.range 256) →
      (l.foldl affEntry { aff := 0xf1, bprime := 0, invs := invs, sbox := sbox0 }).sbox i
        = (afftrans invs sbox0).sbox i) ∧
    (afftrans invs sbox0).invs = invs := by
  have hb := affOut_byte (invs i) (hinv i hi)
  refine ⟨⟨(affOut (invs i)).2, hb.2.1, hb.2.2, afftrans_entry invs sbox0 hinv i hi⟩,
    affRow_rows, ?_, ?_, ?_⟩
  · intro invs' sbox0' hinv' he
    rw [afftrans_entry invs' sbox0' hinv' i hi, afftrans_entry invs sbox0 hinv i hi, he]
  · intro l hl
    have hmem : ∀ k ∈ l, k < 256 := fun k hk => List.mem_range.1 (hl.mem_iff.1 hk)
    rw [affFold_spec invs hinv l hmem, afftrans_entry invs sbox0 hinv i hi]
    simp only
    rw [if_pos (hl.mem_iff.2 (List.mem_range.2 hi))]
  · unfold afftrans
    rw [affFold_spec invs hinv (List.range 256) (fun k hk => List.mem_range.1 hk)]

theorem afftrans_affine_witness :
    ((∀ k, k < 256 → (fun k => k % 256) k < 256) ∧ 3 < 256) ∧
    (∃ b, b < 256 ∧ (∀ j, j < 8 → b.testBit j = parity8 ((fun k => k % 256) 3 &&& affRow j)) ∧
      (afftrans (fun k => k % 256) (fun _ => 0)).sbox 3 = b ^^^ 0x63) ∧
    (List.range 8).map affRow = [0xF1, 0xE3, 0xC7, 0x8F, 0x1F, 0x3E, 0x7C, 0xF8] ∧
    (∀ invs' sbox0', (∀ k, k < 256 → invs' k < 256) → invs' 3 = (fun k => k % 256) 3 →
      (afftrans invs' sbox0').sbox 3 = (afftrans (fun k => k % 256) (fun _ => 0)).sbox 3) ∧
    (∀ l : List Nat, l.Perm (List.range 256) →
      (l.foldl affEntry
          { aff := 0xf1, bprime := 0, invs := fun k => k % 256, sbox := fun _ => 0 }).sbox 3
        = (afftrans (fun k => k % 256) (fun _ => 0)).sbox 3) ∧
    (afftrans (fun k => k % 256) (fun _ => 0)).invs = fun k => k % 256 :=
  ⟨⟨fun k _ => Nat.mod_lt k (by decide), by decide⟩,
    afftrans_affine (fun k => k % 256) (fun _ => 0) 3
      (fun k _ => Nat.mod_lt k (by decide)) (by decide)⟩

/-- C7: `irrpolylist` ends, and the list it collects is, in ascending order and without
repetition, exactly the odd values `r` in `0x101..0x1FF` for which every byte `i` in
`2..255` has some `j` in `2..255` with `modpoly(multpoly(i, j), r) = 1`. -/
theorem irrpolylist_collects (fuel : Nat) (list0 : Arr) (hf : 256 ≤ fuel) :
    ∃ L, irrpolylist fuel list0 = some L ∧ L.Pairwise (fun a b => a < b) ∧
      ∀ r, r ∈ L ↔ (0x101 ≤ r ∧ r ≤ 0x1FF ∧ r % 2 = 1 ∧
        ∀ i, 2 ≤ i → i ≤ 255 →
          ∃ j, 2 ≤ j ∧ j ≤ 255 ∧ modpoly fuel (multpoly i j) r = some 1) := by
  obtain ⟨L, h1, h2, h3⟩ := irrpolylist_spec fuel list0 hf
  refine ⟨L, h1, h2, ?_⟩
  intro r
  rw [h3 r]
  constructor
  · rintro ⟨a, b, c, hall⟩
    exact ⟨a, b, c, (allInv_iff_test (by omega) b (by omega)).1 hall⟩
  · rintro ⟨a, b, c, hall⟩
    exact ⟨a, b, c, (allInv_iff_test (by omega) b (by omega)).2 hall⟩

theorem irrpolylist_collects_witness :
    256 ≤ 256 ∧ ∃ L, irrpolylist 256 (fun _ => 0) = some L ∧ L.Pairwise (fun a b => a < b) ∧
      ∀ r, r ∈ L ↔ (0x101 ≤ r ∧ r ≤ 0x1FF ∧ r % 2 = 1 ∧
        ∀ i, 2 ≤ i → i ≤ 255 →
          ∃ j, 2 ≤ j ∧ j ≤ 255 ∧ modpoly 256 (multpoly i j) r = some 1) :=
  ⟨by decide, irrpolylist_collects 256 (fun _ => 0) (by decide)⟩

/-- C8: a value `r` in `0x100..0x1FF`, odd or even, is in the list collected by
`irrpolylist` if and only if it is irreducible (no factorisation into two polynomials of
degree `1..7`); the list is not empty and contains `0x11B`. -/
theorem irrpolylist_irreducible (fuel : Nat) (list0 : Arr) (hf : 256 ≤ fuel) :
    ∃ L, irrpolylist fuel list0 = some L ∧
      (∀ r, 0x100 ≤ r → r ≤ 0x1FF → (r ∈ L ↔ Irreducible8 r)) ∧ L ≠ [] ∧ 0x11B ∈ L := by
  obtain ⟨L, h1, _, h3⟩ := irrpolylist_spec fuel list0 hf
  have hmem : 0x11B ∈ L := (h3 0x11B).2 ⟨by decide, by decide, by decide, allInv_aes⟩
  refine ⟨L, h1, ?_, List.ne_nil_of_mem hmem, hmem⟩
  intro r hr1 hr2
  rw [h3 r]
  constructor
  · rintro ⟨_, _, _, hall⟩
    exact irreducible_of_allInv hr1 hall
  · intro hirr
    have hodd := odd_of_irreducible hr1 hr2 hirr
    exact ⟨by omega, hr2, hodd, allInv_of_irreducible hr1 hr2 hirr⟩

theorem irrpolylist_irreducible_witness :
    256 ≤ 256 ∧ ∃ L, irrpolylist 256 (fun _ => 0) = some L ∧
      (∀ r, 0x100 ≤ r → r ≤ 0x1FF → (r ∈ L ↔ Irreducible8 r)) ∧ L ≠ [] ∧ 0x11B ∈ L :=
  ⟨by decide, irrpolylist_irreducible 256 (fun _ => 0) (by decide)⟩

/-- C9: for a reducible reduction polynomial `r` of degree 8, the inverse search of
`main` ends and yields a table in which some byte `i` in `2..255` is mapped to the
sentinel `0`; as `invs[0] = 0` too, the table is not injective on `0..255`. -/
theorem reducible_sentinel (r fuel : Nat) (invs0 : Arr) (hr1 : 0x100 ≤ r) (hr2 : r ≤ 0x1FF)
    (hred : ¬ Irreducible8 r) (hf : 256 ≤ fuel) :
    ∃ invs, searchInvs fuel r invs0 = some invs ∧
      (∃ i, 2 ≤ i ∧ i ≤ 255 ∧ invs i = 0) ∧ invs 0 = 0 ∧
      ∃ i j, i ≤ 255 ∧ j ≤ 255 ∧ i ≠ j ∧ invs i = invs j := by
  obtain ⟨invs, h1, h2, i, hi2, hi, h3⟩ := searchInvs_reducible r fuel invs0 hr1 hr2 hred hf
  exact ⟨invs, h1, ⟨i, hi2, hi, h3⟩, h2, i, 0, hi, by decide, by omega, by rw [h3, h2]⟩

theorem reducible_sentinel_witness :
    (0x100 ≤ 0x100 ∧ 0x100 ≤ 0x1FF ∧ ¬ Irreducible8 0x100 ∧ 256 ≤ 256) ∧
    ∃ invs, searchInvs 256 0x100 (fun _ => 0) = some invs ∧
      (∃ i, 2 ≤ i ∧ i ≤ 255 ∧ invs i = 0) ∧ invs 0 = 0 ∧
      ∃ i j, i ≤ 255 ∧ j ≤ 255 ∧ i ≠ j ∧ invs i = invs j :=
  ⟨⟨by decide, by decide, reducible_256, by decide⟩,
    reducible_sentinel 0x100 256 (fun _ => 0) (by decide) (by decide) reducible_256
      (by decide)⟩

/-- C10, as the specification states it, fails: for the identity S-box the cell
`probs[1][1]` computed by `findprobs` is not `0`. -/
theorem identity_diag_not_zero :
    findprobs (fun _ _ => 0) (fun k => k) 1 1 ≠ 0 := by
  rw [(identity_diag (fun _ _ => 0) 1 (by decide) (by decide)).2]
  norm_num

/-- C10, amended: for the identity S-box, `findprobs` yields the deviation `1/2` in
every cell `probs[m][m]` with `m` in `1..255` (the divisor `sum` being nonzero):
the masked output parity agrees with the condition on every tested input, so the
minority count is `0`. -/
theorem identity_diag_half (probs : Mat) (m : Nat) (hm1 : 1 ≤ m) (hm : m ≤ 255) :
    (findprobsCounts (fun k => k) m m).2.2 ≠ 0 ∧ findprobs probs (fun k => k) m m = 1 / 2 :=
  identity_diag probs m hm1 hm

theorem identity_diag_half_witness :
    (1 ≤ 1 ∧ 1 ≤ 255) ∧
    (findprobsCounts (fun k => k) 1 1).2.2 ≠ 0 ∧
      findprobs (fun _ _ => 0) (fun k => k) 1 1 = 1 / 2 :=
  ⟨⟨by decide, by decide⟩, identity_diag_half (fun _ _ => 0) 1 (by decide) (by decide)⟩

/-- C11: for every S-box, every output mask `i` in `1..255` and every input mask `j` in
`0..255`, the deviation `findprobs` stores in `probs[i][j]` is the exact rational
`1/2 - min(equal, notequal)/sum`, where `equal` and `notequal` count the tested inputs
with odd and with even masked output parity, and it lies between `0` and `1/2`. -/
theorem findprobs_deviation (probs : Mat) (Sbox : Arr) (i j : Nat) (hi1 : 1 ≤ i)
    (hi : i ≤ 255) (hj : j ≤ 255) :
    findprobs probs Sbox i j
        = 1 / 2 - ((min (findprobsCounts Sbox i j).1 (findprobsCounts Sbox i j).2.1 : Nat) : ℚ)
            / (findprobsCounts Sbox i j).2.2
    ∧ (findprobsCounts Sbox i j).1
        = (List.range 256).countP (fun k => (odd (j &&& k) || j == 0) && odd (Sbox k &&& i))
    ∧ (findprobsCounts Sbox i j).2.1
        = (List.range 256).countP (fun k => (odd (j &&& k) || j == 0) && !odd (Sbox k &&& i))
    ∧ 0 ≤ findprobs probs Sbox i j ∧ findprobs probs Sbox i j ≤ 1 / 2 := by
  rw [findprobs_cell probs Sbox i j hi1 hi (by omega)]
  refine ⟨findprobsCell_min Sbox i j, ?_, ?_, (findprobsCell_bounds Sbox i j).1,
    (findprobsCell_bounds Sbox i j).2⟩
  · rw [findprobsCounts_eq]
  · rw [findprobsCounts_eq]

theorem findprobs_deviation_witness :
    (1 ≤ 3 ∧ 3 ≤ 255 ∧ 5 ≤ 255) ∧
    findprobs (fun _ _ => 0) (fun k => k) 3 5
        = 1 / 2 - ((min (findprobsCounts (fun k => k) 3 5).1
              (findprobsCounts (fun k => k) 3 5).2.1 : Nat) : ℚ)
            / (findprobsCounts (fun k => k) 3 5).2.2
    ∧ (findprobsCounts (fun k => k) 3 5).1
        = (List.range 256).countP
            (fun k => (odd (5 &&& k) || 5 == 0) && odd ((fun k => k) k &&& 3))
    ∧ (findprobsCounts (fun k => k) 3 5).2.1
        = (List.range 256).countP
            (fun k => (odd (5 &&& k) || 5 == 0) && !odd ((fun k => k) k &&& 3))
    ∧ 0 ≤ findprobs (fun _ _ => 0) (fun k => k) 3 5
    ∧ findprobs (fun _ _ => 0) (fun k => k) 3 5 ≤ 1 / 2 :=
  ⟨⟨by decide, by decide, by decide⟩,
    findprobs_deviation (fun _ _ => 0) (fun k => k) 3 5 (by decide) (by decide) (by decide)⟩

/-- C12: in `findprobs`, for every S-box, every output mask `i` and every input mask `j`
in `0..255`, the divisor `sum` equals `equal + notequal`, which is the number of inputs
`k` in `0..255` with `j = 0` or odd parity of `j AND k`: `256` when `j = 0` and `128`
when `j` is not `0`; so the division is never by zero. -/
theorem findprobs_divisor (Sbox : Arr) (i j : Nat) (hj : j ≤ 255) :
    (findprobsCounts Sbox i j).2.2
        = ((findprobsCounts Sbox i j).1 : ℚ) + ((findprobsCounts Sbox i j).2.1 : ℚ)
    ∧ (findprobsCounts Sbox i j).2.2
        = (((List.range 256).countP (fun k => decide (j = 0) || odd (j &&& k)) : Nat) : ℚ)
    ∧ (j = 0 → (findprobsCounts Sbox i j).2.2 = 256)
    ∧ (j ≠ 0 → (findprobsCounts Sbox i j).2.2 = 128)
    ∧ (findprobsCounts Sbox i j).2.2 ≠ 0 := by
  obtain ⟨h1, h2, h3⟩ := findprobsCounts_total Sbox i j (by omega)
  refine ⟨findprobsCounts_sum Sbox i j, h1, h2, h3, ?_⟩
  by_cases h0 : j = 0
  · rw [h2 h0]
    norm_num
  · rw [h3 h0]
    norm_num

theorem findprobs_divisor_witness :
    5 ≤ 255 ∧
    (findprobsCounts (fun k => k) 3 5).2.2
        = ((findprobsCounts (fun k => k) 3 5).1 : ℚ)
          + ((findprobsCounts (fun k => k) 3 5).2.1 : ℚ)
    ∧ (findprobsCounts (fun k => k) 3 5).2.2
        = (((List.range 256).countP (fun k => decide (5 = 0) || odd (5 &&& k)) : Nat) : ℚ)
    ∧ (5 = 0 → (findprobsCounts (fun k => k) 3 5).2.2 = 256)
    ∧ (5 ≠ 0 → (findprobsCounts (fun k => k) 3 5).2.2 = 128)
    ∧ (findprobsCounts (fun k => k) 3 5).2.2 ≠ 0 :=
  ⟨by decide, findprobs_divisor (fun k => k) 3 5 (by decide)⟩

/-- C13: for every matrix and every row `i` in `1..255`, after `sortprobs` (the library
routine being the quick sort `qsort` driven by `cmpfunc`) the row `probs[i][0..255]` is
non-decreasing and a rearrangement of the row before; so its last element
`probs[i][255]` is the maximum of the unsorted row. -/
theorem sortprobs_sorts (probs : Mat) (i : Nat) (hi1 : 1 ≤ i) (hi : i ≤ 255) :
    ((List.range 256).map (sortprobs qsort probs i)).Pairwise (fun a b => a ≤ b)
    ∧ ((List.range 256).map (sortprobs qsort probs i)).Perm ((List.range 256).map (probs i))
    ∧ (∀ j, j < 256 → probs i j ≤ sortprobs qsort probs i 255)
    ∧ ∃ j, j < 256 ∧ sortprobs qsort probs i 255 = probs i j := by
  rw [sortprobs_row qsort_sortsBy probs i hi1 hi]
  exact ⟨sortsBy_sorted qsort_sortsBy _, (qsort_sortsBy _).1,
    (sortprobs_last qsort_sortsBy probs i hi1 hi).1,
    (sortprobs_last qsort_sortsBy probs i hi1 hi).2⟩

theorem sortprobs_sorts_witness :
    (1 ≤ 7 ∧ 7 ≤ 255) ∧
    ((List.range 256).map (sortprobs qsort descendingMatrix 7)).Pairwise (fun a b => a ≤ b)
    ∧ ((List.range 256).map (sortprobs qsort descendingMatrix 7)).Perm
        ((List.range 256).map (descendingMatrix 7))
    ∧ (∀ j, j < 256 → descendingMatrix 7 j ≤ sortprobs qsort descendingMatrix 7 255)
    ∧ ∃ j, j < 256 ∧ sortprobs qsort descendingMatrix 7 255 = descendingMatrix 7 j :=
  ⟨⟨by decide, by decide⟩, sortprobs_sorts descendingMatrix 7 (by decide) (by decide)⟩

/-- C14: for every S-box, the maximum deviation reported by `main` of `linearcrypt.c`
(the largest `probs[i][255]` over `i = 1..255` after `sortprobs`, starting from `0`) is
the maximum of the unsorted matrix of `findprobs` over the output masks `1..255` and the
input masks `0..255`: it bounds every such cell and is the value of one of them. -/
theorem reported_max_is_max (qsort : (ℚ → ℚ → Int) → List ℚ → List ℚ)
    (hq : SortsBy qsort cmpfunc) (probs0 : Mat) (Sbox : Arr) :
    (∀ i j, 1 ≤ i → i ≤ 255 → j ≤ 255 →
        findprobs probs0 Sbox i j ≤ reportedMax qsort probs0 Sbox)
    ∧ ∃ i j, 1 ≤ i ∧ i ≤ 255 ∧ j ≤ 255
        ∧ reportedMax qsort probs0 Sbox = findprobs probs0 Sbox i j :=
  reportedMax_spec hq probs0 Sbox

theorem reported_max_is_max_witness :
    SortsBy insertionQsort cmpfunc ∧
    (∀ i j, 1 ≤ i → i ≤ 255 → j ≤ 255 →
        findprobs (fun _ _ => 0) (fun k => k) i j
          ≤ reportedMax insertionQsort (fun _ _ => 0) (fun k => k))
    ∧ ∃ i j, 1 ≤ i ∧ i ≤ 255 ∧ j ≤ 255
        ∧ reportedMax insertionQsort (fun _ _ => 0) (fun k => k)
            = findprobs (fun _ _ => 0) (fun k => k) i j :=
  ⟨insertionQsort_sortsBy,
    reported_max_is_max insertionQsort insertionQsort_sortsBy (fun _ _ => 0) (fun k => k)⟩

/-- C15: for bytes `a` and `b`, `multpoly a b = multpoly b a`; so for every reduction
polynomial `r` in `0x100..0x1FF`, `modpoly` ends on both products with the same
result. -/
theorem multpoly_commutative (a b : Nat) (ha : a < 256) (hb : b < 256) :
    multpoly a b = multpoly b a
    ∧ ∀ r fuel, 0x100 ≤ r → r ≤ 0x1FF → 10 ≤ fuel →
        ∃ v, modpoly fuel (multpoly a b) r = some v
          ∧ modpoly fuel (multpoly b a) r = some v := by
  have hcomm : multpoly a b = multpoly b a := by
    rw [multpoly_eq_clmul a b ha hb, multpoly_eq_clmul b a hb ha, clmul_comm]
  refine ⟨hcomm, ?_⟩
  intro r fuel hr1 hr2 hf
  obtain ⟨m, q, _, _, h⟩ := modpoly_spec (multpoly a b) r fuel (multpoly_lt a b ha hb)
    hr1 hr2 hf
  exact ⟨_, h, by rw [← hcomm]; exact h⟩

theorem multpoly_commutative_witness :
    (0x57 < 256 ∧ 0x83 < 256) ∧
    multpoly 0x57 0x83 = multpoly 0x83 0x57
    ∧ ∀ r fuel, 0x100 ≤ r → r ≤ 0x1FF → 10 ≤ fuel →
        ∃ v, modpoly fuel (multpoly 0x57 0x83) r = some v
          ∧ modpoly fuel (multpoly 0x83 0x57) r = some v :=
  ⟨⟨by decide, by decide⟩, multpoly_commutative 0x57 0x83 (by decide) (by decide)⟩

/-- C16: for every S-box that is a permutation of `0..255`, the text written by
`writesbox` (each value in decimal followed by a tab, a newline after every 16th value),
read back by the 256 successive `%d` reads of `main` in `linearcrypt.c`, yields the same
256 entries in index order, whatever the array held before. -/
theorem sbox_roundtrip (sbox : Arr) (Sbox0 : Nat → Int)
    (_hperm : ((List.range 256).map sbox).Perm (List.range 256)) :
    (List.range 256).map (readsbox (writesbox sbox) Sbox0)
      = (List.range 256).map (fun i => (sbox i : Int)) := by
  apply List.map_congr_left
  intro i hi
  exact readsbox_writesbox sbox Sbox0 i (List.mem_range.1 hi)

theorem sbox_roundtrip_witness :
    ((List.range 256).map (fun k => 255 - k)).Perm (List.range 256) ∧
    (List.range 256).map (readsbox (writesbox (fun k => 255 - k)) (fun _ => 0))
      = (List.range 256).map (fun i => (((fun k => 255 - k) i : Nat) : Int)) :=
  ⟨perm_range_of_injective (fun k => 255 - k) 256
      (fun x hx y hy h => by simp only at h; omega) (fun x _ => by simp only; omega),
    sbox_roundtrip (fun k => 255 - k) (fun _ => 0)
      (perm_range_of_injective (fun k => 255 - k) 256
        (fun x hx y hy h => by simp only at h; omega) (fun x _ => by simp only; omega))⟩

/-- C17, as the specification states it, fails: for a matrix with sorted rows whose only
non-zero entry is `probs[1][255]`, the first value of the first line of `totxt` is that
entry, not `probs[255][255]`. -/
theorem totxt_not_row_major :
    (∀ i j k, j ≤ k → k ≤ 255 → cornerMatrix i j ≤ cornerMatrix i k)
    ∧ ((totxtCells cornerMatrix).getD 0 []).getD 0 0 ≠ cornerMatrix (255 - 0) (255 - 0) := by
  constructor
  · intro i j k hjk hk
    unfold cornerMatrix
    by_cases h1 : i = 1 ∧ j = 255
    · have h2 : i = 1 ∧ k = 255 := ⟨h1.1, by omega⟩
      rw [if_pos h1, if_pos h2]
    · rw [if_neg h1]
      by_cases h2 : i = 1 ∧ k = 255
      · rw [if_pos h2]
        norm_num
      · rw [if_neg h2]
  · rw [totxtCells_cell cornerMatrix 0 0 (by decide) (by decide)]
    unfold cornerMatrix
    norm_num

/-- C17, amended: `totxt` emits 255 lines of 255 values each; the lines correspond to the
columns `255` down to `1` of the sorted matrix and, within a line, the positions
correspond to the output masks `1` up to `255`: the value at line `r`, position `c`
(both counted from `0`) is `probs[c + 1][255 - r]`. -/
theorem totxt_layout (probs : Mat) (r c : Nat) (hr : r < 255) (hc : c < 255) :
    (totxtCells probs).length = 255
    ∧ ((totxtCells probs).getD r []).length = 255
    ∧ ((totxtCells probs).getD r []).getD c 0 = probs (c + 1) (255 - r) := by
  refine ⟨totxtCells_length probs, ?_, totxtCells_cell probs r c hr hc⟩
  rw [totxtCells_line probs r hr]
  simp

theorem totxt_layout_witness :
    (0 < 255 ∧ 0 < 255) ∧
    (totxtCells cornerMatrix).length = 255
    ∧ ((totxtCells cornerMatrix).getD 0 []).length = 255
    ∧ ((totxtCells cornerMatrix).getD 0 []).getD 0 0 = cornerMatrix (0 + 1) (255 - 0) :=
  ⟨⟨by decide, by decide⟩, totxt_layout cornerMatrix 0 0 (by decide) (by decide)⟩

/-- C18, as the specification states it, fails: for the product `256` and the entered
value `0x31B`, `modpoly` never returns, whereas on `0x31B mod 512 = 0x11B` it returns
`0`. -/
theorem modpoly_truncation_fails :
    (¬ ∃ fuel v, modpoly fuel 256 0x31B = some v)
    ∧ modpoly 10 256 (0x31B % 512) = some 0 := by
  constructor
  · rintro ⟨fuel, v, h⟩
    rw [modpoly_diverges 256 0x31B (by decide) (by decide) fuel] at h
    exact Option.noConfusion h
  · decide

/-- C18, amended: `modpoly` does not truncate the reduction polynomial. For a product
`p < 2^15`: when `p < 256`, `modpoly(p, r)` ends for every `r` with the result of
`modpoly(p, r mod 512)`, which is `1` exactly when `p = 1`; when `r` is in
`0x100..0x1FF` (its own truncation), `modpoly(p, r)` ends; and when `256 ≤ p` and
`512 ≤ r < 2^24`, `modpoly(p, r)` never returns. -/
theorem modpoly_untruncated (p r fuel : Nat) (hp : p < 2 ^ 15) (hf : 10 ≤ fuel) :
    (p < 256 → modpoly fuel p r = some (if p = 1 then 1 else 0)
        ∧ modpoly fuel p (r % 512) = modpoly fuel p r)
    ∧ (0x100 ≤ r → r ≤ 0x1FF → (∃ v, modpoly fuel p r = some v)
        ∧ modpoly fuel p (r % 512) = modpoly fuel p r)
    ∧ (256 ≤ p → 512 ≤ r → r < 2 ^ 24 → ∀ n, modpoly n p r = none) := by
  refine ⟨fun h => ?_, fun h1 h2 => ?_, fun h1 h2 _ n => modpoly_diverges p r h1 h2 n⟩
  · rw [modpoly_small p r fuel h (by omega), modpoly_small p (r % 512) fuel h (by omega)]
    exact ⟨rfl, rfl⟩
  · obtain ⟨m, q, _, _, h⟩ := modpoly_spec p r fuel (by omega) h1 h2 hf
    exact ⟨⟨_, h⟩, by rw [Nat.mod_eq_of_lt (by omega)]⟩

theorem modpoly_untruncated_witness :
    (256 < 2 ^ 15 ∧ 10 ≤ 10) ∧
    (256 < 256 → modpoly 10 256 0x31B = some (if 256 = 1 then 1 else 0)
        ∧ modpoly 10 256 (0x31B % 512) = modpoly 10 256 0x31B)
    ∧ (0x100 ≤ 0x31B → 0x31B ≤ 0x1FF → (∃ v, modpoly 10 256 0x31B = some v)
        ∧ modpoly 10 256 (0x31B % 512) = modpoly 10 256 0x31B)
    ∧ (256 ≤ 256 → 512 ≤ 0x31B → 0x31B < 2 ^ 24 → ∀ n, modpoly n 256 0x31B = none) :=
  ⟨⟨by decide, by decide⟩, modpoly_untruncated 256 0x31B 10 (by decide) (by decide)⟩

/-- C19: for every reduction polynomial `r` in `0x100..0x1FF`, the pairwise-marking
search of `main` ends with the table of the naive search (`invs[0] = 0`, `invs[1] = 1`,
`invs[i]` the least `j` in `1..255` with `modpoly(multpoly(i,j), r) = 1`, or `0` when
there is none); `invs[i] = 0` for `i` in `2..255` exactly when `i` has no inverse modulo
`r`; and no entry once recorded is overwritten: an iteration `n` of the outer loop
leaves unchanged every entry below `n` and every entry marked in `found`. -/
theorem search_equals_naive (r fuel : Nat) (invs0 : Arr) (hr1 : 0x100 ≤ r) (hr2 : r ≤ 0x1FF)
    (hf : 256 ≤ fuel) :
    ∃ invs, searchInvs fuel r invs0 = some invs
      ∧ (∀ i, i ≤ 255 → invs i = naiveInvs fuel r i)
      ∧ (∀ i, 2 ≤ i → i ≤ 255 → (invs i = 0 ↔ ¬ ∃ j, j ≤ 255 ∧ IsInvPair r i j))
      ∧ (∀ n, 2 ≤ n → n ≤ 255 →
          ∃ s s', searchState fuel r invs0 n = some s
            ∧ searchState fuel r invs0 (n + 1) = some s'
            ∧ ∀ x, x ≤ 255 → (x < n ∨ s.found x ≠ 0) → s'.invs x = s.invs x)
      ∧ (searchState fuel r invs0 256).map (fun s => s.invs) = some invs := by
  obtain ⟨invs, h1, h2, h3, h4⟩ := searchInvs_spec r fuel invs0 hr1 hr2 hf
  refine ⟨invs, h1, ?_, ?_, ?_, ?_⟩
  · intro i hi
    by_cases hi0 : i = 0
    · subst hi0
      rw [h2]
      rfl
    by_cases hi1 : i = 1
    · subst hi1
      rw [h3]
      rfl
    have hn := naiveInvs_spec r fuel hr1 hr2 (by omega) i (by omega) (by omega)
    by_cases hex : ∃ y, y < 256 ∧ IsInvPair r i y
    · obtain ⟨hlt, hR⟩ := (h4 i (by omega) (by omega)).1 hex
      exact (hn.1 _ hlt hR).symm
    · rw [(h4 i (by omega) (by omega)).2 hex, hn.2 hex]
  · intro i hi2 hi
    constructor
    · rintro h0 ⟨j, hj, hR⟩
      obtain ⟨_, hR'⟩ := (h4 i hi2 (by omega)).1 ⟨j, by omega, hR⟩
      have := isInvPair_ge_two hr1 hi2 (by omega) hR'
      omega
    · intro hno
      apply (h4 i hi2 (by omega)).2
      rintro ⟨y, hy, hR⟩
      exact hno ⟨y, by omega, hR⟩
  · intro n hn2 hn
    obtain ⟨s, hs, hinv⟩ := searchState_inv r fuel invs0 hr1 hr2 hf n hn2 (by omega)
    obtain ⟨s', hs', _⟩ := searchStep_spec r fuel n s hr1 hr2 hf hn2 (by omega) hinv
    refine ⟨s, s', hs, by rw [searchState_succ fuel r invs0 n hn2, hs]; exact hs', ?_⟩
    intro x hx hrec
    exact searchStep_frame r fuel n s s' hr1 hr2 hf hn2 (by omega) hinv hs' x (by omega) hrec
  · rw [← searchInvs_eq_state]
    exact h1

theorem search_equals_naive_witness :
    (0x100 ≤ 0x11B ∧ 0x11B ≤ 0x1FF ∧ 256 ≤ 256) ∧
    ∃ invs, searchInvs 256 0x11B (fun _ => 0) = some invs
      ∧ (∀ i, i ≤ 255 → invs i = naiveInvs 256 0x11B i)
      ∧ (∀ i, 2 ≤ i → i ≤ 255 → (invs i = 0 ↔ ¬ ∃ j, j ≤ 255 ∧ IsInvPair 0x11B i j))
      ∧ (∀ n, 2 ≤ n → n ≤ 255 →
          ∃ s s', searchState 256 0x11B (fun _ => 0) n = some s
            ∧ searchState 256 0x11B (fun _ => 0) (n + 1) = some s'
            ∧ ∀ x, x ≤ 255 → (x < n ∨ s.found x ≠ 0) → s'.invs x = s.invs x)
      ∧ (searchState 256 0x11B (fun _ => 0) 256).map (fun s => s.invs) = some invs :=
  ⟨⟨by decide, by decide, by decide⟩,
    search_equals_naive 0x11B 256 (fun _ => 0) (by decide) (by decide) (by decide)⟩

/-- C20: for every irreducible reduction polynomial `r` in `0x100..0x1FF`, the S-box
produced by the inverse search followed by `afftrans` is a permutation of `0..255`:
every byte value occurs exactly once. The entry for `x` is the affine image of
`invs[x]`; the affine map is injective on the bytes and the inverse table is a
bijection of the bytes. -/
theorem sbox_is_permutation (r fuel : Nat) (invs0 sbox0 : Arr) (hr1 : 0x100 ≤ r)
    (hr2 : r ≤ 0x1FF) (hirr : Irreducible8 r) (hf : 256 ≤ fuel) :
    ∃ invs, searchInvs fuel r invs0 = some invs
      ∧ ((List.range 256).map (afftrans invs sbox0).sbox).Perm (List.range 256)
      ∧ (∀ v, v ≤ 255 → ((List.range 256).map (afftrans invs sbox0).sbox).count v = 1)
      ∧ (∀ x, x ≤ 255 → (afftrans invs sbox0).sbox x = (affOut (invs x)).2 ^^^ 0x63)
      ∧ (∀ x y, x ≤ 255 → y ≤ 255 →
          (affOut x).2 ^^^ 0x63 = (affOut y).2 ^^^ 0x63 → x = y)
      ∧ ((List.range 256).map invs).Perm (List.range 256) := by
  obtain ⟨invs, h1, hinj, hlt, hent, _, hperm⟩ :=
    sbox_permutation r fuel invs0 sbox0 hr1 hr2 hirr hf
  refine ⟨invs, h1, hperm, ?_, fun x hx => hent x (by omega),
    fun x y hx hy h => affine_injective x y (by omega) (by omega) h,
    perm_range_of_injective invs 256 hinj hlt⟩
  intro v hv
  rw [hperm.count_eq]
  exact List.count_eq_one_of_mem (List.nodup_range 256) (List.mem_range.2 (by omega))

theorem sbox_is_permutation_witness :
    (0x100 ≤ 0x11B ∧ 0x11B ≤ 0x1FF ∧ Irreducible8 0x11B ∧ 256 ≤ 256) ∧
    ∃ invs, searchInvs 256 0x11B (fun _ => 0) = some invs
      ∧ ((List.range 256).map (afftrans invs (fun _ => 0)).sbox).Perm (List.range 256)
      ∧ (∀ v, v ≤ 255 →
          ((List.range 256).map (afftrans invs (fun _ => 0)).sbox).count v = 1)
      ∧ (∀ x, x ≤ 255 →
          (afftrans invs (fun _ => 0)).sbox x = (affOut (invs x)).2 ^^^ 0x63)
      ∧ (∀ x y, x ≤ 255 → y ≤ 255 →
          (affOut x).2 ^^^ 0x63 = (affOut y).2 ^^^ 0x63 → x = y)
      ∧ ((List.range 256).map invs).Perm (List.range 256) :=
  ⟨⟨by decide, by decide, irreducible_aes, by decide⟩,
    sbox_is_permutation 0x11B 256 (fun _ => 0) (fun _ => 0) (by decide) (by decide)
      irreducible_aes (by decide)⟩

end SBox
